import Mathlib

/-!
# geneva: handler chains, route groups and the request Context

A shallow embedding of `geneva.go` (package `geneva`) and a verification of
its chain-execution and group-composition behaviour.

## How the Go code is embedded

* A `Handler` is a Go closure `func(*Context)`.  Its body is embedded as a
  finite tree of the Context operations it performs (`Prog`): each node is one
  call on the Context (`Next`, `Abort`, `AbortWithStatus`, `Set`, `Get`,
  `Param`, `GetQuery`, `Writer.WriteHeader`), an access to the variables the
  closure captured (`effect`, `read`), or `panic`.  Nodes that read branch on
  the value read, so a handler may behave differently depending on the state
  of the request.  `Recovery()` is a handler of its own, embedded statement by
  statement.
* `Context.Next` re-enters itself through the handlers it invokes.  It is
  embedded with a fuel argument that bounds the number of nested loop
  iterations; `dispatch` supplies `len(handlers)` units and the theorems show
  that this always suffices.
* The cursor `Context.index` is a Go `int`.  It is embedded as an `Int`: during
  one request it is only ever incremented by one or set to `abortIndex`, so the
  machine bound is out of reach of any chain that fits in memory.  Theorems
  about `Abort` assume `len(handlers) ≤ abortIndex`, which holds of every slice
  of handlers a 64-bit machine can hold.
* The execution state carries a ghost `trace` recording which handlers the loop
  invoked and what the handlers called; no operation reads it.
* The collaborators outside the repository are embedded by their documented
  behaviour: `http.ResponseWriter` as the status it holds, with the interim
  responses and the range check of the `net/http` server, `path.Join` by the
  rules of `path.Clean`, and the router as the table of its registrations,
  which refuses a path without a leading slash and a second registration of
  the same method and path.
* Route groups are Go heap objects mutated in place by `Use`; the engine state
  keeps them in a list indexed by their address.
-/

namespace Geneva

/-! ## Values, response writer -/

/-- Values of Go type `any` that handlers put in the Context store; `null` is
the zero value a map read returns for an absent key. -/
inductive Value where
  | null : Value
  | int (n : Int) : Value
  | str (s : String) : Value
  deriving DecidableEq, Repr

/-- The response sink `http.ResponseWriter`, as far as the chain uses it and as
the writer of the `net/http` server implements it: whether the status of the
response was written, and the status the client observes at the end of the
request (`ResponseRecorder.Code` in the tests), which is `200` until one is
written. -/
structure ResponseWriter where
  wroteHeader : Bool
  Code : Int
  deriving DecidableEq, Repr

/-- Whether `w.WriteHeader(code)` returns: once a status was written the call is
ignored, and before that the writer of `net/http` panics on a code outside
`100..999` (`checkWriteHeaderCode`). -/
def ResponseWriter.accepts (w : ResponseWriter) (code : Int) : Bool :=
  w.wroteHeader || (decide (100 ≤ code) && decide (code ≤ 999))

/-- Whether the server sends `code` as an interim response: the informational
codes `100..199` other than `101` (`StatusSwitchingProtocols`).  After an
interim response the status of the response is still to be written. -/
def isInterim (code : Int) : Bool :=
  decide (100 ≤ code) && decide (code ≤ 199) && decide (code ≠ 101)

/-- The writer after a call `w.WriteHeader(code)` that returns: once the status
was written the call is ignored; an interim code is sent at once and leaves the
status unwritten; any other code becomes the status of the response. -/
def ResponseWriter.WriteHeader (w : ResponseWriter) (code : Int) : ResponseWriter :=
  if w.wroteHeader then w
  else if isInterim code then w
  else { wroteHeader := true, Code := code }

/-- The request `*http.Request`, as far as the Context reads it: the parsed
URL query `r.URL.Query()`, a map from keys to lists of values. -/
structure Request where
  query : List (String × List String)
  deriving DecidableEq, Repr

/-- Embeds `http.StatusInternalServerError`. -/
def StatusInternalServerError : Int := 500

/-- Embeds `abortIndex = math.MaxInt >> 1` on a 64-bit platform. -/
def abortIndex : Int := (2 ^ 63 - 1) / 2

/-! ## Handlers -/

/-- The body of a handler closure over captured variables of type `σ`: the
sequence of operations it performs on its `*Context` argument, each node
holding the rest of the body. -/
inductive Prog (σ : Type) where
  /-- the closure returns -/
  | ret : Prog σ
  /-- the call `c.Next()` -/
  | next (k : Prog σ) : Prog σ
  /-- the call `c.Abort()` -/
  | abort (k : Prog σ) : Prog σ
  /-- the call `c.AbortWithStatus(code)` -/
  | abortWithStatus (code : Int) (k : Prog σ) : Prog σ
  /-- the call `c.Set(key, value)` -/
  | set (key : String) (value : Value) (k : Prog σ) : Prog σ
  /-- the call `value, exists := c.Get(key)` -/
  | get (key : String) (k : Value → Bool → Prog σ) : Prog σ
  /-- the call `c.Writer.WriteHeader(code)`, also as done by `c.String` and `c.JSON` -/
  | writeHeader (code : Int) (k : Prog σ) : Prog σ
  /-- the call `name := c.Param(key)` -/
  | param (key : String) (k : String → Prog σ) : Prog σ
  /-- the call `value, ok := c.GetQuery(key)` -/
  | getQuery (key : String) (k : String → Bool → Prog σ) : Prog σ
  /-- an update of the variables the closure captured, such as `i++` -/
  | effect (f : σ → σ) (k : Prog σ) : Prog σ
  /-- a read of the variables the closure captured -/
  | read (k : σ → Prog σ) : Prog σ
  /-- the call `panic(v)` -/
  | panic : Prog σ

/-- A `Handler`: a user closure, or the middleware returned by `Recovery()`. -/
inductive Handler (σ : Type) where
  | fn (body : Prog σ) : Handler σ
  | recovery : Handler σ

/-- Embeds `Handlers`, a slice of handlers. -/
abbrev Handlers (σ : Type) := List (Handler σ)

/-! ## Context -/

/-- The `Context` struct.  `keys = none` is the nil map of a fresh Context. -/
structure Context (σ : Type) where
  Writer : ResponseWriter
  Request : Request
  Params : List (String × String)
  keys : Option (List (String × Value))
  handlers : Handlers σ
  index : Int

/-- Embeds `Context.Abort`. -/
def Context.Abort {σ : Type} (c : Context σ) : Context σ :=
  { c with index := abortIndex }

/-- Embeds `Context.AbortWithStatus`: `c.Writer.WriteHeader(code)` and then `c.Abort()`. -/
def Context.AbortWithStatus {σ : Type} (c : Context σ) (code : Int) : Context σ :=
  Context.Abort { c with Writer := c.Writer.WriteHeader code }

/-- Embeds `Context.Set`: allocates the map on first use, then `c.keys[key] = value`. -/
def Context.Set {σ : Type} (c : Context σ) (key : String) (value : Value) : Context σ :=
  let m : List (String × Value) :=
    match c.keys with
    | none => []
    | some m => m
  { c with keys := some ((key, value) :: m.filter (fun kv => kv.1 != key)) }

/-- Embeds `Context.Get`: `value, exists = c.keys[key]`; reading a nil map yields the
zero value and `false`. -/
def Context.Get {σ : Type} (c : Context σ) (key : String) : Value × Bool :=
  match c.keys with
  | none => (Value.null, false)
  | some m =>
    match m.lookup key with
    | some v => (v, true)
    | none => (Value.null, false)

/-- Embeds `Context.Param`: `c.Params.ByName(key)`, the value of the first
parameter named `key`, or the empty string. -/
def Context.Param {σ : Type} (c : Context σ) (key : String) : String :=
  match c.Params.lookup key with
  | some v => v
  | none => ""

/-- Embeds `Context.GetQuery`: when `c.Request.URL.Query().Has(key)`, the first
value stored under `key` (the empty string when the list is empty) and `true`;
otherwise the empty string and `false`. -/
def Context.GetQuery {σ : Type} (c : Context σ) (key : String) : String × Bool :=
  match c.Request.query.lookup key with
  | some vs => (vs.head?.getD "", true)
  | none => ("", false)

/-- Embeds `Context.DefaultQuery`. -/
def Context.DefaultQuery {σ : Type} (c : Context σ) (key defaultValue : String) : String :=
  if (c.GetQuery key).2 then (c.GetQuery key).1 else defaultValue

/-- Embeds `Context.Query`. -/
def Context.Query {σ : Type} (c : Context σ) (key : String) : String :=
  (c.GetQuery key).1

/-! ## Chain execution -/

/-- Ghost events of one request. -/
inductive Event where
  /-- the loop of `Next` called `c.handlers[pos]` -/
  | invoke (pos : Nat) : Event
  /-- the handler at `pos` called `c.Next()` -/
  | next (pos : Nat) : Event
  /-- the handler at `pos` called `c.Abort()` or `c.AbortWithStatus` -/
  | abort (pos : Nat) : Event
  /-- the lookup `c.handlers[i]` was out of range -/
  | outOfRange (i : Int) : Event
  /-- a handler called `c.Set(key, value)` -/
  | set (key : String) (value : Value) : Event
  /-- a handler called `c.Get(key)` and received `(value, found)` -/
  | get (key : String) (value : Value) (found : Bool) : Event
  /-- a call of `c.Writer.WriteHeader(code)` returned -/
  | writeHeader (code : Int) : Event
  /-- the handler at `pos` panicked, or the `WriteHeader` it called did -/
  | panic (pos : Nat) : Event
  deriving DecidableEq, Repr

/-- The state of one request: its Context, the variables captured by the
handler closures, and the ghost trace. -/
structure State (σ : Type) where
  c : Context σ
  env : σ
  trace : List Event

/-- How a call ends: it returns, a panic unwinds through it, or the fuel of the
embedding ran out. -/
inductive Result (σ : Type) where
  | done (s : State σ) : Result σ
  | panicked (s : State σ) : Result σ
  | outOfFuel : Result σ

/-- Appends a ghost event. -/
def State.log {σ : Type} (s : State σ) (e : Event) : State σ :=
  { s with trace := s.trace ++ [e] }

/-- The statement `c.index++`. -/
def State.incr {σ : Type} (s : State σ) : State σ :=
  { s with c := { s.c with index := s.c.index + 1 } }

/-- The positions of the handlers invoked, in order of invocation. -/
def calls : List Event → List Nat
  | [] => []
  | Event.invoke p :: t => p :: calls t
  | _ :: t => calls t

/-- Runs the body of the handler at `pos`; `nxt` is what a call of `c.Next()`
does. -/
def runProg {σ : Type} (nxt : State σ → Result σ) (pos : Nat) :
    Prog σ → State σ → Result σ
  | Prog.ret, s => Result.done s
  | Prog.next k, s =>
    match nxt (s.log (Event.next pos)) with
    | Result.done s1 => runProg nxt pos k s1
    | r => r
  | Prog.abort k, s =>
    runProg nxt pos k { s.log (Event.abort pos) with c := s.c.Abort }
  | Prog.abortWithStatus code k, s =>
    if s.c.Writer.accepts code then
      runProg nxt pos k
        { (s.log (Event.writeHeader code)).log (Event.abort pos) with
          c := s.c.AbortWithStatus code }
    else Result.panicked (s.log (Event.panic pos))
  | Prog.set key value k, s =>
    runProg nxt pos k { s.log (Event.set key value) with c := s.c.Set key value }
  | Prog.get key k, s =>
    runProg nxt pos (k (s.c.Get key).1 (s.c.Get key).2)
      (s.log (Event.get key (s.c.Get key).1 (s.c.Get key).2))
  | Prog.writeHeader code k, s =>
    if s.c.Writer.accepts code then
      runProg nxt pos k
        { s.log (Event.writeHeader code) with
          c := { s.c with Writer := s.c.Writer.WriteHeader code } }
    else Result.panicked (s.log (Event.panic pos))
  | Prog.param key k, s =>
    runProg nxt pos (k (s.c.Param key)) s
  | Prog.getQuery key k, s =>
    runProg nxt pos (k (s.c.GetQuery key).1 (s.c.GetQuery key).2) s
  | Prog.effect f k, s =>
    runProg nxt pos k { s with env := f s.env }
  | Prog.read k, s =>
    runProg nxt pos (k s.env) s
  | Prog.panic, s => Result.panicked (s.log (Event.panic pos))

/-- The closure returned by `Recovery()`, running at `pos`: it calls `c.Next()`
under a deferred `recover()`; when a panic arrives the deferred function writes
status 500, which the writer accepts, and the closure returns normally. -/
def runRecovery {σ : Type} (nxt : State σ → Result σ) (pos : Nat) (s : State σ) : Result σ :=
  match nxt (s.log (Event.next pos)) with
  | Result.panicked s1 =>
    Result.done
      { s1.log (Event.writeHeader StatusInternalServerError) with
        c := { s1.c with Writer := s1.c.Writer.WriteHeader StatusInternalServerError } }
  | r => r

/-- The call `h(c)` of the handler at `pos`. -/
def Handler.run {σ : Type} (nxt : State σ → Result σ) (pos : Nat) :
    Handler σ → State σ → Result σ
  | Handler.fn body, s => runProg nxt pos body s
  | Handler.recovery, s => runRecovery nxt pos s

/-- The lookup `c.handlers[c.index]`; `none` is Go's index-out-of-range panic. -/
def Context.handlerAt {σ : Type} (c : Context σ) : Option (Handler σ) :=
  if 0 ≤ c.index then c.handlers[c.index.toNat]? else none

/-- The loop of `Context.Next`:
`for c.index < len(c.handlers) { c.handlers[c.index](c); c.index++ }`.
One unit of fuel is spent per iteration; a `c.Next()` inside the handler
continues with the fuel that is left. -/
def nextLoop {σ : Type} : Nat → State σ → Result σ
  | 0, s => if s.c.index < s.c.handlers.length then Result.outOfFuel else Result.done s
  | fuel + 1, s =>
    if s.c.index < s.c.handlers.length then
      match s.c.handlerAt with
      | none => Result.panicked (s.log (Event.outOfRange s.c.index))
      | some h =>
        match h.run (fun t => nextLoop fuel t.incr) s.c.index.toNat
            (s.log (Event.invoke s.c.index.toNat)) with
        | Result.done s1 => nextLoop fuel s1.incr
        | r => r
    else Result.done s

/-- Embeds `Context.Next`: `c.index++` and then the loop. -/
def Context.Next {σ : Type} (fuel : Nat) (s : State σ) : Result σ :=
  nextLoop fuel s.incr

/-- The Context built by the closure that `Handle` registers: a writer nothing
was written to, the request and its parameters, the route's chain, cursor `-1`,
no store. -/
def newContext {σ : Type} (hs : Handlers σ) (req : Request) (ps : List (String × String)) :
    Context σ :=
  { Writer := { wroteHeader := false, Code := 200 }, Request := req, Params := ps,
    keys := none, handlers := hs, index := -1 }

/-- The closure that `Handle` registers for a route with chain `combined`: it
builds the Context and calls `c.Next()`. -/
def dispatch {σ : Type} (combined : Handlers σ) (req : Request)
    (ps : List (String × String)) (env : σ) : Result σ :=
  Context.Next combined.length { c := newContext combined req ps, env := env, trace := [] }

/-! ## Paths -/

/-- Splits a path at every `/`; the result is never empty. -/
def splitSlash : List Char → List (List Char)
  | [] => [[]]
  | c :: cs =>
    if c = '/' then [] :: splitSlash cs
    else
      match splitSlash cs with
      | [] => [[c]]
      | seg :: segs => (c :: seg) :: segs

/-- The element loop of `path.Clean` over the segments still to read; `out`
holds the segments kept so far, the last one first.  Empty and `.` segments
are dropped; `..` removes the last kept segment when there is one that is not
itself `..`, is dropped at the root of a rooted path, and is kept otherwise. -/
def cleanSegs (rooted : Bool) : List (List Char) → List (List Char) → List (List Char)
  | [], out => out
  | seg :: segs, out =>
    if seg = [] ∨ seg = ['.'] then cleanSegs rooted segs out
    else if seg = ['.', '.'] then
      match out with
      | top :: below =>
        if top = ['.', '.'] then cleanSegs rooted segs (seg :: out)
        else cleanSegs rooted segs below
      | [] => if rooted then cleanSegs rooted segs [] else cleanSegs rooted segs [seg]
    else cleanSegs rooted segs (seg :: out)

/-- Joins segments with `/`. -/
def joinSlash : List (List Char) → List Char
  | [] => []
  | [seg] => seg
  | seg :: segs => seg ++ '/' :: joinSlash segs

/-- Go's `path.Clean` on the characters of a path (standard library, package
`path`): the shortest path equivalent to the argument by purely lexical
processing; `.` for the empty result of an unrooted path. -/
def cleanChars (p : List Char) : List Char :=
  match p with
  | [] => ['.']
  | c :: _ =>
    let rooted : Bool := c = '/'
    let kept := (cleanSegs rooted (splitSlash p) []).reverse
    if rooted then '/' :: joinSlash kept
    else if kept = [] then ['.'] else joinSlash kept

/-- Go's `path.Join` of two elements (standard library): empty elements before
the first non-empty one are ignored, the rest is joined with `/` and cleaned;
the empty string when both are empty. -/
def pathJoin (a b : String) : String :=
  if a.data = [] then
    if b.data = [] then "" else String.mk (cleanChars b.data)
  else String.mk (cleanChars (a.data ++ '/' :: b.data))

/-- Embeds `joinPaths`. -/
def joinPaths (absolutePath relativePath : String) : String :=
  pathJoin absolutePath relativePath

/-! ## Route groups -/

/-- Embeds `combineHandlers`: a new slice of capacity `len(handlers1) + len(handlers2)`
to which first `handlers1` and then `handlers2` are appended. -/
def combineHandlers {σ : Type} (handlers1 handlers2 : Handlers σ) : Handlers σ :=
  let h : Handlers σ := []
  let h := h ++ handlers1
  let h := h ++ handlers2
  h

/-- The `RouterGroup` struct.  Its `engine` pointer is the engine state the
group lives in. -/
structure RouterGroup (σ : Type) where
  path : String
  handlers : Handlers σ

/-- One registration with the router: the method, the pattern, and the chain
captured by the closure that `Handle` passes to the router. -/
structure Route (σ : Type) where
  method : String
  path : String
  handlers : Handlers σ

/-- A pointer to a `RouterGroup`: its position in the engine's heap. -/
abbrev GroupRef := Nat

/-- The `Engine` with everything reachable from it: the groups allocated so
far and the routes registered with its router, both oldest first. -/
structure Engine (σ : Type) where
  groups : List (RouterGroup σ)
  routes : List (Route σ)

/-- Embeds `New`: an engine whose root group, at reference `0`, has the empty path
and no handlers. -/
def New {σ : Type} : Engine σ :=
  { groups := [{ path := "", handlers := [] }], routes := [] }

/-- The registration `router.Handle(method, path, handle)` of httprouter, on
the table of registrations: `none` when the router panics because `path` does
not begin with `/` or because a handle is already registered for `method` and
`path`; otherwise the table with the new registration.  The router refuses
further patterns, all of them with wildcard segments (`:name`, `*name`); the
table does not track those, so every registration that returns in the router
returns here with the same table, and for a method that is not empty and
patterns without wildcards on a router without wildcards the two agree. -/
def Router.Handle {σ : Type} (routes : List (Route σ)) (method path : String)
    (handlers : Handlers σ) : Option (List (Route σ)) :=
  if path.data.head? = some '/' then
    if routes.any (fun r => r.method == method && r.path == path) then none
    else some (routes ++ [{ method := method, path := path, handlers := handlers }])
  else none

/-- Embeds `RouterGroup.Handle`; `none` when `rg` points to no group or the
router panics. -/
def RouterGroup.Handle {σ : Type} (rg : GroupRef) (method relativePath : String)
    (handlers : Handlers σ) (e : Engine σ) : Option (Engine σ) :=
  match e.groups[rg]? with
  | none => none
  | some g =>
    let joined := joinPaths g.path relativePath
    let combined := combineHandlers g.handlers handlers
    match Router.Handle e.routes method joined combined with
    | none => none
    | some routes => some { e with routes := routes }

/-- Embeds `RouterGroup.Use`: `rg.handlers = combineHandlers(rg.handlers, handlers)`. -/
def RouterGroup.Use {σ : Type} (rg : GroupRef) (handlers : Handlers σ) (e : Engine σ) :
    Option (Engine σ) :=
  match e.groups[rg]? with
  | none => none
  | some g =>
    some { e with
      groups := e.groups.set rg { g with handlers := combineHandlers g.handlers handlers } }

/-- Embeds `RouterGroup.Group`: allocates the child group and returns a pointer to it. -/
def RouterGroup.Group {σ : Type} (rg : GroupRef) (relativePath : String)
    (handlers : Handlers σ) (e : Engine σ) : Option (Engine σ × GroupRef) :=
  match e.groups[rg]? with
  | none => none
  | some g =>
    let joined := joinPaths g.path relativePath
    let combined := combineHandlers g.handlers handlers
    some ({ e with groups := e.groups ++ [{ path := joined, handlers := combined }] },
      e.groups.length)

/-- The route the router resolves a request to, for a request whose method and
matched pattern are given: the oldest registration under them. -/
def Engine.route? {σ : Type} (e : Engine σ) (method pattern : String) : Option (Route σ) :=
  e.routes.find? (fun r => r.method == method && r.path == pattern)

/-- Embeds `Engine.ServeHTTP` for a request the router matches against `pattern` with
parameters `ps`: the registered closure runs; `none` when there is no such
route (the router answers not-found itself). -/
def Engine.ServeHTTP {σ : Type} (e : Engine σ) (method pattern : String) (req : Request)
    (ps : List (String × String)) (env : σ) : Option (Result σ) :=
  match e.route? method pattern with
  | none => none
  | some r => some (dispatch r.handlers req ps env)


/-! ## Reasoning about runs -/

/-- The call ended in state `t`, by returning or by a panic. -/
def Result.EndsIn {σ : Type} (r : Result σ) (t : State σ) : Prop :=
  r = Result.done t ∨ r = Result.panicked t

/-- The trace of `t` continues the trace of `s`. -/
def Ext {σ : Type} (s t : State σ) : Prop :=
  ∃ evs, t.trace = s.trace ++ evs

/-- The state in which the recovered closure of `Recovery()` returns. -/
def State.recovered {σ : Type} (s : State σ) : State σ :=
  { s.log (Event.writeHeader StatusInternalServerError) with
    c := { s.c with Writer := s.c.Writer.WriteHeader StatusInternalServerError } }

/-- An invariant of chain execution: `P` holds between handlers, `I pos` while
the body of the handler at `pos` runs, and every statement of `Next`, of a
handler body and of `Recovery` keeps them. -/
structure Closed {σ : Type} (P : State σ → Prop) (I : Nat → State σ → Prop) : Prop where
  invoke : ∀ s h, P s → s.incr.c.index < s.c.handlers.length → s.incr.c.handlerAt = some h →
    I s.incr.c.index.toNat (s.incr.log (Event.invoke s.incr.c.index.toNat))
  exit : ∀ s, P s → ¬ s.incr.c.index < s.c.handlers.length → P s.incr
  oob : ∀ s, P s → s.incr.c.index < s.c.handlers.length → s.incr.c.handlerAt = none →
    P (s.incr.log (Event.outOfRange s.incr.c.index))
  leave : ∀ pos s, I pos s → P s
  call : ∀ pos s, I pos s → P (s.log (Event.next pos))
  resume : ∀ pos s t, I pos s → P t → Ext (s.log (Event.next pos)) t → I pos t
  abort : ∀ pos s, I pos s → I pos { s.log (Event.abort pos) with c := s.c.Abort }
  abortWithStatus : ∀ pos s code, I pos s →
    I pos { (s.log (Event.writeHeader code)).log (Event.abort pos) with
      c := s.c.AbortWithStatus code }
  set : ∀ pos s key value, I pos s →
    I pos { s.log (Event.set key value) with c := s.c.Set key value }
  get : ∀ pos s key, I pos s → I pos (s.log (Event.get key (s.c.Get key).1 (s.c.Get key).2))
  writeHeader : ∀ pos s code, I pos s →
    I pos { s.log (Event.writeHeader code) with
      c := { s.c with Writer := s.c.Writer.WriteHeader code } }
  effect : ∀ pos s (f : σ → σ), I pos s → I pos { s with env := f s.env }
  panic : ∀ pos s, I pos s → P (s.log (Event.panic pos))
  recover : ∀ s, P s → P s.recovered

/-- Every call of `Abort` in the trace is final for the chain: no handler is
invoked after it, and when the handler at `p` aborts without having called
`Next` before, the handlers invoked up to then are exactly those at `0..p`. -/
def GoodAborts (tr : List Event) : Prop :=
  ∀ t1 p t2, tr = t1 ++ Event.abort p :: t2 →
    calls t2 = [] ∧ (Event.next p ∉ t1 → calls t1 = List.range (p + 1))

/-- The invariant of chain execution over the chain `hs`, at any point between
two statements of a handler or of `Next` outside the loop condition. -/
structure ChainInv {σ : Type} (hs : Handlers σ) (s : State σ) : Prop where
  handlers : s.c.handlers = hs
  lower : -1 ≤ s.c.index
  contiguous : ∃ m, m ≤ hs.length ∧ calls s.trace = List.range m
  current : s.c.index < hs.length → calls s.trace = List.range (s.c.index + 1).toNat
  aborted : (∃ p, Event.abort p ∈ s.trace) → (hs.length : Int) ≤ s.c.index
  completed : (∀ p, Event.abort p ∉ s.trace) → (hs.length : Int) ≤ s.c.index →
    calls s.trace = List.range hs.length
  aborts : GoodAborts s.trace
  inRange : ∀ i, Event.outOfRange i ∉ s.trace

/-- The invariant while the body of the handler at `pos` runs: until the
handler calls `Next` it is the last handler invoked. -/
def BodyInv {σ : Type} (hs : Handlers σ) (pos : Nat) (s : State σ) : Prop :=
  ChainInv hs s ∧ (Event.next pos ∈ s.trace ∨ calls s.trace = List.range (pos + 1))

/-- The status codes passed to `WriteHeader` along a trace, oldest first,
without those sent as interim responses. -/
def statuses : List Event → List Int
  | [] => []
  | Event.writeHeader code :: t => if isInterim code then statuses t else code :: statuses t
  | _ :: t => statuses t

/-- The response writer holds the first status the request wrote, or `200` and
no status when it wrote none. -/
def WriterInv {σ : Type} (s : State σ) : Prop :=
  s.c.Writer.Code = (statuses s.trace).head?.getD 200 ∧
  s.c.Writer.wroteHeader = !(statuses s.trace).isEmpty

/-- The values `Set` under `key` along a trace, oldest first. -/
def setsOf (key : String) : List Event → List Value
  | [] => []
  | Event.set k v :: t => if k = key then v :: setsOf key t else setsOf key t
  | _ :: t => setsOf key t

/-- What a `Get(key)` must return after a trace: the value of the last `Set`
under `key`, or the zero value and `false` when there was none. -/
def storeOf (tr : List Event) (key : String) : Value × Bool :=
  match (setsOf key tr).getLast? with
  | some v => (v, true)
  | none => (Value.null, false)

/-- Every `Get` in the trace returned what the `Set` calls before it left. -/
def GetsCoherent (tr : List Event) : Prop :=
  ∀ t1 k v b t2, tr = t1 ++ Event.get k v b :: t2 → (v, b) = storeOf t1 k

/-- The store of the Context reflects the `Set` calls of the request, and so
did every `Get` so far. -/
def StoreInv {σ : Type} (s : State σ) : Prop :=
  (∀ k, s.c.Get k = storeOf s.trace k) ∧ GetsCoherent s.trace

/-! ## Sequences of calls -/

/-- A run of `c.Set` calls, in order. -/
def Context.SetAll {σ : Type} (c : Context σ) : List (String × Value) → Context σ
  | [] => c
  | kv :: kvs => Context.SetAll (c.Set kv.1 kv.2) kvs

/-- One configuration call on a group of the engine. -/
inductive Op (σ : Type) where
  | use (rg : GroupRef) (handlers : Handlers σ) : Op σ
  | group (rg : GroupRef) (relativePath : String) (handlers : Handlers σ) : Op σ
  | handle (rg : GroupRef) (method relativePath : String) (handlers : Handlers σ) : Op σ

/-- Performs one configuration call. -/
def Op.apply {σ : Type} : Op σ → Engine σ → Option (Engine σ)
  | Op.use rg hs, e => RouterGroup.Use rg hs e
  | Op.group rg p hs, e =>
    match RouterGroup.Group rg p hs e with
    | none => none
    | some (e1, _) => some e1
  | Op.handle rg m p hs, e => RouterGroup.Handle rg m p hs e

/-- Performs configuration calls one after the other. -/
def applyOps {σ : Type} : List (Op σ) → Engine σ → Option (Engine σ)
  | [], e => some e
  | op :: ops, e =>
    match op.apply e with
    | none => none
    | some e1 => applyOps ops e1

/-! ## Concrete chains and engines used as instances -/

/-- A request without query parameters. -/
def plainRequest : Request := { query := [] }

/-- A handler that does nothing. -/
def noop : Handler Unit := Handler.fn Prog.ret

/-- The engine of `examples/group/main.go` after `v1 := r.Group("/v1", h)`. -/
def groupExample : Engine Unit :=
  { groups := [{ path := "", handlers := [] }, { path := "/v1", handlers := [noop] }],
    routes := [] }

/-- The engine of `examples/group/main.go` after `v1.GET("/hello", h)`. -/
def groupExampleRouted : Engine Unit :=
  { groups := [{ path := "", handlers := [] }, { path := "/v1", handlers := [noop] }],
    routes := [{ method := "GET", path := "/v1/hello", handlers := [noop, noop] }] }

/-- The chain of `TestAbort`: `Recovery()`, a handler that counts, a handler
that counts, calls `AbortWithStatus(501)` and counts again, and a handler that
counts.  The captured variable is the counter `i`. -/
def testAbort : Handlers Nat :=
  [Handler.recovery,
   Handler.fn (Prog.effect (· + 1) Prog.ret),
   Handler.fn (Prog.effect (· + 1) (Prog.abortWithStatus 501 (Prog.effect (· + 1) Prog.ret))),
   Handler.fn (Prog.effect (· + 1) Prog.ret)]

/-- The state in which the request of `TestAbort` ends. -/
def testAbortFinal : State Nat :=
  { c := { Writer := { wroteHeader := true, Code := 501 }, Request := plainRequest, Params := [],
           keys := none, handlers := testAbort,
           index := abortIndex + 2 },
    env := 3,
    trace := [Event.invoke 0, Event.next 0, Event.invoke 1, Event.invoke 2,
      Event.writeHeader 501, Event.abort 2] }

/-- A chain of three middlewares that each call `c.Next()`, the first one
twice, around a last handler that does not. -/
def nested : Handlers Unit :=
  [Handler.fn (Prog.next (Prog.next Prog.ret)),
   Handler.fn (Prog.next Prog.ret),
   Handler.recovery,
   Handler.fn Prog.ret]

/-- The state in which a request over `nested` ends. -/
def nestedFinal : State Unit :=
  { c := { Writer := { wroteHeader := false, Code := 200 }, Request := plainRequest, Params := [],
           keys := none, handlers := nested,
           index := 8 },
    env := (),
    trace := [Event.invoke 0, Event.next 0, Event.invoke 1, Event.next 1, Event.invoke 2,
      Event.next 2, Event.invoke 3, Event.next 0] }

/-- A chain whose first handler calls `c.Next()` and then `c.Abort()`. -/
def abortAfterNext : Handlers Unit :=
  [Handler.fn (Prog.next (Prog.abort Prog.ret)), Handler.fn Prog.ret]

/-- The state in which a request over `abortAfterNext` ends. -/
def abortAfterNextFinal : State Unit :=
  { c := { Writer := { wroteHeader := false, Code := 200 }, Request := plainRequest, Params := [],
           keys := none, handlers := abortAfterNext, index := abortIndex + 1 },
    env := (),
    trace := [Event.invoke 0, Event.next 0, Event.invoke 1, Event.abort 0] }

/-- A handler of `TestContext` that stores the counter under `key` and
increments it: `c.Set(key, i); i++`.  The captured variables are the counter
`i` and whether the test has not failed so far. -/
def setCounter (key : String) : Handler (Nat × Bool) :=
  Handler.fn (Prog.read fun st =>
    Prog.set key (Value.int st.1) (Prog.effect (fun st => (st.1 + 1, st.2)) Prog.ret))

/-- The first user handler of `TestContext`: `t.Errorf` when `unknown` exists. -/
def expectUnknownAbsent : Handler (Nat × Bool) :=
  Handler.fn (Prog.get "unknown" fun _ found =>
    if found then Prog.effect (fun st => (st.1, false)) Prog.ret else Prog.ret)

/-- One check of the last handler of `TestContext`:
`if v, _ := c.Get(key); v != n { t.Errorf(...) }`. -/
def expectInt (key : String) (n : Int) (rest : Prog (Nat × Bool)) : Prog (Nat × Bool) :=
  Prog.get key fun v _ =>
    if v = Value.int n then rest else Prog.effect (fun st => (st.1, false)) rest

/-- The last handler of `TestContext`. -/
def expectAll : Handler (Nat × Bool) :=
  Handler.fn (expectInt "0" 0 (expectInt "1" 1 (expectInt "2" 2 (expectInt "3" 3
    (expectInt "4" 4 (expectInt "5" 5 (expectInt "6" 6 (expectInt "7" 7 Prog.ret))))))))

/-- The handlers `TestContext` passes to `r.Use` before deriving the group. -/
def testContextA : Handlers (Nat × Bool) :=
  [Handler.recovery, expectUnknownAbsent, setCounter "0", setCounter "1"]

/-- The handler of the last `r.Use` of `TestContext`. -/
def testContextB : Handlers (Nat × Bool) := [setCounter "2"]

/-- The handlers `TestContext` passes to `r.Group`. -/
def testContextC : Handlers (Nat × Bool) := [setCounter "3", setCounter "4"]

/-- The handler `TestContext` passes to `group.Use`. -/
def testContextD : Handlers (Nat × Bool) := [setCounter "5"]

/-- The handlers `TestContext` passes to `group.Handle`. -/
def testContextE : Handlers (Nat × Bool) := [setCounter "6", setCounter "7", expectAll]

/-- The whole chain of the route of `TestContext`. -/
def testContextChain : Handlers (Nat × Bool) :=
  testContextA ++ testContextB ++ testContextC ++ testContextD ++ testContextE

/-- The state in which the request of `TestContext` ends. -/
def testContextFinal : State (Nat × Bool) :=
  { c := { Writer := { wroteHeader := false, Code := 200 }, Request := plainRequest, Params := [],
           keys := some [("7", Value.int 7), ("6", Value.int 6), ("5", Value.int 5),
             ("4", Value.int 4), ("3", Value.int 3), ("2", Value.int 2), ("1", Value.int 1),
             ("0", Value.int 0)],
           handlers := testContextChain, index := 12 },
    env := (8, true),
    trace := [Event.invoke 0, Event.next 0, Event.invoke 1,
      Event.get "unknown" Value.null false,
      Event.invoke 2, Event.set "0" (Value.int 0), Event.invoke 3, Event.set "1" (Value.int 1),
      Event.invoke 4, Event.set "2" (Value.int 2), Event.invoke 5, Event.set "3" (Value.int 3),
      Event.invoke 6, Event.set "4" (Value.int 4), Event.invoke 7, Event.set "5" (Value.int 5),
      Event.invoke 8, Event.set "6" (Value.int 6), Event.invoke 9, Event.set "7" (Value.int 7),
      Event.invoke 10,
      Event.get "0" (Value.int 0) true, Event.get "1" (Value.int 1) true,
      Event.get "2" (Value.int 2) true, Event.get "3" (Value.int 3) true,
      Event.get "4" (Value.int 4) true, Event.get "5" (Value.int 5) true,
      Event.get "6" (Value.int 6) true, Event.get "7" (Value.int 7) true] }

/-- The chain `[Recovery(), panic, handler]`. -/
def recoverThenGoOn : Handlers Nat :=
  [Handler.recovery, Handler.fn Prog.panic, Handler.fn (Prog.effect (· + 1) Prog.ret)]

/-- The state in which a request over `recoverThenGoOn` ends. -/
def recoverThenGoOnFinal : State Nat :=
  { c := { Writer := { wroteHeader := true, Code := 500 }, Request := plainRequest, Params := [],
           keys := none, handlers := recoverThenGoOn, index := 3 },
    env := 1,
    trace := [Event.invoke 0, Event.next 0, Event.invoke 1, Event.panic 1,
      Event.writeHeader 500, Event.invoke 2] }

/-- The chain `[Recovery(), panic, panic]`. -/
def recoverThenPanic : Handlers Unit :=
  [Handler.recovery, Handler.fn Prog.panic, Handler.fn Prog.panic]

/-- The state in which the panic leaves a request over `recoverThenPanic`. -/
def recoverThenPanicFinal : State Unit :=
  { c := { Writer := { wroteHeader := true, Code := 500 }, Request := plainRequest, Params := [],
           keys := none, handlers := recoverThenPanic, index := 2 },
    env := (),
    trace := [Event.invoke 0, Event.next 0, Event.invoke 1, Event.panic 1,
      Event.writeHeader 500, Event.invoke 2, Event.panic 2] }

/-- The chain of `TestRecovery`: `[Recovery(), panic]`. -/
def testRecovery : Handlers Unit :=
  [Handler.recovery, Handler.fn Prog.panic]

/-- The state in which the request of `TestRecovery` ends. -/
def testRecoveryFinal : State Unit :=
  { c := { Writer := { wroteHeader := true, Code := 500 }, Request := plainRequest, Params := [],
           keys := none, handlers := testRecovery, index := 2 },
    env := (),
    trace := [Event.invoke 0, Event.next 0, Event.invoke 1, Event.panic 1,
      Event.writeHeader 500] }

/-! ## Predicates on paths -/

/-- No two neighbours are both slashes. -/
def NoSlashPair (p : List Char) : Prop :=
  List.Chain' (fun a b => ¬ (a = '/' ∧ b = '/')) p

/-- A kept segment: not empty and without slash. -/
def SegOK (seg : List Char) : Prop := seg ≠ [] ∧ '/' ∉ seg

/-- An already-normalized absolute path: a leading slash, then segments
separated by single slashes, none of them empty, `.` or `..`; in particular
the path does not end with a slash. -/
def IsNormalAbs (p : List Char) : Prop :=
  ∃ rest, p = '/' :: rest ∧
    ∀ seg ∈ splitSlash rest, seg ≠ [] ∧ seg ≠ ['.'] ∧ seg ≠ ['.', '.']

/-- The request of `TestParams`, `/test/geneva?q1=1&q2=2`, as the router hands
it to the closure: its parsed query. -/
def testParamsRequest : Request := { query := [("q1", ["1"]), ("q2", ["2"])] }

/-- The Context of the request of `TestParams`. -/
def testParamsContext : Context Unit :=
  newContext [] testParamsRequest [("name", "geneva")]

/-! ## Further invariants of chain execution -/

/-- The cursor never falls below `-1`, no handler lookup was out of range, and
every handler invoked sits at a position of the chain. -/
structure BoundsInv {σ : Type} (hs : Handlers σ) (s : State σ) : Prop where
  handlers : s.c.handlers = hs
  lower : -1 ≤ s.c.index
  inRange : ∀ i, Event.outOfRange i ∉ s.trace
  invoked : ∀ p, Event.invoke p ∈ s.trace → p < hs.length

/-- A call made on a Context from outside the loop: `c.Next()` or `c.Abort()`. -/
inductive CtxCall where
  | next : CtxCall
  | abort : CtxCall
  deriving DecidableEq, Repr

/-- Makes the calls one after the other on the Context of `s`. -/
def runCalls {σ : Type} (fuel : Nat) : List CtxCall → State σ → Result σ
  | [], s => Result.done s
  | CtxCall.next :: rest, s =>
    match Context.Next fuel s with
    | Result.done s1 => runCalls fuel rest s1
    | r => r
  | CtxCall.abort :: rest, s => runCalls fuel rest { s with c := s.c.Abort }

/-- A slice of handlers that fits in memory: its elements, function values of
8 bytes each, lie in one address space of `2^64` bytes. -/
def fitsInMemory {σ : Type} (hs : Handlers σ) : Prop :=
  8 * hs.length ≤ 2 ^ 64

/-- Once a handler has called `Abort`, the cursor is at or above `abortIndex`. -/
def AbortInv {σ : Type} (s : State σ) : Prop :=
  (∃ p, Event.abort p ∈ s.trace) → abortIndex ≤ s.c.index

/-- A chain of one handler that calls `c.Next()` and returns. -/
def nextOnce : Handlers Unit := [Handler.fn (Prog.next Prog.ret)]

/-- The state in which a request over `nextOnce` ends. -/
def nextOnceFinal : State Unit :=
  { c := { Writer := { wroteHeader := false, Code := 200 }, Request := plainRequest,
           Params := [], keys := none, handlers := nextOnce, index := 2 },
    env := (),
    trace := [Event.invoke 0, Event.next 0] }

/-- A chain of one handler that calls `c.Abort()` and returns. -/
def abortOnce : Handlers Unit := [Handler.fn (Prog.abort Prog.ret)]

/-- The state in which a request over `abortOnce` ends. -/
def abortOnceFinal : State Unit :=
  { c := { Writer := { wroteHeader := false, Code := 200 }, Request := plainRequest,
           Params := [], keys := none, handlers := abortOnce, index := abortIndex + 1 },
    env := (),
    trace := [Event.invoke 0, Event.abort 0] }

/-- A chain of two handlers that call neither `c.Next()` nor `c.Abort()`. -/
def plainPair : Handlers Nat :=
  [Handler.fn (Prog.effect (· + 1) Prog.ret), Handler.fn (Prog.effect (· + 1) Prog.ret)]

/-- The state in which a request over `plainPair` ends. -/
def plainPairFinal : State Nat :=
  { c := { Writer := { wroteHeader := false, Code := 200 }, Request := plainRequest,
           Params := [], keys := none, handlers := plainPair, index := 2 },
    env := 2,
    trace := [Event.invoke 0, Event.invoke 1] }

/-! ## Middleware around `Next` -/

/-- A handler that runs `pre`, calls `c.Next()` and then runs `post`, as
`Logger` in `examples/middleware/main.go`; `pre` and `post` act on the
variables the closure captured. -/
def around {σ : Type} (pp : (σ → σ) × (σ → σ)) : Handler σ :=
  Handler.fn (Prog.effect pp.1 (Prog.next (Prog.effect pp.2 Prog.ret)))

/-- The code before `Next()` of each handler, run in chain order. -/
def wind {σ : Type} : List ((σ → σ) × (σ → σ)) → σ → σ
  | [], e => e
  | pp :: rest, e => wind rest (pp.1 e)

/-- The code after `Next()` of each handler, run from the last handler entered
back to the first. -/
def unwind {σ : Type} : List ((σ → σ) × (σ → σ)) → σ → σ
  | [], e => e
  | pp :: rest, e => pp.2 (unwind rest e)

/-- The events of entering the handlers of `rest`, the first at position `i`. -/
def aroundTrace {σ : Type} (i : Nat) : List ((σ → σ) × (σ → σ)) → List Event
  | [] => []
  | _ :: rest => Event.invoke i :: Event.next i :: aroundTrace (i + 1) rest

/-- The code of a handler that only appends `x` to a log of what ran. -/
def note {α : Type} (x : α) : List α → List α := fun l => l ++ [x]

/-- The `around` handler that logs `ab.1` before `Next()` and `ab.2` after. -/
def noting {α : Type} (ab : α × α) : (List α → List α) × (List α → List α) :=
  (note ab.1, note ab.2)

/-- A handler that runs `a`, calls `c.Abort()` and then runs `b`. -/
def aborter {σ : Type} (a b : σ → σ) : Handler σ :=
  Handler.fn (Prog.effect a (Prog.abort (Prog.effect b Prog.ret)))

/-- Two logging middlewares around a handler that aborts, followed by a
handler that must not run. -/
def abortInside : Handlers (List String) :=
  [around (noting ("pre0", "post0")), around (noting ("pre1", "post1")),
   aborter (note "abort") (note "aborted"), Handler.fn (Prog.effect (note "never") Prog.ret)]

/-- The state in which a request over `abortInside` ends. -/
def abortInsideFinal : State (List String) :=
  { c := { Writer := { wroteHeader := false, Code := 200 }, Request := plainRequest,
           Params := [], keys := none, handlers := abortInside, index := abortIndex + 3 },
    env := ["pre0", "pre1", "abort", "aborted", "post1", "post0"],
    trace := [Event.invoke 0, Event.next 0, Event.invoke 1, Event.next 1, Event.invoke 2,
      Event.abort 2] }

/-- A chain whose first handler, when the request has a `mode` query parameter,
sets the key `k` and aborts, and otherwise reads `k` and logs whether it was
found; the second handler logs that it ran. -/
def modeChain : Handlers (List String) :=
  [Handler.fn (Prog.getQuery "mode" fun _ ok =>
      if ok then Prog.set "k" (Value.int 1) (Prog.abort Prog.ret)
      else Prog.get "k" fun _ found =>
        Prog.effect (note (if found then "found" else "absent")) Prog.ret),
   Handler.fn (Prog.effect (note "second") Prog.ret)]

/-- A request with the query `mode=set`. -/
def modeRequest : Request := { query := [("mode", ["set"])] }

/-- The state in which the request `modeRequest` over `modeChain` ends. -/
def modeFirstFinal : State (List String) :=
  { c := { Writer := { wroteHeader := false, Code := 200 }, Request := modeRequest,
           Params := [], keys := some [("k", Value.int 1)], handlers := modeChain,
           index := abortIndex + 1 },
    env := [],
    trace := [Event.invoke 0, Event.set "k" (Value.int 1), Event.abort 0] }

/-- The state in which a request without query over `modeChain` ends when it
follows the request `modeRequest`. -/
def modeSecondFinal : State (List String) :=
  { c := { Writer := { wroteHeader := false, Code := 200 }, Request := plainRequest,
           Params := [], keys := none, handlers := modeChain, index := 2 },
    env := ["absent", "second"],
    trace := [Event.invoke 0, Event.get "k" Value.null false, Event.invoke 1] }

/-- Whether `WriteHeader(code)` on a writer without a status returns and makes
`code` the status of the response: `code` passes the check of the library
(`100..999`) and is not sent as an interim response. -/
def isFinalStatus (code : Int) : Bool :=
  decide (100 ≤ code) && decide (code ≤ 999) && !isInterim code

/-- A chain whose only handler calls `AbortWithStatus(103)`. -/
def abortEarlyHints : Handlers Unit := [Handler.fn (Prog.abortWithStatus 103 Prog.ret)]

/-- The state in which the request over `abortEarlyHints` ends. -/
def abortEarlyHintsFinal : State Unit :=
  { c := { Writer := { wroteHeader := false, Code := 200 }, Request := plainRequest, Params := [],
           keys := none, handlers := abortEarlyHints, index := abortIndex + 1 },
    env := (),
    trace := [Event.invoke 0, Event.writeHeader 103, Event.abort 0] }

/-- A chain whose only handler calls `AbortWithStatus(0)`. -/
def abortStatusZero : Handlers Unit := [Handler.fn (Prog.abortWithStatus 0 Prog.ret)]

/-- The state in which the request over `abortStatusZero` ends. -/
def abortStatusZeroFinal : State Unit :=
  { c := { Writer := { wroteHeader := false, Code := 200 }, Request := plainRequest, Params := [],
           keys := none, handlers := abortStatusZero, index := 0 },
    env := (),
    trace := [Event.invoke 0, Event.panic 0] }

/-- A chain whose first handler calls `Abort()` and then `Next()`. -/
def abortThenNext : Handlers Unit :=
  [Handler.fn (Prog.abort (Prog.next Prog.ret)), Handler.fn Prog.ret]

/-- The state in which a request over `abortThenNext` ends. -/
def abortThenNextFinal : State Unit :=
  { c := { Writer := { wroteHeader := false, Code := 200 }, Request := plainRequest, Params := [],
           keys := none, handlers := abortThenNext, index := abortIndex + 2 },
    env := (),
    trace := [Event.invoke 0, Event.abort 0, Event.next 0] }

/-- The engine of `TestContext` after its configuration calls. -/
def testContextRouted : Engine (Nat × Bool) :=
  { groups := [{ path := "", handlers := testContextA ++ testContextB },
      { path := "/group",
        handlers := testContextA ++ testContextB ++ testContextC ++ testContextD }],
    routes := [{ method := "GET", path := "/group/handle", handlers := testContextChain }] }

/-- A handler list whose only handler calls `Abort()`. -/
def abortFirst : Handlers Unit := [Handler.fn (Prog.abort Prog.ret)]

/-- The engine after `root.Use(abortFirst...)`. -/
def abortFirstRoot : Engine Unit :=
  { groups := [{ path := "", handlers := abortFirst }], routes := [] }

/-- The engine `abortFirstRoot` after `g := root.Group("/v1")`. -/
def abortFirstGroup : Engine Unit :=
  { groups := [{ path := "", handlers := abortFirst }, { path := "/v1", handlers := abortFirst }],
    routes := [] }

/-- The engine `abortFirstGroup` after `g.Handle("GET", "/x", noop)`. -/
def abortFirstRouted : Engine Unit :=
  { groups := [{ path := "", handlers := abortFirst }, { path := "/v1", handlers := abortFirst }],
    routes := [{ method := "GET", path := "/v1/x", handlers := abortFirst ++ [noop] }] }

/-- The state in which a request to the route of `abortFirstRouted` ends. -/
def abortFirstFinal : State Unit :=
  { c := { Writer := { wroteHeader := false, Code := 200 }, Request := plainRequest, Params := [],
           keys := none, handlers := abortFirst ++ [noop], index := abortIndex + 1 },
    env := (),
    trace := [Event.invoke 0, Event.abort 0] }

/-- An engine after `g := root.Group("v1")`, a relative path without a leading
slash. -/
def unrootedGroup : Engine Unit :=
  { groups := [{ path := "", handlers := [] }, { path := "v1", handlers := [] }], routes := [] }

/-- Whether a pattern has no wildcard segment: neither `:` nor `*` occurs in it. -/
def isStatic (pattern : String) : Bool :=
  pattern.data.all (fun ch => ch != ':' && ch != '*')

end Geneva

namespace Geneva

variable {σ : Type}

theorem Ext.refl (s : State σ) : Ext s s := ⟨[], by simp⟩

theorem Ext.trans {s t u : State σ} (h1 : Ext s t) (h2 : Ext t u) : Ext s u := by
  obtain ⟨a, ha⟩ := h1
  obtain ⟨b, hb⟩ := h2
  exact ⟨a ++ b, by rw [hb, ha, List.append_assoc]⟩

theorem Ext.of_trace_eq {s t u : State σ} (h : t.trace = s.trace) (h2 : Ext t u) : Ext s u := by
  obtain ⟨b, hb⟩ := h2
  exact ⟨b, by rw [hb, h]⟩

theorem Ext.of_log {s u : State σ} {e : Event} (h2 : Ext (s.log e) u) : Ext s u := by
  obtain ⟨b, hb⟩ := h2
  exact ⟨e :: b, by rw [hb]; simp [State.log]⟩

/-- A handler body keeps a closed invariant, when `c.Next()` does. -/
theorem runProg_closed {P : State σ → Prop} {I : Nat → State σ → Prop} (hc : Closed P I)
    (nxt : State σ → Result σ)
    (hnxt : ∀ s t, P s → (nxt s).EndsIn t → P t ∧ Ext s t) (pos : Nat) :
    ∀ (p : Prog σ) (s t : State σ), I pos s → (runProg nxt pos p s).EndsIn t →
      P t ∧ Ext s t := by
  intro p
  induction p with
  | ret =>
    intro s t hI h
    rcases h with h | h
    · simp only [runProg, Result.done.injEq] at h
      subst h
      exact ⟨hc.leave pos s hI, Ext.refl s⟩
    · simp [runProg] at h
  | next k ih =>
    intro s t hI h
    have hP := hc.call pos s hI
    cases hr : nxt (s.log (Event.next pos)) with
    | done s1 =>
      have h1 := hnxt _ s1 hP (Or.inl hr)
      have hI1 := hc.resume pos s s1 hI h1.1 h1.2
      simp only [runProg, hr] at h
      have h2 := ih s1 t hI1 h
      exact ⟨h2.1, Ext.trans (Ext.of_log h1.2) h2.2⟩
    | panicked s1 =>
      have h1 := hnxt _ s1 hP (Or.inr hr)
      simp only [runProg, hr] at h
      rcases h with h | h
      · simp at h
      · simp only [Result.panicked.injEq] at h
        subst h
        exact ⟨h1.1, Ext.of_log h1.2⟩
    | outOfFuel =>
      simp only [runProg, hr] at h
      rcases h with h | h <;> simp at h
  | abort k ih =>
    intro s t hI h
    have h2 := ih _ t (hc.abort pos s hI) h
    exact ⟨h2.1, Ext.of_log (Ext.of_trace_eq rfl h2.2)⟩
  | abortWithStatus code k ih =>
    intro s t hI h
    by_cases hv : s.c.Writer.accepts code = true
    · simp only [runProg, hv, if_true] at h
      have h2 := ih _ t (hc.abortWithStatus pos s code hI) h
      exact ⟨h2.1, Ext.of_log (Ext.of_log (Ext.of_trace_eq rfl h2.2))⟩
    · simp only [runProg, hv] at h
      rcases h with h | h
      · simp at h
      · simp only [Bool.false_eq_true, if_false, Result.panicked.injEq] at h
        subst h
        exact ⟨hc.panic pos s hI, ⟨[Event.panic pos], rfl⟩⟩
  | set key value k ih =>
    intro s t hI h
    have h2 := ih _ t (hc.set pos s key value hI) h
    exact ⟨h2.1, Ext.of_log (Ext.of_trace_eq rfl h2.2)⟩
  | get key k ih =>
    intro s t hI h
    have h2 := ih _ _ _ t (hc.get pos s key hI) h
    exact ⟨h2.1, Ext.of_log h2.2⟩
  | writeHeader code k ih =>
    intro s t hI h
    by_cases hv : s.c.Writer.accepts code = true
    · simp only [runProg, hv, if_true] at h
      have h2 := ih _ t (hc.writeHeader pos s code hI) h
      exact ⟨h2.1, Ext.of_log (Ext.of_trace_eq rfl h2.2)⟩
    · simp only [runProg, hv] at h
      rcases h with h | h
      · simp at h
      · simp only [Bool.false_eq_true, if_false, Result.panicked.injEq] at h
        subst h
        exact ⟨hc.panic pos s hI, ⟨[Event.panic pos], rfl⟩⟩
  | param key k ih =>
    intro s t hI h
    exact ih _ s t hI h
  | getQuery key k ih =>
    intro s t hI h
    exact ih _ _ s t hI h
  | effect f k ih =>
    intro s t hI h
    have h2 := ih _ t (hc.effect pos s f hI) h
    exact ⟨h2.1, Ext.of_trace_eq rfl h2.2⟩
  | read k ih =>
    intro s t hI h
    exact ih _ s t hI h
  | panic =>
    intro s t hI h
    rcases h with h | h
    · simp [runProg] at h
    · simp only [runProg, Result.panicked.injEq] at h
      subst h
      exact ⟨hc.panic pos s hI, ⟨[Event.panic pos], rfl⟩⟩

/-- The closure of `Recovery()` keeps a closed invariant, when `c.Next()` does. -/
theorem runRecovery_closed {P : State σ → Prop} {I : Nat → State σ → Prop} (hc : Closed P I)
    (nxt : State σ → Result σ)
    (hnxt : ∀ s t, P s → (nxt s).EndsIn t → P t ∧ Ext s t) (pos : Nat)
    (s t : State σ) (hI : I pos s) (h : (runRecovery nxt pos s).EndsIn t) :
    P t ∧ Ext s t := by
  have hP := hc.call pos s hI
  cases hr : nxt (s.log (Event.next pos)) with
  | done s1 =>
    have h1 := hnxt _ s1 hP (Or.inl hr)
    simp only [runRecovery, hr] at h
    rcases h with h | h
    · simp only [Result.done.injEq] at h
      subst h
      exact ⟨h1.1, Ext.of_log h1.2⟩
    · simp at h
  | panicked s1 =>
    have h1 := hnxt _ s1 hP (Or.inr hr)
    simp only [runRecovery, hr] at h
    rcases h with h | h
    · simp only [Result.done.injEq] at h
      subst h
      exact ⟨hc.recover s1 h1.1,
        Ext.trans (Ext.of_log h1.2) ⟨[Event.writeHeader StatusInternalServerError], rfl⟩⟩
    · simp at h
  | outOfFuel =>
    simp only [runRecovery, hr] at h
    rcases h with h | h <;> simp at h

/-- A handler call keeps a closed invariant, when `c.Next()` does. -/
theorem Handler.run_closed {P : State σ → Prop} {I : Nat → State σ → Prop} (hc : Closed P I)
    (nxt : State σ → Result σ)
    (hnxt : ∀ s t, P s → (nxt s).EndsIn t → P t ∧ Ext s t) (pos : Nat)
    (h : Handler σ) (s t : State σ) (hI : I pos s) (hr : (h.run nxt pos s).EndsIn t) :
    P t ∧ Ext s t := by
  cases h with
  | fn body => exact runProg_closed hc nxt hnxt pos body s t hI hr
  | recovery => exact runRecovery_closed hc nxt hnxt pos s t hI hr

theorem Context.Next_succ (fuel : Nat) (s : State σ) :
    Context.Next (fuel + 1) s =
      if s.incr.c.index < s.c.handlers.length then
        match s.incr.c.handlerAt with
        | none => Result.panicked (s.incr.log (Event.outOfRange s.incr.c.index))
        | some h =>
          match h.run (Context.Next fuel) s.incr.c.index.toNat
              (s.incr.log (Event.invoke s.incr.c.index.toNat)) with
          | Result.done s1 => Context.Next fuel s1
          | r => r
      else Result.done s.incr := rfl

theorem Context.Next_zero (s : State σ) :
    Context.Next 0 s =
      if s.incr.c.index < s.c.handlers.length then Result.outOfFuel
      else Result.done s.incr := rfl

/-- The method `Context.Next` keeps every closed invariant: whatever the handlers do, a
state in which `Next` ends satisfies `P` when the state it was called in does. -/
theorem Context.Next_closed {P : State σ → Prop} {I : Nat → State σ → Prop}
    (hc : Closed P I) :
    ∀ (fuel : Nat) (s t : State σ), P s → (Context.Next fuel s).EndsIn t → P t ∧ Ext s t := by
  intro fuel
  induction fuel with
  | zero =>
    intro s t hP h
    rw [Context.Next_zero] at h
    by_cases hlt : s.incr.c.index < s.c.handlers.length
    · rw [if_pos hlt] at h
      rcases h with h | h <;> simp at h
    · rw [if_neg hlt] at h
      rcases h with h | h
      · simp only [Result.done.injEq] at h
        subst h
        exact ⟨hc.exit s hP hlt, ⟨[], by simp [State.incr]⟩⟩
      · simp at h
  | succ fuel ih =>
    intro s t hP h
    rw [Context.Next_succ] at h
    by_cases hlt : s.incr.c.index < s.c.handlers.length
    · rw [if_pos hlt] at h
      cases hh : s.incr.c.handlerAt with
      | none =>
        simp only [hh] at h
        rcases h with h | h
        · simp at h
        · simp only [Result.panicked.injEq] at h
          subst h
          exact ⟨hc.oob s hP hlt hh, ⟨[Event.outOfRange s.incr.c.index], rfl⟩⟩
      | some hd =>
        simp only [hh] at h
        have hI := hc.invoke s hd hP hlt hh
        have hE : Ext s (s.incr.log (Event.invoke s.incr.c.index.toNat)) :=
          ⟨[Event.invoke s.incr.c.index.toNat], rfl⟩
        cases hr : hd.run (Context.Next fuel) s.incr.c.index.toNat
            (s.incr.log (Event.invoke s.incr.c.index.toNat)) with
        | done s1 =>
          have h1 := Handler.run_closed hc _ ih _ hd _ s1 hI (Or.inl hr)
          simp only [hr] at h
          have h2 := ih s1 t h1.1 h
          exact ⟨h2.1, Ext.trans hE (Ext.trans h1.2 h2.2)⟩
        | panicked s1 =>
          have h1 := Handler.run_closed hc _ ih _ hd _ s1 hI (Or.inr hr)
          simp only [hr] at h
          rcases h with h | h
          · simp at h
          · simp only [Result.panicked.injEq] at h
            subst h
            exact ⟨h1.1, Ext.trans hE h1.2⟩
        | outOfFuel =>
          simp only [hr] at h
          rcases h with h | h <;> simp at h
    · rw [if_neg hlt] at h
      rcases h with h | h
      · simp only [Result.done.injEq] at h
        subst h
        exact ⟨hc.exit s hP hlt, ⟨[], by simp [State.incr]⟩⟩
      · simp at h

/-! ### Termination -/

/-- A handler body always ends when the calls of `c.Next()` inside it do; the
cursor stays at or above `i`, or beyond the chain. -/
theorem runProg_ends (hs : Handlers σ) (hL : (hs.length : Int) ≤ abortIndex) (i : Int)
    (nxt : State σ → Result σ)
    (hnxt : ∀ s, s.c.handlers = hs → (i ≤ s.c.index ∨ (hs.length : Int) ≤ s.c.index) →
      ∃ t, (nxt s).EndsIn t ∧ t.c.handlers = hs ∧
        (s.c.index ≤ t.c.index ∨ (hs.length : Int) ≤ t.c.index))
    (pos : Nat) :
    ∀ (p : Prog σ) (s : State σ), s.c.handlers = hs →
      (i ≤ s.c.index ∨ (hs.length : Int) ≤ s.c.index) →
      ∃ t, (runProg nxt pos p s).EndsIn t ∧ t.c.handlers = hs ∧
        (i ≤ t.c.index ∨ (hs.length : Int) ≤ t.c.index) := by
  intro p
  induction p with
  | ret => intro s hh hg; exact ⟨s, Or.inl rfl, hh, hg⟩
  | next k ih =>
    intro s hh hg
    obtain ⟨t1, he, hh1, hg1⟩ := hnxt (s.log (Event.next pos)) hh hg
    have hg2 : i ≤ t1.c.index ∨ (hs.length : Int) ≤ t1.c.index := by
      simp only [State.log] at hg1
      omega
    rcases he with he | he
    · obtain ⟨t, h1, h2, h3⟩ := ih t1 hh1 hg2
      refine ⟨t, ?_, h2, h3⟩
      simpa only [runProg, he] using h1
    · refine ⟨t1, Or.inr ?_, hh1, hg2⟩
      simp only [runProg, he]
  | abort k ih =>
    intro s hh _
    exact ih _ hh (Or.inr hL)
  | abortWithStatus code k ih =>
    intro s hh hg
    by_cases hv : s.c.Writer.accepts code = true
    · simp only [runProg, hv, if_true]
      exact ih _ hh (Or.inr hL)
    · simp only [runProg, hv]
      exact ⟨s.log (Event.panic pos), Or.inr rfl, hh, hg⟩
  | set key value k ih => intro s hh hg; exact ih _ hh hg
  | get key k ih => intro s hh hg; exact ih _ _ _ hh hg
  | writeHeader code k ih =>
    intro s hh hg
    by_cases hv : s.c.Writer.accepts code = true
    · simp only [runProg, hv, if_true]
      exact ih _ hh hg
    · simp only [runProg, hv]
      exact ⟨s.log (Event.panic pos), Or.inr rfl, hh, hg⟩
  | param key k ih => intro s hh hg; exact ih _ s hh hg
  | getQuery key k ih => intro s hh hg; exact ih _ _ s hh hg
  | effect f k ih => intro s hh hg; exact ih _ hh hg
  | read k ih => intro s hh hg; exact ih _ s hh hg
  | panic => intro s hh hg; exact ⟨s.log (Event.panic pos), Or.inr rfl, hh, hg⟩

/-- A handler call always ends when the calls of `c.Next()` inside it do. -/
theorem Handler.run_ends (hs : Handlers σ) (hL : (hs.length : Int) ≤ abortIndex) (i : Int)
    (nxt : State σ → Result σ)
    (hnxt : ∀ s, s.c.handlers = hs → (i ≤ s.c.index ∨ (hs.length : Int) ≤ s.c.index) →
      ∃ t, (nxt s).EndsIn t ∧ t.c.handlers = hs ∧
        (s.c.index ≤ t.c.index ∨ (hs.length : Int) ≤ t.c.index))
    (pos : Nat) (h : Handler σ) (s : State σ) (hh : s.c.handlers = hs)
    (hg : i ≤ s.c.index ∨ (hs.length : Int) ≤ s.c.index) :
    ∃ t, (h.run nxt pos s).EndsIn t ∧ t.c.handlers = hs ∧
      (i ≤ t.c.index ∨ (hs.length : Int) ≤ t.c.index) := by
  cases h with
  | fn body => exact runProg_ends hs hL i nxt hnxt pos body s hh hg
  | recovery =>
    obtain ⟨t1, he, hh1, hg1⟩ := hnxt (s.log (Event.next pos)) hh hg
    have hg2 : i ≤ t1.c.index ∨ (hs.length : Int) ≤ t1.c.index := by
      simp only [State.log] at hg1
      omega
    rcases he with he | he
    · exact ⟨t1, Or.inl (by simp only [Handler.run, runRecovery, he]), hh1, hg2⟩
    · exact ⟨t1.recovered, Or.inl (by simp only [Handler.run, runRecovery, he]; rfl), hh1, hg2⟩

/-- The method `Context.Next` ends, by returning or by a panic, whenever the fuel covers
the handlers still ahead of the cursor: it never runs out of fuel.  The chain
must be shorter than `abortIndex`, as every slice that fits in memory is. -/
theorem Context.Next_ends (hs : Handlers σ) (hL : (hs.length : Int) ≤ abortIndex) :
    ∀ (fuel : Nat) (s : State σ), s.c.handlers = hs →
      (hs.length : Int) - (s.c.index + 1) ≤ fuel →
      ∃ t, (Context.Next fuel s).EndsIn t ∧ t.c.handlers = hs ∧
        (s.c.index ≤ t.c.index ∨ (hs.length : Int) ≤ t.c.index) := by
  intro fuel
  induction fuel with
  | zero =>
    intro s hh hf
    refine ⟨s.incr, Or.inl ?_, hh, Or.inl (by simp [State.incr])⟩
    rw [Context.Next_zero, if_neg]
    rw [hh]
    simp only [State.incr]
    push_cast at hf
    omega
  | succ fuel ih =>
    intro s hh hf
    rw [Context.Next_succ]
    by_cases hlt : s.incr.c.index < s.c.handlers.length
    · rw [if_pos hlt]
      cases hd : s.incr.c.handlerAt with
      | none =>
        exact ⟨_, Or.inr rfl, hh, Or.inl (by simp [State.incr, State.log])⟩
      | some h =>
        simp only []
        have hnxt : ∀ u : State σ, u.c.handlers = hs →
            (s.c.index + 1 ≤ u.c.index ∨ (hs.length : Int) ≤ u.c.index) →
            ∃ t, (Context.Next fuel u).EndsIn t ∧ t.c.handlers = hs ∧
              (u.c.index ≤ t.c.index ∨ (hs.length : Int) ≤ t.c.index) := by
          intro u hu hg
          apply ih u hu
          push_cast at hf
          omega
        obtain ⟨t1, he, hh1, hg1⟩ := Handler.run_ends hs hL (s.c.index + 1) _ hnxt
          s.incr.c.index.toNat h (s.incr.log (Event.invoke s.incr.c.index.toNat)) hh
          (Or.inl (by simp [State.incr, State.log]))
        rcases he with he | he
        · obtain ⟨t, h1, h2, h3⟩ := hnxt t1 hh1 hg1
          refine ⟨t, ?_, h2, ?_⟩
          · simpa only [he] using h1
          · omega
        · refine ⟨t1, Or.inr ?_, hh1, ?_⟩
          · simp only [he]
          · omega
    · rw [if_neg hlt]
      exact ⟨s.incr, Or.inl rfl, hh, Or.inl (by simp [State.incr])⟩

/-- The closure registered by `Handle` always ends: `len(combined)` units of
fuel are enough for the whole chain. -/
theorem dispatch_ends (hs : Handlers σ) (hL : (hs.length : Int) ≤ abortIndex)
    (req : Request) (ps : List (String × String)) (env : σ) :
    ∃ t, (dispatch hs req ps env).EndsIn t := by
  obtain ⟨t, h, _⟩ := Context.Next_ends hs hL hs.length
    { c := newContext hs req ps, env := env, trace := [] } rfl (by simp [newContext])
  exact ⟨t, h⟩

/-! ### The chain invariant -/

theorem calls_append (a b : List Event) : calls (a ++ b) = calls a ++ calls b := by
  induction a with
  | nil => rfl
  | cons e a ih => cases e <;> simp [calls, ih]

theorem calls_eq_nil_of_no_invoke (e : Event) (h : ∀ p, e ≠ Event.invoke p) : calls [e] = [] := by
  cases e <;> simp_all [calls]

theorem append_singleton_split {α : Type} (t t1 t2 : List α) (e x : α)
    (h : t ++ [e] = t1 ++ x :: t2) :
    (t2 = [] ∧ t1 = t ∧ x = e) ∨ (∃ u, t2 = u ++ [e] ∧ t = t1 ++ x :: u) := by
  rcases List.eq_nil_or_concat t2 with h2 | ⟨u, y, h2⟩
  · subst h2
    have := List.append_inj' h rfl
    simp only [List.cons.injEq, and_true] at this
    exact Or.inl ⟨rfl, this.1.symm, this.2.symm⟩
  · subst h2
    have h3 : t ++ [e] = (t1 ++ x :: u) ++ [y] := by simpa using h
    have := List.append_inj' h3 rfl
    simp only [List.cons.injEq, and_true] at this
    exact Or.inr ⟨u, by rw [this.2, List.concat_eq_append], this.1⟩

theorem goodAborts_of_no_abort (tr : List Event) (h : ∀ p, Event.abort p ∉ tr) :
    GoodAborts tr := by
  intro t1 p t2 heq
  exact absurd (by rw [heq]; simp) (h p)

theorem goodAborts_append_other (tr : List Event) (e : Event) (hg : GoodAborts tr)
    (he : ∀ p, e ≠ Event.abort p) (hc : calls [e] = []) : GoodAborts (tr ++ [e]) := by
  intro t1 p t2 heq
  rcases append_singleton_split tr t1 t2 e (Event.abort p) heq with ⟨_, _, h3⟩ | ⟨u, h2, h3⟩
  · exact absurd h3.symm (he p)
  · have := hg t1 p u h3
    refine ⟨?_, this.2⟩
    rw [h2, calls_append, this.1, hc]
    rfl

theorem goodAborts_append_abort (tr : List Event) (pos : Nat) (hg : GoodAborts tr)
    (hb : Event.next pos ∉ tr → calls tr = List.range (pos + 1)) :
    GoodAborts (tr ++ [Event.abort pos]) := by
  intro t1 p t2 heq
  rcases append_singleton_split tr t1 t2 _ (Event.abort p) heq with ⟨h1, h2, h3⟩ | ⟨u, h2, h3⟩
  · simp only [Event.abort.injEq] at h3
    subst h1 h2 h3
    exact ⟨rfl, hb⟩
  · have := hg t1 p u h3
    refine ⟨?_, this.2⟩
    rw [h2, calls_append, this.1]
    rfl

theorem chainInv_log_other {hs : Handlers σ} {s : State σ} (h : ChainInv hs s) (e : Event)
    (he : ∀ p, e ≠ Event.abort p) (hi : ∀ p, e ≠ Event.invoke p)
    (ho : ∀ i, e ≠ Event.outOfRange i) (c : Context σ) (env : σ)
    (hh : c.handlers = s.c.handlers) (hx : c.index = s.c.index) :
    ChainInv hs { c := c, env := env, trace := s.trace ++ [e] } := by
  have hc : calls (s.trace ++ [e]) = calls s.trace := by
    rw [calls_append, calls_eq_nil_of_no_invoke e hi, List.append_nil]
  have hm : ∀ p, Event.abort p ∈ s.trace ++ [e] ↔ Event.abort p ∈ s.trace := by
    intro p
    simp only [List.mem_append, List.mem_singleton]
    constructor
    · rintro (h1 | h1)
      · exact h1
      · exact absurd h1.symm (he p)
    · exact Or.inl
  refine ⟨hh.trans h.handlers, by simpa only [hx] using h.lower, ?_, ?_, ?_, ?_, ?_, ?_⟩
  · simpa only [hc] using h.contiguous
  · simpa only [hc, hx] using h.current
  · simpa only [hm, hx] using h.aborted
  · simpa only [hm, hc, hx] using h.completed
  · exact goodAborts_append_other _ e h.aborts he (calls_eq_nil_of_no_invoke e hi)
  · intro i hmem
    simp only [List.mem_append, List.mem_singleton] at hmem
    rcases hmem with h1 | h1
    · exact h.inRange i h1
    · exact ho i h1.symm

theorem chainInv_same_trace {hs : Handlers σ} {s : State σ} (h : ChainInv hs s)
    (c : Context σ) (env : σ) (hh : c.handlers = s.c.handlers) (hx : c.index = s.c.index) :
    ChainInv hs { c := c, env := env, trace := s.trace } := by
  refine ⟨hh.trans h.handlers, by simpa only [hx] using h.lower, h.contiguous, ?_, ?_, ?_,
    h.aborts, h.inRange⟩
  · simpa only [hx] using h.current
  · simpa only [hx] using h.aborted
  · simpa only [hx] using h.completed

theorem bodyInv_log_abort {hs : Handlers σ} (hL : (hs.length : Int) ≤ abortIndex)
    {s : State σ} {pos : Nat} (h : BodyInv hs pos s)
    (c : Context σ) (env : σ) (hh : c.handlers = s.c.handlers) (hx : c.index = abortIndex) :
    BodyInv hs pos { c := c, env := env, trace := s.trace ++ [Event.abort pos] } := by
  have hc : calls (s.trace ++ [Event.abort pos]) = calls s.trace := by
    rw [calls_append]
    simp [calls]
  obtain ⟨h, hb⟩ := h
  refine ⟨⟨hh.trans h.handlers, ?_, ?_, ?_, ?_, ?_, ?_, ?_⟩, ?_⟩
  · have := h.lower
    simp only [hx]
    have h0 : (0 : Int) ≤ hs.length := Int.ofNat_nonneg _
    omega
  · simpa only [hc] using h.contiguous
  · intro hlt
    simp only [hx] at hlt
    omega
  · intro _
    simpa only [hx] using hL
  · intro hno
    exact absurd (by simp) (hno pos)
  · apply goodAborts_append_abort _ _ h.aborts
    intro hn
    rcases hb with hb | hb
    · exact absurd hb hn
    · exact hb
  · intro i hmem
    simp only [List.mem_append, List.mem_singleton] at hmem
    rcases hmem with h1 | h1
    · exact h.inRange i h1
    · simp at h1
  · rcases hb with hb | hb
    · exact Or.inl (by simp [hb])
    · exact Or.inr (by rw [hc]; exact hb)

theorem bodyInv_log_other {hs : Handlers σ} {s : State σ} {pos : Nat} (h : BodyInv hs pos s)
    (e : Event) (he : ∀ p, e ≠ Event.abort p) (hi : ∀ p, e ≠ Event.invoke p)
    (ho : ∀ i, e ≠ Event.outOfRange i) (c : Context σ) (env : σ)
    (hh : c.handlers = s.c.handlers) (hx : c.index = s.c.index) :
    BodyInv hs pos { c := c, env := env, trace := s.trace ++ [e] } := by
  refine ⟨chainInv_log_other h.1 e he hi ho c env hh hx, ?_⟩
  rcases h.2 with hb | hb
  · exact Or.inl (by simp [hb])
  · refine Or.inr ?_
    rw [calls_append, calls_eq_nil_of_no_invoke e hi, List.append_nil]
    exact hb

theorem bodyInv_same_trace {hs : Handlers σ} {s : State σ} {pos : Nat} (h : BodyInv hs pos s)
    (c : Context σ) (env : σ) (hh : c.handlers = s.c.handlers) (hx : c.index = s.c.index) :
    BodyInv hs pos { c := c, env := env, trace := s.trace } :=
  ⟨chainInv_same_trace h.1 c env hh hx, h.2⟩

theorem chainInv_invoke {hs : Handlers σ} {s : State σ} (h : ChainInv hs s)
    (hlt : s.incr.c.index < s.c.handlers.length) :
    BodyInv hs s.incr.c.index.toNat (s.incr.log (Event.invoke s.incr.c.index.toNat)) := by
  have hlow := h.lower
  have hh := h.handlers
  rw [hh] at hlt
  simp only [State.incr] at hlt
  obtain ⟨n, hn⟩ : ∃ n : Nat, (n : Int) = s.c.index + 1 :=
    ⟨(s.c.index + 1).toNat, Int.toNat_of_nonneg (by omega)⟩
  have hn1 : (s.c.index + 1).toNat = n := by omega
  have hn2 : (s.c.index + 1 + 1).toNat = n + 1 := by omega
  have hcur : calls s.trace = List.range n := by
    rw [← hn1]
    exact h.current (by omega)
  have hnew : calls (s.trace ++ [Event.invoke n]) = List.range (n + 1) := by
    rw [calls_append, hcur, List.range_succ]
    rfl
  have hno : ∀ p, Event.abort p ∉ s.trace := by
    intro p hp
    have := h.aborted ⟨p, hp⟩
    omega
  have hno2 : ∀ p, Event.abort p ∉ s.trace ++ [Event.invoke n] := by
    intro p hp
    simp only [List.mem_append, List.mem_singleton] at hp
    rcases hp with hp | hp
    · exact hno p hp
    · simp at hp
  simp only [State.incr, State.log, hn1]
  refine ⟨⟨hh, ?_, ⟨n + 1, by omega, hnew⟩, ?_, ?_, ?_, ?_, ?_⟩, Or.inr hnew⟩
  · simp only
    omega
  · intro _
    simp only [hn2]
    exact hnew
  · rintro ⟨p, hp⟩
    exact absurd hp (hno2 p)
  · intro _ hge
    simp only at hge
    omega
  · exact goodAborts_of_no_abort _ hno2
  · intro i hmem
    simp only [List.mem_append, List.mem_singleton] at hmem
    rcases hmem with h1 | h1
    · exact h.inRange i h1
    · simp at h1

theorem chainInv_exit {hs : Handlers σ} {s : State σ} (h : ChainInv hs s)
    (hge : ¬ s.incr.c.index < s.c.handlers.length) : ChainInv hs s.incr := by
  have hlow := h.lower
  have hh := h.handlers
  rw [hh] at hge
  simp only [State.incr] at hge
  simp only [State.incr]
  refine ⟨hh, ?_, h.contiguous, ?_, ?_, ?_, h.aborts, h.inRange⟩
  · simp only
    omega
  · intro hlt
    simp only at hlt
    omega
  · intro ha
    have := h.aborted ha
    simp only
    omega
  · intro hno _
    by_cases hlt : s.c.index < hs.length
    · have hcur := h.current hlt
      have : (s.c.index + 1).toNat = hs.length := by omega
      rw [← this]
      exact hcur
    · exact h.completed hno (by omega)

theorem chainInv_lookup {hs : Handlers σ} {s : State σ} (h : ChainInv hs s)
    (hlt : s.incr.c.index < s.c.handlers.length) : s.incr.c.handlerAt ≠ none := by
  have hlow := h.lower
  simp only [State.incr] at hlt
  simp only [State.incr, Context.handlerAt]
  rw [if_pos (by omega)]
  intro hnone
  rw [List.getElem?_eq_none_iff] at hnone
  omega

/-- The chain invariant is kept by every statement of a request. -/
theorem chainInv_closed (hs : Handlers σ) (hL : (hs.length : Int) ≤ abortIndex) :
    Closed (ChainInv hs) (BodyInv hs) where
  invoke := fun _ _ hP hlt _ => chainInv_invoke hP hlt
  exit := fun _ hP hge => chainInv_exit hP hge
  oob := fun _ hP hlt hnone => absurd hnone (chainInv_lookup hP hlt)
  leave := fun _ _ hI => hI.1
  call := fun pos s hI =>
    chainInv_log_other hI.1 (Event.next pos) (by simp) (by simp) (by simp) s.c s.env rfl rfl
  resume := fun pos s t _ hP hE => by
    obtain ⟨evs, he⟩ := hE
    exact ⟨hP, Or.inl (by rw [he]; simp [State.log])⟩
  abort := fun _ s hI => bodyInv_log_abort hL hI s.c.Abort s.env rfl rfl
  abortWithStatus := fun _ s code hI =>
    bodyInv_log_abort hL
      (bodyInv_log_other hI (Event.writeHeader code) (by simp) (by simp) (by simp) s.c s.env rfl rfl)
      (s.c.AbortWithStatus code) s.env rfl rfl
  set := fun _ s key value hI =>
    bodyInv_log_other hI (Event.set key value) (by simp) (by simp) (by simp) (s.c.Set key value) s.env
      rfl rfl
  get := fun _ s key hI =>
    bodyInv_log_other hI (Event.get key (s.c.Get key).1 (s.c.Get key).2) (by simp) (by simp) (by simp)
      s.c s.env rfl rfl
  writeHeader := fun _ s code hI =>
    bodyInv_log_other hI (Event.writeHeader code) (by simp) (by simp) (by simp) _ s.env rfl rfl
  effect := fun _ s f hI => bodyInv_same_trace hI s.c (f s.env) rfl rfl
  panic := fun pos s hI =>
    chainInv_log_other hI.1 (Event.panic pos) (by simp) (by simp) (by simp) s.c s.env rfl rfl
  recover := fun s hP =>
    chainInv_log_other hP (Event.writeHeader StatusInternalServerError) (by simp) (by simp) (by simp)
      _ s.env rfl rfl

/-- The Context that `dispatch` builds satisfies the chain invariant. -/
theorem chainInv_newContext (hs : Handlers σ) (req : Request) (ps : List (String × String)) (env : σ) :
    ChainInv hs { c := newContext hs req ps, env := env, trace := [] } := by
  refine ⟨rfl, by simp [newContext], ⟨0, Nat.zero_le _, rfl⟩, ?_, ?_, ?_, ?_, ?_⟩
  · intro _
    simp [newContext, calls]
  · rintro ⟨p, hp⟩
    simp at hp
  · intro _ hge
    simp only [newContext] at hge
    have h0 : (0 : Int) ≤ hs.length := Int.ofNat_nonneg _
    omega
  · exact goodAborts_of_no_abort _ (by simp)
  · simp

/-- Every state in which a dispatched request ends satisfies the chain
invariant. -/
theorem dispatch_chainInv (hs : Handlers σ) (hL : (hs.length : Int) ≤ abortIndex)
    (req : Request) (ps : List (String × String)) (env : σ) (t : State σ)
    (h : (dispatch hs req ps env).EndsIn t) : ChainInv hs t :=
  (Context.Next_closed (chainInv_closed hs hL) hs.length _ t
    (chainInv_newContext hs req ps env) h).1

/-! ### The response writer -/

theorem statuses_append (a b : List Event) : statuses (a ++ b) = statuses a ++ statuses b := by
  induction a with
  | nil => rfl
  | cons e a ih =>
    cases e with
    | writeHeader code => by_cases hc : isInterim code = true <;> simp [statuses, ih, hc]
    | _ => simp [statuses, ih]

theorem writerInv_other {s : State σ} (h : WriterInv s) (e : Event)
    (he : ∀ code, e ≠ Event.writeHeader code) (c : Context σ) (env : σ)
    (hw : c.Writer = s.c.Writer) :
    WriterInv { c := c, env := env, trace := s.trace ++ [e] } := by
  have hst : statuses (s.trace ++ [e]) = statuses s.trace := by
    rw [statuses_append]
    cases e <;> simp_all [statuses]
  simpa only [WriterInv, hst, hw] using h

theorem writerInv_write {s : State σ} (h : WriterInv s) (code : Int) (c : Context σ) (env : σ)
    (hw : c.Writer = s.c.Writer.WriteHeader code) :
    WriterInv { c := c, env := env, trace := s.trace ++ [Event.writeHeader code] } := by
  obtain ⟨h1, h2⟩ := h
  simp only [WriterInv, hw, statuses_append, statuses, ResponseWriter.WriteHeader]
  by_cases hc : isInterim code = true
  · simp only [hc, if_true, ite_self, List.append_nil]
    exact ⟨h1, h2⟩
  · simp only [hc]
    cases hst : statuses s.trace with
    | nil =>
      rw [hst] at h2
      simp only [List.isEmpty_nil, Bool.not_true] at h2
      simp [h2]
    | cons a l =>
      rw [hst] at h1 h2
      simp only [List.isEmpty_cons, Bool.not_false] at h2
      simp [h2, h1]

/-- The writer invariant is kept by every statement of a request. -/
theorem writerInv_closed : Closed (σ := σ) WriterInv (fun _ => WriterInv) where
  invoke := fun s _ hP _ _ => writerInv_other hP _ (by simp) _ s.env rfl
  exit := fun s hP _ => hP
  oob := fun s hP _ _ => writerInv_other hP _ (by simp) _ s.env rfl
  leave := fun _ _ hI => hI
  call := fun _ s hI => writerInv_other hI _ (by simp) s.c s.env rfl
  resume := fun _ _ _ _ hP _ => hP
  abort := fun _ s hI => writerInv_other hI _ (by simp) _ s.env rfl
  abortWithStatus := fun pos s code hI =>
    writerInv_other (writerInv_write hI code { s.c with Writer := s.c.Writer.WriteHeader code }
      s.env rfl) (Event.abort pos) (by simp) (s.c.AbortWithStatus code) s.env rfl
  set := fun _ s key value hI => writerInv_other hI _ (by simp) _ s.env rfl
  get := fun _ s key hI => writerInv_other hI _ (by simp) s.c s.env rfl
  writeHeader := fun _ s code hI => writerInv_write hI code _ s.env rfl
  effect := fun _ s f hI => hI
  panic := fun _ s hI => writerInv_other hI _ (by simp) s.c s.env rfl
  recover := fun s hP => writerInv_write hP StatusInternalServerError _ s.env rfl

/-- In every state in which a dispatched request ends, the response writer
holds the first status written during the request. -/
theorem dispatch_writerInv (hs : Handlers σ) (req : Request) (ps : List (String × String)) (env : σ)
    (t : State σ) (h : (dispatch hs req ps env).EndsIn t) : WriterInv t :=
  (Context.Next_closed writerInv_closed hs.length
    { c := newContext hs req ps, env := env, trace := [] } t
    (by simp [WriterInv, newContext, statuses]) h).1

/-! ### The Context store -/

theorem lookup_filter_ne (m : List (String × Value)) (k k' : String) :
    (m.filter (fun kv => kv.1 != k)).lookup k' = if k' = k then none else m.lookup k' := by
  induction m with
  | nil => simp
  | cons a m ih =>
    obtain ⟨a, b⟩ := a
    by_cases hak : a = k
    · subst hak
      by_cases hk : k' = a
      · subst hk
        simp [List.filter_cons, ih]
      · have hne : (k' == a) = false := by simpa using hk
        simp [List.filter_cons, ih, hk, List.lookup_cons, hne]
    · by_cases hk : k' = k
      · subst hk
        have hne : (k' == a) = false := by
          simp only [beq_eq_false_iff_ne, ne_eq]
          exact fun h => hak h.symm
        simp [List.filter_cons, ih, hak, List.lookup_cons, hne]
      · simp [List.filter_cons, ih, hak, hk, List.lookup_cons]

/-- Reading with `Get` after `Set`: the key just set holds the new value, every other key
reads as before. -/
theorem Context.Get_Set (c : Context σ) (k : String) (v : Value) (k' : String) :
    (c.Set k v).Get k' = if k' = k then (v, true) else c.Get k' := by
  by_cases hk : k' = k
  · subst hk
    simp [Context.Set, Context.Get, List.lookup_cons]
  · have hne : (k' == k) = false := by simpa using hk
    cases hkeys : c.keys with
    | none => simp [Context.Set, Context.Get, List.lookup_cons, hne, hk, hkeys]
    | some m =>
      simp [Context.Set, Context.Get, List.lookup_cons, hne, hk, hkeys, lookup_filter_ne]

theorem setsOf_append (key : String) (a b : List Event) :
    setsOf key (a ++ b) = setsOf key a ++ setsOf key b := by
  induction a with
  | nil => rfl
  | cons e a ih =>
    cases e with
    | set k v =>
      by_cases hk : k = key <;> simp [setsOf, ih, hk]
    | _ => simp [setsOf, ih]

theorem storeOf_append_other (tr : List Event) (e : Event) (h : ∀ k v, e ≠ Event.set k v)
    (key : String) : storeOf (tr ++ [e]) key = storeOf tr key := by
  have : setsOf key [e] = [] := by
    cases e <;> simp_all [setsOf]
  simp [storeOf, setsOf_append, this]

theorem storeOf_append_set (tr : List Event) (k : String) (v : Value) (key : String) :
    storeOf (tr ++ [Event.set k v]) key = if key = k then (v, true) else storeOf tr key := by
  by_cases hk : key = k
  · subst hk
    simp [storeOf, setsOf_append, setsOf]
  · have hk2 : ¬ k = key := fun h => hk h.symm
    simp [storeOf, setsOf_append, setsOf, hk, hk2]

theorem getsCoherent_append_other (tr : List Event) (e : Event) (hg : GetsCoherent tr)
    (he : ∀ k v b, e ≠ Event.get k v b) : GetsCoherent (tr ++ [e]) := by
  intro t1 k v b t2 heq
  rcases append_singleton_split tr t1 t2 e _ heq with ⟨_, _, h3⟩ | ⟨u, _, h3⟩
  · exact absurd h3.symm (he k v b)
  · exact hg t1 k v b u h3

theorem getsCoherent_append_get (tr : List Event) (k : String) (hg : GetsCoherent tr) :
    GetsCoherent (tr ++ [Event.get k (storeOf tr k).1 (storeOf tr k).2]) := by
  intro t1 k1 v b t2 heq
  rcases append_singleton_split tr t1 t2 _ _ heq with ⟨_, h2, h3⟩ | ⟨u, _, h3⟩
  · simp only [Event.get.injEq] at h3
    obtain ⟨h3, h4, h5⟩ := h3
    subst h2 h3 h4 h5
    rfl
  · exact hg t1 k1 v b u h3

theorem storeInv_log_other {s : State σ} (h : StoreInv s) (e : Event)
    (hs : ∀ k v, e ≠ Event.set k v) (hg : ∀ k v b, e ≠ Event.get k v b)
    (c : Context σ) (env : σ) (hk : c.keys = s.c.keys) :
    StoreInv { c := c, env := env, trace := s.trace ++ [e] } := by
  refine ⟨?_, getsCoherent_append_other _ e h.2 hg⟩
  intro k
  rw [storeOf_append_other _ e hs, ← h.1 k]
  simp only [Context.Get, hk]

theorem storeInv_same_trace {s : State σ} (h : StoreInv s)
    (c : Context σ) (env : σ) (hk : c.keys = s.c.keys) :
    StoreInv { c := c, env := env, trace := s.trace } := by
  refine ⟨?_, h.2⟩
  intro k
  rw [← h.1 k]
  simp only [Context.Get, hk]

/-- The store invariant is kept by every statement of a request. -/
theorem storeInv_closed : Closed (σ := σ) StoreInv (fun _ => StoreInv) where
  invoke := fun s _ hP _ _ => storeInv_log_other hP _ (by simp) (by simp) _ s.env rfl
  exit := fun s hP _ => storeInv_same_trace hP _ s.env rfl
  oob := fun s hP _ _ => storeInv_log_other hP _ (by simp) (by simp) _ s.env rfl
  leave := fun _ _ hI => hI
  call := fun _ s hI => storeInv_log_other hI _ (by simp) (by simp) s.c s.env rfl
  resume := fun _ _ _ _ hP _ => hP
  abort := fun _ s hI => storeInv_log_other hI _ (by simp) (by simp) _ s.env rfl
  abortWithStatus := fun pos s code hI =>
    storeInv_log_other
      (storeInv_log_other hI (Event.writeHeader code) (by simp) (by simp) s.c s.env rfl)
      (Event.abort pos) (by simp) (by simp) (s.c.AbortWithStatus code) s.env rfl
  set := fun _ s key value hI => by
    refine ⟨?_, getsCoherent_append_other _ _ hI.2 (by simp)⟩
    intro k
    simp only [State.log]
    rw [storeOf_append_set, Context.Get_Set, hI.1 k]
  get := fun _ s key hI => by
    refine ⟨?_, ?_⟩
    · intro k
      simp only [State.log]
      rw [storeOf_append_other _ _ (by simp), hI.1 k]
    · simp only [State.log]
      rw [hI.1 key]
      exact getsCoherent_append_get _ key hI.2
  writeHeader := fun _ s code hI => storeInv_log_other hI _ (by simp) (by simp) _ s.env rfl
  effect := fun _ s f hI => storeInv_same_trace hI s.c (f s.env) rfl
  panic := fun _ s hI => storeInv_log_other hI _ (by simp) (by simp) s.c s.env rfl
  recover := fun s hP => storeInv_log_other hP _ (by simp) (by simp) _ s.env rfl

/-- In every state in which a dispatched request ends, the store reflects the
`Set` calls of the request and every `Get` returned the value last `Set`. -/
theorem dispatch_storeInv (hs : Handlers σ) (req : Request) (ps : List (String × String)) (env : σ)
    (t : State σ) (h : (dispatch hs req ps env).EndsIn t) : StoreInv t :=
  (Context.Next_closed storeInv_closed hs.length
    { c := newContext hs req ps, env := env, trace := [] } t
    ⟨fun _ => rfl, fun t1 k v b t2 heq => by simp at heq⟩ h).1

/-! ### Route groups -/

/-- A registration that returns has put the route at the end of the table, under
a path that begins with `/` and was not registered for the method. -/
theorem Router.Handle_returned (routes routes1 : List (Route σ)) (m p : String) (hs : Handlers σ)
    (h : Router.Handle routes m p hs = some routes1) :
    routes1 = routes ++ [{ method := m, path := p, handlers := hs }] ∧
    p.data.head? = some '/' ∧
    routes.any (fun r => r.method == m && r.path == p) = false := by
  simp only [Router.Handle] at h
  by_cases h1 : p.data.head? = some '/'
  · rw [if_pos h1] at h
    cases h2 : routes.any (fun r => r.method == m && r.path == p) with
    | true => simp [h2] at h
    | false =>
      simp only [h2, Bool.false_eq_true, if_false, Option.some.injEq] at h
      exact ⟨h.symm, h1, rfl⟩
  · rw [if_neg h1] at h
    simp at h

/-- What a call of `RouterGroup.Handle` that returns has done. -/
theorem RouterGroup.Handle_done (e e1 : Engine σ) (rg : GroupRef) (m p : String)
    (own : Handlers σ) (h : RouterGroup.Handle rg m p own e = some e1) :
    ∃ g, e.groups[rg]? = some g ∧
      e1 = { e with routes := e.routes ++
        [{ method := m, path := joinPaths g.path p,
           handlers := combineHandlers g.handlers own }] } ∧
      (joinPaths g.path p).data.head? = some '/' := by
  simp only [RouterGroup.Handle] at h
  cases hg : e.groups[rg]? with
  | none => simp [hg] at h
  | some g =>
    simp only [hg] at h
    cases hr : Router.Handle e.routes m (joinPaths g.path p) (combineHandlers g.handlers own) with
    | none => simp [hr] at h
    | some routes =>
      simp only [hr, Option.some.injEq] at h
      obtain ⟨h1, h2, -⟩ := Router.Handle_returned _ _ _ _ _ hr
      subst h1
      exact ⟨g, rfl, h.symm, h2⟩

theorem Op.apply_routes (op : Op σ) (e e1 : Engine σ) (h : op.apply e = some e1) :
    ∃ extra, e1.routes = e.routes ++ extra := by
  cases op with
  | use rg hs =>
    simp only [Op.apply, RouterGroup.Use] at h
    cases hg : e.groups[rg]? with
    | none => simp [hg] at h
    | some g =>
      simp only [hg, Option.some.injEq] at h
      subst h
      exact ⟨[], by simp⟩
  | group rg p hs =>
    simp only [Op.apply, RouterGroup.Group] at h
    cases hg : e.groups[rg]? with
    | none => simp [hg] at h
    | some g =>
      simp only [hg, Option.some.injEq] at h
      subst h
      exact ⟨[], by simp⟩
  | handle rg m p hs =>
    simp only [Op.apply] at h
    obtain ⟨g, -, h1, -⟩ := RouterGroup.Handle_done e e1 rg m p hs h
    subst h1
    exact ⟨[_], rfl⟩

theorem applyOps_routes (ops : List (Op σ)) :
    ∀ (e e2 : Engine σ), applyOps ops e = some e2 → ∃ extra, e2.routes = e.routes ++ extra := by
  induction ops with
  | nil =>
    intro e e2 h
    simp only [applyOps, Option.some.injEq] at h
    subst h
    exact ⟨[], by simp⟩
  | cons op ops ih =>
    intro e e2 h
    simp only [applyOps] at h
    cases h1 : op.apply e with
    | none => simp [h1] at h
    | some e1 =>
      simp only [h1] at h
      obtain ⟨x, hx⟩ := Op.apply_routes op e e1 h1
      obtain ⟨y, hy⟩ := ih e1 e2 h
      exact ⟨x ++ y, by rw [hy, hx, List.append_assoc]⟩

theorem Op.apply_groups (op : Op σ) (e e1 : Engine σ) (c : GroupRef)
    (h : op.apply e = some e1) (hu : ∀ hs, op ≠ Op.use c hs) (hc : c < e.groups.length) :
    e1.groups[c]? = e.groups[c]? ∧ c < e1.groups.length := by
  cases op with
  | use rg hs =>
    simp only [Op.apply, RouterGroup.Use] at h
    cases hg : e.groups[rg]? with
    | none => simp [hg] at h
    | some g =>
      simp only [hg, Option.some.injEq] at h
      subst h
      have hne : rg ≠ c := by
        intro heq
        subst heq
        exact hu hs rfl
      refine ⟨?_, ?_⟩
      · show (e.groups.set rg _)[c]? = e.groups[c]?
        rw [List.getElem?_set_ne hne]
      · show c < (e.groups.set rg _).length
        rw [List.length_set]
        exact hc
  | group rg p hs =>
    simp only [Op.apply, RouterGroup.Group] at h
    cases hg : e.groups[rg]? with
    | none => simp [hg] at h
    | some g =>
      simp only [hg, Option.some.injEq] at h
      subst h
      refine ⟨?_, ?_⟩
      · show (e.groups ++ [_])[c]? = e.groups[c]?
        rw [List.getElem?_append_left hc]
      · show c < (e.groups ++ [_]).length
        rw [List.length_append]
        exact Nat.lt_add_right _ hc
  | handle rg m p hs =>
    simp only [Op.apply] at h
    obtain ⟨g, -, h1, -⟩ := RouterGroup.Handle_done e e1 rg m p hs h
    subst h1
    exact ⟨rfl, hc⟩

theorem applyOps_groups (c : GroupRef) (ops : List (Op σ)) :
    ∀ (e e2 : Engine σ), applyOps ops e = some e2 → (∀ hs, Op.use c hs ∉ ops) →
      c < e.groups.length → e2.groups[c]? = e.groups[c]? := by
  induction ops with
  | nil =>
    intro e e2 h _ _
    simp only [applyOps, Option.some.injEq] at h
    subst h
    rfl
  | cons op ops ih =>
    intro e e2 h hu hc
    simp only [applyOps] at h
    cases h1 : op.apply e with
    | none => simp [h1] at h
    | some e1 =>
      simp only [h1] at h
      have hop : ∀ hs, op ≠ Op.use c hs := fun hs heq => hu hs (by simp [heq])
      obtain ⟨hx, hlen⟩ := Op.apply_groups op e e1 c h1 hop hc
      have hy := ih e1 e2 h (fun hs hm => hu hs (List.mem_cons_of_mem _ hm)) hlen
      rw [hy, hx]

theorem find?_append_of_some {α : Type} (f : α → Bool) (l extra : List α) (r : α)
    (h : l.find? f = some r) : (l ++ extra).find? f = some r := by
  simp [List.find?_append, h]

/-! ## The claims -/

/-- C4: `combineHandlers(inherited, own)` is `inherited` followed by `own`, both
in their own order, and its length is the sum of the two lengths. -/
theorem combineHandlers_concat (inherited own : Handlers σ) :
    combineHandlers inherited own = inherited ++ own ∧
    (combineHandlers inherited own).length = inherited.length + own.length ∧
    (∀ i, i < inherited.length → (combineHandlers inherited own)[i]? = inherited[i]?) ∧
    (∀ j, (combineHandlers inherited own)[inherited.length + j]? = own[j]?) := by
  have h : combineHandlers inherited own = inherited ++ own := by
    simp [combineHandlers]
  refine ⟨h, by rw [h, List.length_append], ?_, ?_⟩
  · intro i hi
    rw [h, List.getElem?_append_left hi]
  · intro j
    rw [h, List.getElem?_append_right (Nat.le_add_right _ _), Nat.add_sub_cancel_left]

/-- C6: the child returned by `G.Group(p, mw...)` has prefix
`joinPaths(G.path, p)` and chain `combineHandlers(G.handlers, mw)`, computed
from the parent as it is at that moment; a later `G.Use(h...)` changes the
parent's chain and leaves the child as it was, and so does every later
sequence of configuration calls that does not call `Use` on the child. -/
theorem group_child_fixed (e : Engine σ) (rg : GroupRef) (p : String) (mw : Handlers σ)
    (e1 : Engine σ) (child : GroupRef)
    (h : RouterGroup.Group rg p mw e = some (e1, child)) :
    ∃ g, e.groups[rg]? = some g ∧
      e1.groups[child]? =
        some { path := joinPaths g.path p, handlers := combineHandlers g.handlers mw } ∧
      (∀ hs, ∃ e2, RouterGroup.Use rg hs e1 = some e2 ∧
        e2.groups[rg]? = some { path := g.path, handlers := combineHandlers g.handlers hs } ∧
        e2.groups[child]? = e1.groups[child]?) ∧
      (∀ ops e2, (∀ hs, Op.use child hs ∉ ops) → applyOps ops e1 = some e2 →
        e2.groups[child]? = e1.groups[child]?) := by
  simp only [RouterGroup.Group] at h
  cases hg : e.groups[rg]? with
  | none => simp [hg] at h
  | some g =>
    simp only [hg, Option.some.injEq, Prod.mk.injEq] at h
    obtain ⟨h1, h2⟩ := h
    subst h1 h2
    have hlt : rg < e.groups.length := by
      by_contra hge
      rw [List.getElem?_eq_none (Nat.le_of_not_lt hge)] at hg
      simp at hg
    have hchild : (e.groups ++
        [({ path := joinPaths g.path p, handlers := combineHandlers g.handlers mw } :
          RouterGroup σ)])[e.groups.length]? =
        some { path := joinPaths g.path p, handlers := combineHandlers g.handlers mw } := by
      rw [List.getElem?_append_right (Nat.le_refl _)]
      simp
    have hparent : (e.groups ++
        [({ path := joinPaths g.path p, handlers := combineHandlers g.handlers mw } :
          RouterGroup σ)])[rg]? = some g := by
      rw [List.getElem?_append_left hlt, hg]
    refine ⟨g, rfl, hchild, ?_, ?_⟩
    · intro hs
      simp only [RouterGroup.Use, hparent]
      refine ⟨_, rfl, ?_, ?_⟩
      · show (List.set _ rg _)[rg]? = _
        rw [List.getElem?_set_self]
        simp only [List.length_append, List.length_singleton]
        simp [Nat.lt_add_right 1 hlt]
      · show (List.set _ rg _)[e.groups.length]? = _
        rw [List.getElem?_set_ne (Nat.ne_of_lt hlt)]
    · intro ops e2 hno happ
      exact applyOps_groups _ ops _ e2 happ hno (by
        show e.groups.length < (e.groups ++ [_]).length
        rw [List.length_append]
        exact Nat.lt_add_one _)

/-- An instance of `group_child_fixed`: `examples/group/main.go`. -/
theorem group_child_fixed_witness :
    RouterGroup.Group 0 "/v1" [noop] (New : Engine Unit) = some (groupExample, 1) ∧
    ∃ g, (New : Engine Unit).groups[0]? = some g ∧
      groupExample.groups[1]? =
        some { path := joinPaths g.path "/v1", handlers := combineHandlers g.handlers [noop] } ∧
      (∀ hs, ∃ e2, RouterGroup.Use 0 hs groupExample = some e2 ∧
        e2.groups[0]? = some { path := g.path, handlers := combineHandlers g.handlers hs } ∧
        e2.groups[1]? = groupExample.groups[1]?) ∧
      (∀ ops e2, (∀ hs, Op.use 1 hs ∉ ops) → applyOps ops groupExample = some e2 →
        e2.groups[1]? = groupExample.groups[1]?) :=
  ⟨rfl, group_child_fixed New 0 "/v1" [noop] groupExample 1 rfl⟩

/-- C7: the chain bound to a route by `Handle` is
`combineHandlers(handlers of the group at registration, own handlers)`, and no
later sequence of `Use`, `Group` and `Handle` calls on any group changes it:
the registration stays where it is in the router, with the same chain, and the
router resolves every request it resolved before to the same route. -/
theorem route_chain_fixed (e : Engine σ) (rg : GroupRef) (m p : String) (own : Handlers σ)
    (e1 : Engine σ) (h : RouterGroup.Handle rg m p own e = some e1) :
    ∃ g, e.groups[rg]? = some g ∧
      e1.routes = e.routes ++
        [{ method := m, path := joinPaths g.path p,
           handlers := combineHandlers g.handlers own }] ∧
      ∀ ops e2, applyOps ops e1 = some e2 →
        e2.routes[e.routes.length]? =
          some { method := m, path := joinPaths g.path p,
                 handlers := combineHandlers g.handlers own } ∧
        (∀ m1 p1 r, e1.route? m1 p1 = some r → e2.route? m1 p1 = some r) := by
  obtain ⟨g, hg, h1, -⟩ := RouterGroup.Handle_done e e1 rg m p own h
  subst h1
  refine ⟨g, hg, rfl, ?_⟩
  intro ops e2 happ
  obtain ⟨extra, hx⟩ := applyOps_routes ops _ e2 happ
  refine ⟨?_, ?_⟩
  · rw [hx]
    show (e.routes ++ [_] ++ extra)[e.routes.length]? = _
    rw [List.append_assoc, List.getElem?_append_right (Nat.le_refl _)]
    simp
  · intro m1 p1 r hr
    simp only [Engine.route?] at hr ⊢
    rw [hx]
    exact find?_append_of_some _ _ _ _ hr

/-- An instance of `route_chain_fixed`: `examples/group/main.go`. -/
theorem route_chain_fixed_witness :
    RouterGroup.Handle 1 "GET" "/hello" [noop] groupExample = some groupExampleRouted ∧
    ∃ g, groupExample.groups[1]? = some g ∧
      groupExampleRouted.routes = groupExample.routes ++
        [{ method := "GET", path := joinPaths g.path "/hello",
           handlers := combineHandlers g.handlers [noop] }] ∧
      ∀ ops e2, applyOps ops groupExampleRouted = some e2 →
        e2.routes[groupExample.routes.length]? =
          some { method := "GET", path := joinPaths g.path "/hello",
                 handlers := combineHandlers g.handlers [noop] } ∧
        (∀ m1 p1 r, groupExampleRouted.route? m1 p1 = some r → e2.route? m1 p1 = some r) :=
  ⟨rfl, route_chain_fixed groupExample 1 "GET" "/hello" [noop] groupExampleRouted rfl⟩

theorem Context.SetAll_Get (kvs : List (String × Value)) :
    ∀ (c : Context σ) (k : String), (∀ kv ∈ kvs, kv.1 ≠ k) →
      (c.SetAll kvs).Get k = c.Get k := by
  induction kvs with
  | nil => intro c k _; rfl
  | cons kv kvs ih =>
    intro c k hk
    simp only [Context.SetAll]
    rw [ih _ k (fun x hx => hk x (List.mem_cons_of_mem _ hx)), Context.Get_Set]
    have : k ≠ kv.1 := fun h => hk kv (List.mem_cons_self _ _) h.symm
    simp [this]

theorem setsOf_eq_nil (k : String) (tr : List Event) (h : ∀ v, Event.set k v ∉ tr) :
    setsOf k tr = [] := by
  induction tr with
  | nil => rfl
  | cons e tr ih =>
    have ih := ih (fun v hv => h v (List.mem_cons_of_mem _ hv))
    cases e with
    | set k1 v1 =>
      by_cases hk : k1 = k
      · subst hk
        exact absurd (List.mem_cons_self _ _) (h v1)
      · simp [setsOf, hk, ih]
    | _ => simp [setsOf, ih]

/-- C8: on a Context whose store is still unallocated, `Get(k)` returns the
zero value and `false`, and it still does after any `Set` calls under other
keys; on every Context, `Set(k, v)` followed by `Get(k)` returns `(v, true)`;
and in every request, a `Get(k)` of a handler returns the zero value and
`false` when no handler has `Set` the key before, and `(v, true)` when the last
`Set(k, _)` before it was `Set(k, v)`. -/
theorem get_unset_and_set_get (c : Context σ) (kvs : List (String × Value)) (k : String)
    (v : Value) :
    (c.keys = none → (∀ kv ∈ kvs, kv.1 ≠ k) →
      c.Get k = (Value.null, false) ∧ (c.SetAll kvs).Get k = (Value.null, false)) ∧
    (c.Set k v).Get k = (v, true) ∧
    (∀ (hs : Handlers σ) req ps env t, (dispatch hs req ps env).EndsIn t →
      ∀ t1 w b t2, t.trace = t1 ++ Event.get k w b :: t2 →
        ((∀ v0, Event.set k v0 ∉ t1) → (w, b) = (Value.null, false)) ∧
        (∀ t0 t3, t1 = t0 ++ Event.set k v :: t3 → (∀ v0, Event.set k v0 ∉ t3) →
          (w, b) = (v, true))) := by
  refine ⟨?_, by rw [Context.Get_Set]; simp, ?_⟩
  · intro hnil hk
    have h0 : c.Get k = (Value.null, false) := by simp [Context.Get, hnil]
    exact ⟨h0, by rw [Context.SetAll_Get kvs c k hk, h0]⟩
  · intro hs req ps env t ht t1 w b t2 heq
    have hget := (dispatch_storeInv hs req ps env t ht).2 t1 k w b t2 heq
    refine ⟨?_, ?_⟩
    · intro hno
      rw [hget]
      simp [storeOf, setsOf_eq_nil k t1 hno]
    · intro t0 t3 h1 hno
      rw [hget, h1]
      simp [storeOf, setsOf_append, setsOf, setsOf_eq_nil k t3 hno]

/-- An instance of `get_unset_and_set_get`: the fresh Context of a request,
keys `0` and `1` set, key `unknown` read as in `TestContext`. -/
theorem get_unset_and_set_get_witness :
    ((newContext ([] : Handlers Unit) plainRequest []).Get "unknown" = (Value.null, false) ∧
      ((newContext ([] : Handlers Unit) plainRequest []).SetAll
        [("0", Value.int 0), ("1", Value.int 1)]).Get "unknown" = (Value.null, false)) ∧
    ((newContext ([] : Handlers Unit) plainRequest []).Set "unknown" (Value.int 7)).Get
      "unknown" = (Value.int 7, true) :=
  ⟨(get_unset_and_set_get (newContext ([] : Handlers Unit) plainRequest [])
      [("0", Value.int 0), ("1", Value.int 1)] "unknown" (Value.int 7)).1 rfl (by decide),
    (get_unset_and_set_get (newContext ([] : Handlers Unit) plainRequest [])
      [("0", Value.int 0), ("1", Value.int 1)] "unknown" (Value.int 7)).2.1⟩

theorem Context.Next_done_index : ∀ (fuel : Nat) (s u : State σ),
    Context.Next fuel s = Result.done u → ¬ u.c.index < u.c.handlers.length := by
  intro fuel
  induction fuel with
  | zero =>
    intro s u h
    rw [Context.Next_zero] at h
    by_cases hc : s.incr.c.index < s.c.handlers.length
    · rw [if_pos hc] at h
      simp at h
    · rw [if_neg hc] at h
      simp only [Result.done.injEq] at h
      subst h
      exact hc
  | succ fuel ih =>
    intro s u h
    rw [Context.Next_succ] at h
    by_cases hc : s.incr.c.index < s.c.handlers.length
    · rw [if_pos hc] at h
      cases hd : s.incr.c.handlerAt with
      | none => simp [hd] at h
      | some hh =>
        simp only [hd] at h
        cases hr : hh.run (Context.Next fuel) s.incr.c.index.toNat
            (s.incr.log (Event.invoke s.incr.c.index.toNat)) with
        | done s1 =>
          simp only [hr] at h
          exact ih s1 u h
        | panicked s1 => simp [hr] at h
        | outOfFuel => simp [hr] at h
    · rw [if_neg hc] at h
      simp only [Result.done.injEq] at h
      subst h
      exact hc

/-- A panic that leaves `Context.Next` was raised by a handler or by the
handler lookup. -/
theorem Context.Next_panicked_trace : ∀ (fuel : Nat) (s t : State σ),
    Context.Next fuel s = Result.panicked t →
    (∃ p, Event.panic p ∈ t.trace) ∨ (∃ i, Event.outOfRange i ∈ t.trace) := by
  intro fuel
  induction fuel with
  | zero =>
    intro s t h
    rw [Context.Next_zero] at h
    by_cases hc : s.incr.c.index < s.c.handlers.length
    · rw [if_pos hc] at h
      simp at h
    · rw [if_neg hc] at h
      simp at h
  | succ fuel ih =>
    intro s t h
    rw [Context.Next_succ] at h
    by_cases hc : s.incr.c.index < s.c.handlers.length
    · rw [if_pos hc] at h
      cases hd : s.incr.c.handlerAt with
      | none =>
        simp only [hd, Result.panicked.injEq] at h
        subst h
        exact Or.inr ⟨s.incr.c.index, by simp [State.log]⟩
      | some hh =>
        simp only [hd] at h
        have hbody : ∀ (pos : Nat) (p : Prog σ) (u v : State σ),
            runProg (Context.Next fuel) pos p u = Result.panicked v →
            (∃ p, Event.panic p ∈ v.trace) ∨ (∃ i, Event.outOfRange i ∈ v.trace) := by
          intro pos p
          induction p with
          | ret => intro u v hv; simp [runProg] at hv
          | next k ihk =>
            intro u v hv
            cases hn : Context.Next fuel (u.log (Event.next pos)) with
            | done u1 =>
              simp only [runProg, hn] at hv
              exact ihk u1 v hv
            | panicked u1 =>
              simp only [runProg, hn, Result.panicked.injEq] at hv
              subst hv
              exact ih _ _ hn
            | outOfFuel => simp [runProg, hn] at hv
          | abort k ihk => intro u v hv; exact ihk _ v hv
          | abortWithStatus code k ihk =>
            intro u v hv
            by_cases ha : u.c.Writer.accepts code = true
            · simp only [runProg, ha, if_true] at hv
              exact ihk _ v hv
            · simp only [runProg, ha, Bool.false_eq_true, if_false,
                Result.panicked.injEq] at hv
              subst hv
              exact Or.inl ⟨pos, by simp [State.log]⟩
          | set key value k ihk => intro u v hv; exact ihk _ v hv
          | get key k ihk => intro u v hv; exact ihk _ _ _ v hv
          | writeHeader code k ihk =>
            intro u v hv
            by_cases ha : u.c.Writer.accepts code = true
            · simp only [runProg, ha, if_true] at hv
              exact ihk _ v hv
            · simp only [runProg, ha, Bool.false_eq_true, if_false,
                Result.panicked.injEq] at hv
              subst hv
              exact Or.inl ⟨pos, by simp [State.log]⟩
          | param key k ihk => intro u v hv; exact ihk _ u v hv
          | getQuery key k ihk => intro u v hv; exact ihk _ _ u v hv
          | effect f k ihk => intro u v hv; exact ihk _ v hv
          | read k ihk => intro u v hv; exact ihk _ u v hv
          | panic =>
            intro u v hv
            simp only [runProg, Result.panicked.injEq] at hv
            subst hv
            exact Or.inl ⟨pos, by simp [State.log]⟩
        cases hr : hh.run (Context.Next fuel) s.incr.c.index.toNat
            (s.incr.log (Event.invoke s.incr.c.index.toNat)) with
        | done s1 =>
          simp only [hr] at h
          exact ih s1 t h
        | panicked s1 =>
          simp only [hr, Result.panicked.injEq] at h
          subst h
          cases hh with
          | fn body => exact hbody _ body _ _ hr
          | recovery =>
            simp only [Handler.run, runRecovery] at hr
            cases hn : Context.Next fuel
                ((s.incr.log (Event.invoke s.incr.c.index.toNat)).log
                  (Event.next s.incr.c.index.toNat)) with
            | done u1 => simp [hn] at hr
            | panicked u1 => simp [hn] at hr
            | outOfFuel => simp [hn] at hr
        | outOfFuel => simp [hr] at h
    · rw [if_neg hc] at h
      simp at h

/-- A dispatched request in which no handler panics returns. -/
theorem dispatch_returns (hs : Handlers σ) (req : Request)
    (ps : List (String × String)) (env : σ) (hL : (hs.length : Int) ≤ abortIndex) (t : State σ)
    (ht : (dispatch hs req ps env).EndsIn t) (hno : ∀ p, Event.panic p ∉ t.trace) :
    dispatch hs req ps env = Result.done t := by
  rcases ht with ht | ht
  · exact ht
  · exfalso
    have hinv := dispatch_chainInv hs hL req ps env t (Or.inr ht)
    rcases Context.Next_panicked_trace _ _ t ht with ⟨p, hp⟩ | ⟨i, hi⟩
    · exact hno p hp
    · exact hinv.inRange i hi

/-- When a dispatched request returns and no handler has called `Abort`, the
handlers invoked are those at `0, ..., len-1`, in this order. -/
theorem dispatch_done_calls (hs : Handlers σ) (req : Request)
    (ps : List (String × String)) (env : σ) (hL : (hs.length : Int) ≤ abortIndex) (t : State σ)
    (ht : dispatch hs req ps env = Result.done t) (hno : ∀ p, Event.abort p ∉ t.trace) :
    calls t.trace = List.range hs.length := by
  have hinv := dispatch_chainInv hs hL req ps env t (Or.inl ht)
  have hge := Context.Next_done_index _ _ t ht
  rw [hinv.handlers] at hge
  exact hinv.completed hno (by omega)

/-- C1: on the fresh Context that dispatch builds over any chain, the top-level
`Next()` always ends; it returns unless a handler panicked; and when it
returns and no handler has called `Abort`, the handlers invoked are exactly
those at positions `0, 1, ..., len-1`, each once and in this order, whatever
calls of `Next()` the handlers make from inside their bodies. -/
theorem next_invokes_every_handler_once (hs : Handlers σ) (req : Request)
    (ps : List (String × String)) (env : σ) (hL : (hs.length : Int) ≤ abortIndex) :
    (∃ t, (dispatch hs req ps env).EndsIn t) ∧
    (∀ t, (dispatch hs req ps env).EndsIn t → (∀ p, Event.panic p ∉ t.trace) →
      dispatch hs req ps env = Result.done t) ∧
    ∀ t, dispatch hs req ps env = Result.done t → (∀ p, Event.abort p ∉ t.trace) →
      calls t.trace = List.range hs.length :=
  ⟨dispatch_ends hs hL req ps env, dispatch_returns hs req ps env hL, dispatch_done_calls hs req ps env hL⟩

/-- An instance of `next_invokes_every_handler_once`: four handlers, three of
which call `Next()` themselves. -/
theorem next_invokes_every_handler_once_witness :
    dispatch nested plainRequest [] () = Result.done nestedFinal ∧
    calls nestedFinal.trace = List.range nested.length :=
  ⟨(next_invokes_every_handler_once nested plainRequest [] () (by decide)).2.1 nestedFinal (Or.inl rfl)
      (by intro p; simp [nestedFinal]),
    (next_invokes_every_handler_once nested plainRequest [] () (by decide)).2.2 nestedFinal rfl
      (by intro p; simp [nestedFinal])⟩

/-- C2, as the code has it: in every request, no handler is invoked after a
call of `Abort()` or `AbortWithStatus`, whoever makes it; when the handler at
position `k` makes the call before any call of `Next()` of its own, the
handlers invoked in the whole request are exactly those at `0..k`, each once
and in order; and the rest of the aborting handler's body runs on, in the
Context whose cursor is `abortIndex`. -/
theorem abort_stops_pending_handlers (hs : Handlers σ) (req : Request)
    (ps : List (String × String)) (env : σ) (hL : (hs.length : Int) ≤ abortIndex) :
    (∃ t, (dispatch hs req ps env).EndsIn t) ∧
    (∀ t, (dispatch hs req ps env).EndsIn t → ∀ t1 k t2, t.trace = t1 ++ Event.abort k :: t2 →
      calls t2 = [] ∧
      (Event.next k ∉ t1 →
        calls t.trace = List.range (k + 1) ∧ calls t1 = List.range (k + 1) ∧ k < hs.length)) ∧
    (∀ (nxt : State σ → Result σ) (pos : Nat) (rest : Prog σ) (s : State σ) (code : Int),
      runProg nxt pos (Prog.abort rest) s =
        runProg nxt pos rest
          { c := s.c.Abort, env := s.env, trace := s.trace ++ [Event.abort pos] } ∧
      (s.c.Writer.accepts code = true →
        runProg nxt pos (Prog.abortWithStatus code rest) s =
          runProg nxt pos rest
            { c := s.c.AbortWithStatus code, env := s.env,
              trace := s.trace ++ [Event.writeHeader code] ++ [Event.abort pos] })) := by
  refine ⟨dispatch_ends hs hL req ps env, ?_,
    fun _ _ _ _ _ => ⟨rfl, fun hv => by simp only [runProg, hv, if_true]; rfl⟩⟩
  intro t ht t1 k t2 heq
  have hinv := dispatch_chainInv hs hL req ps env t ht
  obtain ⟨h2, h1⟩ := hinv.aborts t1 k t2 heq
  refine ⟨h2, ?_⟩
  intro hnext
  have h1 := h1 hnext
  have hall : calls t.trace = List.range (k + 1) := by
    rw [heq, calls_append, h1]
    simp [calls, h2]
  refine ⟨hall, h1, ?_⟩
  obtain ⟨m, hm, hc⟩ := hinv.contiguous
  rw [hall] at hc
  have := congrArg List.length hc
  simp only [List.length_range] at this
  omega

/-- An instance of `abort_stops_pending_handlers`: `TestAbort`, where the third
handler of the chain is never invoked and the counter ends at 3; and the chain
whose first handler calls `Abort()` and then `Next()`, where this `Next()`
invokes nothing. -/
theorem abort_stops_pending_handlers_witness :
    dispatch testAbort plainRequest [] 0 = Result.done testAbortFinal ∧
    testAbortFinal.env = 3 ∧
    (calls testAbortFinal.trace = List.range (2 + 1) ∧
      calls [Event.invoke 0, Event.next 0, Event.invoke 1, Event.invoke 2,
        Event.writeHeader 501] = List.range (2 + 1) ∧ 2 < testAbort.length) ∧
    dispatch abortThenNext plainRequest [] () = Result.done abortThenNextFinal ∧
    calls [Event.next 0] = [] :=
  ⟨rfl, rfl,
    ((abort_stops_pending_handlers testAbort plainRequest [] 0 (by decide)).2.1 testAbortFinal
      (Or.inl rfl) [Event.invoke 0, Event.next 0, Event.invoke 1, Event.invoke 2,
        Event.writeHeader 501] 2 [] rfl).2 (by decide),
    rfl,
    ((abort_stops_pending_handlers abortThenNext plainRequest [] () (by decide)).2.1
      abortThenNextFinal (Or.inl rfl) [Event.invoke 0] 0 [Event.next 0] rfl).1⟩

/-- C2 as stated fails: the handler at position 0 calls `Next()` and then
`Abort()`; it has called `Abort`, and the handler at position 1 was invoked. -/
theorem abort_after_next_counterexample :
    dispatch abortAfterNext plainRequest [] () = Result.done abortAfterNextFinal ∧
    Event.abort 0 ∈ abortAfterNextFinal.trace ∧
    calls abortAfterNextFinal.trace = [0, 1] :=
  ⟨rfl, by decide, by decide⟩

/-- C3, as the code has it: the method `AbortWithStatus(code)` is
`WriteHeader(code)` followed by `Abort()`.  For a code that the writer takes as
the status of the response (in `100..999` and not interim), called while no
status is written, the call returns, makes `code` the status and leaves the
cursor at `abortIndex`; and in every request in which it is called before any
other status was written, `code` is the status of the response when the
request ends, whatever is written afterwards. -/
theorem abortWithStatus_sets_status (hs : Handlers σ) (req : Request)
    (ps : List (String × String)) (env : σ) (hL : (hs.length : Int) ≤ abortIndex) :
    (∀ (c : Context σ) (code : Int),
      c.AbortWithStatus code = Context.Abort { c with Writer := c.Writer.WriteHeader code } ∧
      (c.AbortWithStatus code).index = abortIndex ∧
      (c.Writer.wroteHeader = false → isFinalStatus code = true →
        (c.AbortWithStatus code).Writer = { wroteHeader := true, Code := code })) ∧
    (∀ (nxt : State σ → Result σ) (pos : Nat) (rest : Prog σ) (s : State σ) (code : Int),
      s.c.Writer.wroteHeader = false → isFinalStatus code = true →
      runProg nxt pos (Prog.abortWithStatus code rest) s =
        runProg nxt pos rest
          { c := { s.c with Writer := { wroteHeader := true, Code := code }, index := abortIndex },
            env := s.env,
            trace := s.trace ++ [Event.writeHeader code] ++ [Event.abort pos] }) ∧
    (∃ t, (dispatch hs req ps env).EndsIn t) ∧
    (∀ t, (dispatch hs req ps env).EndsIn t → ∀ t1 code k t2,
      t.trace = t1 ++ Event.writeHeader code :: Event.abort k :: t2 → statuses t1 = [] →
      isFinalStatus code = true →
      t.c.Writer = { wroteHeader := true, Code := code }) := by
  have hfin : ∀ code : Int, isFinalStatus code = true →
      isInterim code = false ∧ 100 ≤ code ∧ code ≤ 999 := by
    intro code h
    simp only [isFinalStatus, Bool.and_eq_true, decide_eq_true_eq, Bool.not_eq_true'] at h
    exact ⟨h.2, h.1.1, h.1.2⟩
  refine ⟨?_, ?_, dispatch_ends hs hL req ps env, ?_⟩
  · intro c code
    refine ⟨rfl, rfl, ?_⟩
    intro h hf
    simp [Context.AbortWithStatus, Context.Abort, ResponseWriter.WriteHeader, h, (hfin code hf).1]
  · intro nxt pos rest s code h hf
    obtain ⟨hi, h1, h2⟩ := hfin code hf
    have hacc : s.c.Writer.accepts code = true := by
      simp [ResponseWriter.accepts, h1, h2]
    simp only [runProg, hacc, if_true]
    congr 1
    simp [State.log, Context.AbortWithStatus, Context.Abort, ResponseWriter.WriteHeader, h, hi]
  · intro t ht t1 code k t2 heq hnone hf
    obtain ⟨h1, h2⟩ := dispatch_writerInv hs req ps env t ht
    rw [heq, statuses_append, hnone] at h1 h2
    simp only [statuses, (hfin code hf).1, List.nil_append, List.head?_cons, Option.getD_some,
      List.isEmpty_cons, Bool.not_false, Bool.false_eq_true, if_false] at h1 h2
    cases hw : t.c.Writer with
    | mk w c =>
      rw [hw] at h1 h2
      simp only at h1 h2
      rw [h1, h2]

/-- An instance of `abortWithStatus_sets_status`: the response of `TestAbort`
has status 501. -/
theorem abortWithStatus_sets_status_witness :
    dispatch testAbort plainRequest [] 0 = Result.done testAbortFinal ∧
    testAbortFinal.c.Writer = { wroteHeader := true, Code := 501 } :=
  ⟨rfl, (abortWithStatus_sets_status testAbort plainRequest [] 0 (by decide)).2.2.2 testAbortFinal
    (Or.inl rfl) [Event.invoke 0, Event.next 0, Event.invoke 1, Event.invoke 2] 501 2 []
    rfl rfl rfl⟩

/-- C3 as stated fails for some status codes: after `AbortWithStatus(103)` the
writer has sent an interim response and the status of the response is still
the default `200`; and `AbortWithStatus(0)` panics inside `WriteHeader`, so
that `Abort()` is never called and the cursor stays where it was. -/
theorem abortWithStatus_code_counterexample :
    dispatch abortEarlyHints plainRequest [] () = Result.done abortEarlyHintsFinal ∧
    Event.abort 0 ∈ abortEarlyHintsFinal.trace ∧
    abortEarlyHintsFinal.c.Writer = { wroteHeader := false, Code := 200 } ∧
    dispatch abortStatusZero plainRequest [] () = Result.panicked abortStatusZeroFinal ∧
    (∀ k, Event.abort k ∉ abortStatusZeroFinal.trace) ∧
    abortStatusZeroFinal.c.index = 0 :=
  ⟨rfl, by decide, rfl, rfl, by intro k; simp [abortStatusZeroFinal], rfl⟩

/-- C5, as the code has it: when the calls `root.Use(A...)`, `root.Use(B...)`,
`g := root.Group(p, C...)`, `g.Use(D...)` and `g.Handle(m, q, E...)` on a new
engine have returned, the joined path begins with a slash and the only route is
the one for `m` at `joinPaths(joinPaths("", p), q)` with chain
`A ++ B ++ C ++ D ++ E`; a request to it runs `Next()` over this chain on one
fresh Context: it ends, the handlers invoked are always an initial part of the
chain in declared order, all of them when the request returns and no handler
has called `Abort`, and every `Get` of a handler returns the value last `Set`
under that key before it.  The calls do return when `m` is not empty and the
joined path begins with a slash and has no wildcard segment. -/
theorem registered_chain_in_declared_order (A B C D E : Handlers σ) (p q m : String) :
    (∀ (e1 e2 e3 e4 e5 : Engine σ) (g : GroupRef),
      RouterGroup.Use 0 A (New : Engine σ) = some e1 →
      RouterGroup.Use 0 B e1 = some e2 →
      RouterGroup.Group 0 p C e2 = some (e3, g) →
      RouterGroup.Use g D e3 = some e4 →
      RouterGroup.Handle g m q E e4 = some e5 →
      (joinPaths (joinPaths "" p) q).data.head? = some '/' ∧
      e5.routes = [{ method := m, path := joinPaths (joinPaths "" p) q,
                     handlers := A ++ B ++ C ++ D ++ E }] ∧
      (∀ req ps env, e5.ServeHTTP m (joinPaths (joinPaths "" p) q) req ps env =
        some (dispatch (A ++ B ++ C ++ D ++ E) req ps env)) ∧
      (∀ req ps env, ((A ++ B ++ C ++ D ++ E).length : Int) ≤ abortIndex →
        (∃ t, (dispatch (A ++ B ++ C ++ D ++ E) req ps env).EndsIn t) ∧
        (∀ t, (dispatch (A ++ B ++ C ++ D ++ E) req ps env).EndsIn t →
          ∃ n, n ≤ (A ++ B ++ C ++ D ++ E).length ∧ calls t.trace = List.range n) ∧
        ∀ t, dispatch (A ++ B ++ C ++ D ++ E) req ps env = Result.done t →
          (∀ k, Event.abort k ∉ t.trace) →
          calls t.trace = List.range (A ++ B ++ C ++ D ++ E).length) ∧
      (∀ req ps env t, (dispatch (A ++ B ++ C ++ D ++ E) req ps env).EndsIn t →
        (∀ k, t.c.Get k = storeOf t.trace k) ∧
        ∀ t1 k v b t2, t.trace = t1 ++ Event.get k v b :: t2 → (v, b) = storeOf t1 k)) ∧
    (m ≠ "" → (joinPaths (joinPaths "" p) q).data.head? = some '/' →
      isStatic (joinPaths (joinPaths "" p) q) = true →
      ∃ (e1 e2 e3 e4 e5 : Engine σ) (g : GroupRef),
        RouterGroup.Use 0 A (New : Engine σ) = some e1 ∧
        RouterGroup.Use 0 B e1 = some e2 ∧
        RouterGroup.Group 0 p C e2 = some (e3, g) ∧
        RouterGroup.Use g D e3 = some e4 ∧
        RouterGroup.Handle g m q E e4 = some e5) := by
  have hU1 : RouterGroup.Use 0 A (New : Engine σ) =
      some { groups := [{ path := "", handlers := A }], routes := [] } := rfl
  have hU2 : RouterGroup.Use 0 B
      ({ groups := [{ path := "", handlers := A }], routes := [] } : Engine σ) =
      some { groups := [{ path := "", handlers := A ++ B }], routes := [] } := rfl
  have hG : RouterGroup.Group 0 p C
      ({ groups := [{ path := "", handlers := A ++ B }], routes := [] } : Engine σ) =
      some ({ groups := [{ path := "", handlers := A ++ B },
        { path := joinPaths "" p, handlers := A ++ B ++ C }], routes := [] }, 1) := rfl
  have hU3 : RouterGroup.Use 1 D
      ({ groups := [{ path := "", handlers := A ++ B },
        { path := joinPaths "" p, handlers := A ++ B ++ C }], routes := [] } : Engine σ) =
      some { groups := [{ path := "", handlers := A ++ B },
        { path := joinPaths "" p, handlers := A ++ B ++ C ++ D }], routes := [] } := rfl
  refine ⟨?_, ?_⟩
  · intro e1 e2 e3 e4 e5 g h1 h2 h3 h4 h5
    rw [hU1, Option.some.injEq] at h1
    subst h1
    rw [hU2, Option.some.injEq] at h2
    subst h2
    rw [hG, Option.some.injEq, Prod.mk.injEq] at h3
    obtain ⟨h3, hg⟩ := h3
    subst h3
    subst hg
    rw [hU3, Option.some.injEq] at h4
    subst h4
    obtain ⟨g, hg, h6, hhead⟩ := RouterGroup.Handle_done _ _ _ _ _ _ h5
    simp only [List.getElem?_cons_succ, List.getElem?_cons_zero, Option.some.injEq] at hg
    subst hg
    subst h6
    refine ⟨hhead, rfl, ?_, ?_, ?_⟩
    · intro req ps env
      simp [Engine.ServeHTTP, Engine.route?, combineHandlers]
    · intro req ps env hL
      refine ⟨dispatch_ends _ hL req ps env, ?_, dispatch_done_calls _ req ps env hL⟩
      intro t ht
      exact (dispatch_chainInv _ hL req ps env t ht).contiguous
    · intro req ps env t ht
      exact dispatch_storeInv _ req ps env t ht
  · intro _ hhead _
    refine ⟨_, _, _, _,
      { groups := [{ path := "", handlers := A ++ B },
          { path := joinPaths "" p, handlers := A ++ B ++ C ++ D }],
        routes := [{ method := m, path := joinPaths (joinPaths "" p) q,
                     handlers := A ++ B ++ C ++ D ++ E }] },
      1, hU1, hU2, hG, hU3, ?_⟩
    simp only [RouterGroup.Handle, Router.Handle, List.getElem?_cons_succ,
      List.getElem?_cons_zero, hhead, if_true, List.any_nil, Bool.false_eq_true, if_false]
    rfl

/-- An instance of `registered_chain_in_declared_order`: `TestContext`, where
the request to `/group/handle` returns with the counter at 8 and no failed
check, the keys `0` to `7` holding 0 to 7. -/
theorem registered_chain_in_declared_order_witness :
    RouterGroup.Handle 1 "GET" "/handle" testContextE
      { groups := [{ path := "", handlers := testContextA ++ testContextB },
          { path := "/group",
            handlers := testContextA ++ testContextB ++ testContextC ++ testContextD }],
        routes := [] } = some testContextRouted ∧
    testContextRouted.ServeHTTP "GET" "/group/handle" plainRequest [] ((0 : Nat), true) =
      some (Result.done testContextFinal) ∧
    calls testContextFinal.trace = List.range 11 ∧
    (∀ k, testContextFinal.c.Get k = storeOf testContextFinal.trace k) := by
  have h := (registered_chain_in_declared_order testContextA testContextB testContextC
    testContextD testContextE "/group" "/handle" "GET").1
      { groups := [{ path := "", handlers := testContextA }], routes := [] }
      { groups := [{ path := "", handlers := testContextA ++ testContextB }], routes := [] }
      { groups := [{ path := "", handlers := testContextA ++ testContextB },
          { path := "/group", handlers := testContextA ++ testContextB ++ testContextC }],
        routes := [] }
      { groups := [{ path := "", handlers := testContextA ++ testContextB },
          { path := "/group",
            handlers := testContextA ++ testContextB ++ testContextC ++ testContextD }],
        routes := [] }
      testContextRouted 1 rfl rfl rfl rfl rfl
  obtain ⟨-, -, h7, h8, h9⟩ := h
  have hp : joinPaths (joinPaths "" "/group") "/handle" = "/group/handle" := by decide
  rw [hp] at h7
  have ht : dispatch (testContextA ++ testContextB ++ testContextC ++ testContextD ++
      testContextE) plainRequest [] ((0 : Nat), true) = Result.done testContextFinal := rfl
  refine ⟨rfl, by rw [h7, ht], ?_, (h9 plainRequest [] (0, true) testContextFinal (Or.inl ht)).1⟩
  exact (h8 plainRequest [] (0, true) (by decide)).2.2 testContextFinal ht
    (by intro k; simp [testContextFinal])

/-- C5 as stated fails for some handler lists and some paths.  With
`A = abortFirst`, whose handler calls `Abort()`, no handlers in `B`, `C`, `D`,
and `E = [noop]`, the five calls return and the route is bound to `A ++ E`, of
length 2, but the request returns with only the handler at position 0 invoked.
With no handlers but `E = [noop]`, `p = "v1"` and `q = "x"`, the joined path is
`v1/x`, which the router refuses, so that `Handle` does not return and no route
is registered. -/
theorem registered_chain_counterexample :
    (RouterGroup.Use 0 abortFirst (New : Engine Unit) = some abortFirstRoot ∧
      RouterGroup.Use 0 [] abortFirstRoot = some abortFirstRoot ∧
      RouterGroup.Group 0 "/v1" [] abortFirstRoot = some (abortFirstGroup, 1) ∧
      RouterGroup.Use 1 [] abortFirstGroup = some abortFirstGroup ∧
      RouterGroup.Handle 1 "GET" "/x" [noop] abortFirstGroup = some abortFirstRouted ∧
      abortFirstRouted.ServeHTTP "GET" "/v1/x" plainRequest [] () =
        some (Result.done abortFirstFinal) ∧
      calls abortFirstFinal.trace = [0] ∧
      (abortFirst ++ [] ++ [] ++ [] ++ [noop]).length = 2) ∧
    (RouterGroup.Use 0 [] (New : Engine Unit) = some New ∧
      RouterGroup.Group 0 "v1" [] (New : Engine Unit) = some (unrootedGroup, 1) ∧
      RouterGroup.Use 1 [] unrootedGroup = some unrootedGroup ∧
      joinPaths (joinPaths "" "v1") "x" = "v1/x" ∧
      RouterGroup.Handle 1 "GET" "x" [noop] unrootedGroup = none) :=
  ⟨⟨rfl, rfl, rfl, rfl, rfl, rfl, rfl, rfl⟩, rfl, rfl, rfl, by decide, rfl⟩

/-- The closure of `Recovery()` contains every panic raised by the `Next()` it
calls: it never ends in a panic itself, and it returns in the state the panic
left, with status 500 written. -/
theorem runRecovery_contains (nxt : State σ → Result σ) (pos : Nat) (s : State σ) :
    (∀ t, runRecovery nxt pos s ≠ Result.panicked t) ∧
    (∀ u, nxt (s.log (Event.next pos)) = Result.panicked u →
      runRecovery nxt pos s = Result.done u.recovered) := by
  refine ⟨?_, ?_⟩
  · intro t
    cases hn : nxt (s.log (Event.next pos)) <;> simp [runRecovery, hn]
  · intro u hu
    simp only [runRecovery, hu]
    rfl

/-- C9, on the chain `[Recovery(), panic, panic]`: `Recovery()` precedes the
panicking handler at position 1 and no status was written before its panic;
the panic is recovered and status 500 written, but the loop then invokes the
handler at position 2, outside the recovered call, and its panic leaves the
top-level `Next()`. -/
theorem recovery_lets_later_panic_escape :
    dispatch recoverThenPanic plainRequest [] () = Result.panicked recoverThenPanicFinal ∧
    recoverThenPanicFinal.c.Writer.Code = 500 :=
  ⟨rfl, rfl⟩

/-- C10, on the chain `[Recovery(), panic, handler]`: after the panic of the
handler at position 1 is recovered, the handler at position 2 is invoked. -/
theorem recovery_resumes_chain :
    dispatch recoverThenGoOn plainRequest [] 0 = Result.done recoverThenGoOnFinal ∧
    calls recoverThenGoOnFinal.trace = [0, 1, 2] ∧
    recoverThenGoOnFinal.env = 1 :=
  ⟨rfl, rfl, rfl⟩

/-- The chain of `TestRecovery`, `[Recovery(), panic]`: the request returns
with status 500. -/
theorem testRecovery_status :
    dispatch testRecovery plainRequest [] () = Result.done testRecoveryFinal ∧
    testRecoveryFinal.c.Writer.Code = 500 :=
  ⟨rfl, rfl⟩

/-! ### Paths -/

theorem noSlashPair_of_no_slash (seg : List Char) (h : '/' ∉ seg) : NoSlashPair seg := by
  induction seg with
  | nil => exact List.chain'_nil
  | cons a seg ih =>
    have ha : a ≠ '/' := fun e => h (by simp [e])
    have ih := ih (fun hm => h (List.mem_cons_of_mem _ hm))
    exact List.Chain'.cons' ih (fun y _ hxy => ha hxy.1)

theorem noSlashPair_split (p l1 l2 : List Char) (h : NoSlashPair p) :
    p ≠ l1 ++ '/' :: '/' :: l2 := by
  intro heq
  rw [heq] at h
  exact (List.Chain'.right_of_append h).rel_head ⟨rfl, rfl⟩

theorem splitSlash_no_slash (p : List Char) : ∀ seg ∈ splitSlash p, '/' ∉ seg := by
  induction p with
  | nil => intro seg hseg; simp [splitSlash] at hseg; simp [hseg]
  | cons c cs ih =>
    intro seg hseg
    by_cases hc : c = '/'
    · simp only [splitSlash, hc, if_true, List.mem_cons] at hseg
      rcases hseg with h | h
      · simp [h]
      · exact ih seg h
    · simp only [splitSlash, hc, if_false] at hseg
      cases hs : splitSlash cs with
      | nil =>
        simp only [hs, List.mem_singleton] at hseg
        subst hseg
        simpa using fun e => hc e.symm
      | cons s ss =>
        simp only [hs, List.mem_cons] at hseg
        rw [hs] at ih
        rcases hseg with h | h
        · subst h
          have := ih s (by simp)
          simp only [List.mem_cons, not_or]
          exact ⟨fun e => hc e.symm, this⟩
        · exact ih seg (by simp [h])

theorem cleanSegs_segOK (rooted : Bool) (segs : List (List Char)) :
    ∀ out : List (List Char), (∀ seg ∈ segs, '/' ∉ seg) → (∀ seg ∈ out, SegOK seg) →
      ∀ seg ∈ cleanSegs rooted segs out, SegOK seg := by
  induction segs with
  | nil => intro out _ ho; simpa [cleanSegs] using ho
  | cons s segs ih =>
    intro out hs ho
    have hs' : ∀ seg ∈ segs, '/' ∉ seg := fun seg h => hs seg (List.mem_cons_of_mem _ h)
    have hs0 : '/' ∉ s := hs s (List.mem_cons_self _ _)
    simp only [cleanSegs]
    by_cases h1 : s = [] ∨ s = ['.']
    · rw [if_pos h1]
      exact ih out hs' ho
    · rw [if_neg h1]
      have hne : s ≠ [] := fun e => h1 (Or.inl e)
      have hpush : ∀ seg ∈ s :: out, SegOK seg := by
        intro seg hseg
        rcases List.mem_cons.1 hseg with h | h
        · subst h; exact ⟨hne, hs0⟩
        · exact ho seg h
      by_cases h2 : s = ['.', '.']
      · rw [if_pos h2]
        cases out with
        | nil =>
          cases rooted
          · exact ih _ hs' (by simpa using hpush)
          · exact ih _ hs' (by simp)
        | cons top below =>
          simp only
          by_cases h3 : top = ['.', '.']
          · rw [if_pos h3]
            exact ih _ hs' hpush
          · rw [if_neg h3]
            exact ih _ hs' (fun seg h => ho seg (List.mem_cons_of_mem _ h))
      · rw [if_neg h2]
        exact ih _ hs' hpush

theorem joinSlash_cons_cons (a b : List Char) (rest : List (List Char)) :
    joinSlash (a :: b :: rest) = a ++ '/' :: joinSlash (b :: rest) := rfl

/-- Joining kept segments gives a path without a pair of slashes that neither
starts nor ends with a slash. -/
theorem joinSlash_tidy (segs : List (List Char)) (h : ∀ seg ∈ segs, SegOK seg)
    (hne : segs ≠ []) :
    NoSlashPair (joinSlash segs) ∧ joinSlash segs ≠ [] ∧
      (joinSlash segs).head? ≠ some '/' ∧ (joinSlash segs).getLast? ≠ some '/' := by
  induction segs with
  | nil => exact absurd rfl hne
  | cons a rest ih =>
    obtain ⟨ha1, ha2⟩ := h a (List.mem_cons_self _ _)
    have hhead : a.head? ≠ some '/' := by
      intro e
      exact ha2 (List.mem_of_mem_head? e)
    have hlast : a.getLast? ≠ some '/' := by
      intro e
      exact ha2 (List.mem_of_mem_getLast? e)
    cases rest with
    | nil =>
      exact ⟨noSlashPair_of_no_slash a ha2, ha1, hhead, hlast⟩
    | cons b rest =>
      obtain ⟨i1, i2, i3, i4⟩ := ih (fun seg hs => h seg (List.mem_cons_of_mem _ hs)) (by simp)
      rw [joinSlash_cons_cons]
      refine ⟨?_, by simp, ?_, ?_⟩
      · apply List.Chain'.append (noSlashPair_of_no_slash a ha2)
        · exact List.Chain'.cons' i1 (fun y hy hxy => i3 (by rw [hxy.2] at hy; exact hy))
        · intro x hx y _ hxy
          exact ha2 (by rw [← hxy.1]; exact List.mem_of_mem_getLast? hx)
      · cases a with
        | nil => exact absurd rfl ha1
        | cons c cs => simpa using hhead
      · rw [List.getLast?_append_of_ne_nil _ (by simp)]
        cases hj : joinSlash (b :: rest) with
        | nil => exact absurd hj i2
        | cons c cs =>
          rw [List.getLast?_cons_cons, ← hj]
          exact i4

/-- A cleaned path has no pair of slashes and ends in a slash only when it is
the root. -/
theorem cleanChars_tidy (p : List Char) :
    NoSlashPair (cleanChars p) ∧
      ((cleanChars p).getLast? = some '/' → cleanChars p = ['/']) := by
  cases p with
  | nil =>
    refine ⟨List.chain'_singleton _, ?_⟩
    intro h
    simp [cleanChars] at h
  | cons c cs =>
    have hkept : ∀ seg ∈ (cleanSegs (decide (c = '/')) (splitSlash (c :: cs)) []).reverse,
        SegOK seg := by
      intro seg hseg
      exact cleanSegs_segOK _ _ [] (splitSlash_no_slash _) (by simp) seg
        (List.mem_reverse.1 hseg)
    simp only [cleanChars]
    generalize (cleanSegs (decide (c = '/')) (splitSlash (c :: cs)) []).reverse = kept at hkept
    by_cases hk : kept = []
    · subst hk
      by_cases hc : c = '/'
      · simp only [hc, decide_True, if_true, joinSlash]
        exact ⟨List.chain'_singleton _, fun _ => trivial⟩
      · simp only [hc, decide_False, Bool.false_eq_true, if_false, if_true]
        refine ⟨List.chain'_singleton _, ?_⟩
        intro h
        simp at h
    · obtain ⟨j1, j2, j3, j4⟩ := joinSlash_tidy kept hkept hk
      by_cases hc : c = '/'
      · simp only [hc, decide_True, if_true]
        refine ⟨List.Chain'.cons' j1 (fun y hy hxy => j3 (by rw [hxy.2] at hy; exact hy)), ?_⟩
        intro h
        exfalso
        cases hj : joinSlash kept with
        | nil => exact j2 hj
        | cons d ds =>
          rw [hj, List.getLast?_cons_cons, ← hj] at h
          exact j4 h
      · simp only [hc, decide_False, Bool.false_eq_true, if_false, hk]
        exact ⟨j1, fun h => absurd h j4⟩

/-- C11: `joinPaths(parent, relative)` never holds two slashes in a row, and it
ends with a slash only when it is exactly `/`. -/
theorem joinPaths_no_double_or_trailing_slash (parent relative : String) :
    (∀ l1 l2, (joinPaths parent relative).data ≠ l1 ++ '/' :: '/' :: l2) ∧
    ((joinPaths parent relative).data.getLast? = some '/' →
      joinPaths parent relative = "/") := by
  have key : NoSlashPair (joinPaths parent relative).data ∧
      ((joinPaths parent relative).data.getLast? = some '/' →
        (joinPaths parent relative).data = ['/']) := by
    simp only [joinPaths, pathJoin]
    by_cases ha : parent.data = []
    · rw [if_pos ha]
      by_cases hb : relative.data = []
      · rw [if_pos hb]
        exact ⟨List.chain'_nil, fun h => by simp at h⟩
      · rw [if_neg hb]
        exact cleanChars_tidy _
    · rw [if_neg ha]
      exact cleanChars_tidy _
  refine ⟨fun l1 l2 => noSlashPair_split _ l1 l2 key.1, ?_⟩
  intro h
  have := key.2 h
  exact String.ext this

theorem splitSlash_ne_nil (p : List Char) : splitSlash p ≠ [] := by
  cases p with
  | nil => simp [splitSlash]
  | cons c cs =>
    by_cases hc : c = '/'
    · simp [splitSlash, hc]
    · simp only [splitSlash, hc, if_false]
      cases splitSlash cs <;> simp

theorem splitSlash_cons_of_ne (c : Char) (cs : List Char) (hc : c ≠ '/') :
    splitSlash (c :: cs) =
      match splitSlash cs with
      | [] => [[c]]
      | seg :: segs => (c :: seg) :: segs := by
  simp only [splitSlash, hc, if_false]

theorem splitSlash_append (a b : List Char) :
    splitSlash (a ++ '/' :: b) = splitSlash a ++ splitSlash b := by
  induction a with
  | nil => simp [splitSlash]
  | cons c a ih =>
    by_cases hc : c = '/'
    · simp [splitSlash, hc, ih]
    · cases hs : splitSlash a with
      | nil => exact absurd hs (splitSlash_ne_nil a)
      | cons seg segs =>
        rw [List.cons_append, splitSlash_cons_of_ne _ _ hc, ih, hs,
          splitSlash_cons_of_ne _ _ hc, hs]
        rfl

theorem joinSlash_splitSlash (p : List Char) : joinSlash (splitSlash p) = p := by
  induction p with
  | nil => rfl
  | cons c cs ih =>
    by_cases hc : c = '/'
    · simp only [splitSlash, hc, if_true]
      cases hs : splitSlash cs with
      | nil => exact absurd hs (splitSlash_ne_nil cs)
      | cons seg segs =>
        rw [joinSlash_cons_cons, ← hs, ih]
        rfl
    · simp only [splitSlash, hc, if_false]
      cases hs : splitSlash cs with
      | nil => exact absurd hs (splitSlash_ne_nil cs)
      | cons seg segs =>
        rw [hs] at ih
        cases segs with
        | nil =>
          simp only [joinSlash] at ih ⊢
          rw [ih]
        | cons s2 rest =>
          rw [joinSlash_cons_cons] at ih ⊢
          rw [List.cons_append, ih]

theorem joinSlash_append (s1 s2 : List (List Char)) (h1 : s1 ≠ []) (h2 : s2 ≠ []) :
    joinSlash (s1 ++ s2) = joinSlash s1 ++ '/' :: joinSlash s2 := by
  induction s1 with
  | nil => exact absurd rfl h1
  | cons a rest ih =>
    cases rest with
    | nil =>
      cases s2 with
      | nil => exact absurd rfl h2
      | cons b s2 => rfl
    | cons b rest =>
      rw [List.cons_append, List.cons_append, joinSlash_cons_cons, joinSlash_cons_cons,
        ← List.cons_append, ih (by simp), List.append_assoc]
      rfl

/-- On segments that are empty or ordinary names, the element loop of
`path.Clean` keeps exactly the names. -/
theorem cleanSegs_names (rooted : Bool) (segs : List (List Char)) :
    ∀ out : List (List Char),
      (∀ seg ∈ segs, seg = [] ∨ (seg ≠ [] ∧ seg ≠ ['.'] ∧ seg ≠ ['.', '.'])) →
      cleanSegs rooted segs out = (segs.filter (fun seg => !seg.isEmpty)).reverse ++ out := by
  induction segs with
  | nil => intro out _; rfl
  | cons s segs ih =>
    intro out h
    have h' := fun seg hs => h seg (List.mem_cons_of_mem _ hs)
    rcases h s (List.mem_cons_self _ _) with h0 | ⟨h1, h2, h3⟩
    · subst h0
      simp only [cleanSegs, true_or, if_true]
      rw [ih out h']
      rfl
    · have hn : ¬ (s = [] ∨ s = ['.']) := fun e => e.elim h1 h2
      simp only [cleanSegs]
      rw [if_neg hn, if_neg h3, ih _ h']
      have he : s.isEmpty = false := by
        cases s with
        | nil => exact absurd rfl h1
        | cons c cs => rfl
      simp [List.filter_cons, he]

theorem filter_nonempty_self (segs : List (List Char)) (h : ∀ seg ∈ segs, seg ≠ []) :
    segs.filter (fun seg => !seg.isEmpty) = segs := by
  rw [List.filter_eq_self]
  intro seg hseg
  cases seg with
  | nil => exact absurd rfl (h [] hseg)
  | cons c cs => rfl

/-- Cleaning a rooted path whose segments are empty or ordinary names keeps the
names, separated by single slashes. -/
theorem cleanChars_rooted_names (x : List Char)
    (h : ∀ seg ∈ splitSlash x, seg = [] ∨ (seg ≠ [] ∧ seg ≠ ['.'] ∧ seg ≠ ['.', '.'])) :
    cleanChars ('/' :: x) =
      '/' :: joinSlash ((splitSlash x).filter (fun seg => !seg.isEmpty)) := by
  have hs : splitSlash ('/' :: x) = [] :: splitSlash x := by simp [splitSlash]
  have hall : ∀ seg ∈ ([] : List Char) :: splitSlash x,
      seg = [] ∨ (seg ≠ [] ∧ seg ≠ ['.'] ∧ seg ≠ ['.', '.']) := by
    intro seg hseg
    rcases List.mem_cons.1 hseg with e | e
    · exact Or.inl e
    · exact h seg e
  simp only [cleanChars, decide_True, if_true, hs]
  rw [cleanSegs_names true _ [] hall]
  simp [List.filter_cons]

theorem cleanChars_normalAbs (p : List Char) (h : IsNormalAbs p) : cleanChars p = p := by
  obtain ⟨rest, hp, hseg⟩ := h
  subst hp
  rw [cleanChars_rooted_names rest (fun seg hs => Or.inr (hseg seg hs)),
    filter_nonempty_self _ (fun seg hs => (hseg seg hs).1), joinSlash_splitSlash]

theorem cleanChars_normalAbs_pair (p q : List Char) (hp : IsNormalAbs p)
    (hq : IsNormalAbs q) : cleanChars (p ++ '/' :: q) = p ++ q := by
  obtain ⟨r1, hp, h1⟩ := hp
  obtain ⟨r2, hq, h2⟩ := hq
  subst hp hq
  have hsplit : splitSlash (r1 ++ '/' :: '/' :: r2) = splitSlash r1 ++ [] :: splitSlash r2 := by
    rw [splitSlash_append]
    simp [splitSlash]
  have hall : ∀ seg ∈ splitSlash (r1 ++ '/' :: '/' :: r2),
      seg = [] ∨ (seg ≠ [] ∧ seg ≠ ['.'] ∧ seg ≠ ['.', '.']) := by
    intro seg hseg
    rw [hsplit] at hseg
    rcases List.mem_append.1 hseg with e | e
    · exact Or.inr (h1 seg e)
    · rcases List.mem_cons.1 e with e | e
      · exact Or.inl e
      · exact Or.inr (h2 seg e)
  rw [List.cons_append, cleanChars_rooted_names _ hall, hsplit, List.filter_append,
    List.filter_cons]
  simp only [List.isEmpty_nil, Bool.not_true, Bool.false_eq_true, if_false]
  rw [filter_nonempty_self _ (fun seg hs => (h1 seg hs).1),
    filter_nonempty_self _ (fun seg hs => (h2 seg hs).1),
    joinSlash_append _ _ (splitSlash_ne_nil r1) (splitSlash_ne_nil r2),
    joinSlash_splitSlash, joinSlash_splitSlash]
  simp

/-- C12: for a parent that is empty or an already-normalized absolute path and
a relative path that is an already-normalized absolute path,
`joinPaths(parent, relative)` is the parent followed by the relative path. -/
theorem joinPaths_normalized_concat (parent relative : String)
    (hp : parent = "" ∨ IsNormalAbs parent.data) (hr : IsNormalAbs relative.data) :
    joinPaths parent relative = parent ++ relative := by
  have hrne : relative.data ≠ [] := by
    obtain ⟨rest, h, _⟩ := hr
    rw [h]
    simp
  apply String.ext
  rw [String.data_append]
  simp only [joinPaths, pathJoin]
  rcases hp with hp | hp
  · subst hp
    simp only [if_true, if_neg hrne]
    rw [cleanChars_normalAbs _ hr]
    rfl
  · have hpne : parent.data ≠ [] := by
      obtain ⟨rest, h, _⟩ := hp
      rw [h]
      simp
    rw [if_neg hpne]
    exact cleanChars_normalAbs_pair _ _ hp hr

/-- An instance of `joinPaths_normalized_concat`: the paths of the spec and of
`examples/group/main.go`. -/
theorem joinPaths_normalized_concat_witness :
    joinPaths "" "/hello/:name" = "/hello/:name" ∧ joinPaths "/v1" "/hello" = "/v1/hello" :=
  ⟨joinPaths_normalized_concat "" "/hello/:name" (Or.inl rfl) ⟨_, rfl, by decide⟩,
    joinPaths_normalized_concat "/v1" "/hello" (Or.inr ⟨_, rfl, by decide⟩)
      ⟨_, rfl, by decide⟩⟩

/-! ### Query lookups -/

/-- C13: when the query holds `key`, `GetQuery` returns its first value and
`true`, also when that value is the empty string, and `DefaultQuery` and
`Query` return that value; when it does not hold `key`, `GetQuery` returns the
empty string and `false`, `DefaultQuery` the default and `Query` the empty
string.  A key stored with no value at all reads as the empty string. -/
theorem query_lookup (c : Context σ) (key d : String) :
    (∀ v rest, c.Request.query.lookup key = some (v :: rest) →
      c.GetQuery key = (v, true) ∧ c.DefaultQuery key d = v ∧ c.Query key = v) ∧
    (c.Request.query.lookup key = some [] →
      c.GetQuery key = ("", true) ∧ c.DefaultQuery key d = "" ∧ c.Query key = "") ∧
    (c.Request.query.lookup key = none →
      c.GetQuery key = ("", false) ∧ c.DefaultQuery key d = d ∧ c.Query key = "") := by
  refine ⟨?_, ?_, ?_⟩
  · intro v rest h
    simp [Context.GetQuery, Context.DefaultQuery, Context.Query, h]
  · intro h
    simp [Context.GetQuery, Context.DefaultQuery, Context.Query, h]
  · intro h
    simp [Context.GetQuery, Context.DefaultQuery, Context.Query, h]

/-- An instance of `query_lookup`: the query `q1=1&q2=2` of `TestParams`. -/
theorem query_lookup_witness :
    (testParamsContext.GetQuery "q1" = ("1", true) ∧
      testParamsContext.DefaultQuery "q1" "default" = "1" ∧
      testParamsContext.Query "q1" = "1") ∧
    (testParamsContext.GetQuery "q3" = ("", false) ∧
      testParamsContext.DefaultQuery "q3" "default" = "default" ∧
      testParamsContext.Query "q3" = "") :=
  ⟨(query_lookup testParamsContext "q1" "default").1 "1" [] (by decide),
    (query_lookup testParamsContext "q3" "default").2.2 (by decide)⟩

/-! ### The handler lookup stays in range -/

theorem boundsInv_other {hs : Handlers σ} {s : State σ} (h : BoundsInv hs s) (e : Event)
    (hi : ∀ p, e ≠ Event.invoke p) (ho : ∀ i, e ≠ Event.outOfRange i)
    (c : Context σ) (env : σ) (hh : c.handlers = s.c.handlers) (hx : -1 ≤ c.index) :
    BoundsInv hs { c := c, env := env, trace := s.trace ++ [e] } := by
  refine ⟨hh.trans h.handlers, hx, ?_, ?_⟩
  · intro i hm
    rcases List.mem_append.1 hm with h1 | h1
    · exact h.inRange i h1
    · exact ho i (List.mem_singleton.1 h1).symm
  · intro p hm
    rcases List.mem_append.1 hm with h1 | h1
    · exact h.invoked p h1
    · exact absurd (List.mem_singleton.1 h1).symm (hi p)

theorem abortIndex_nonneg : (-1 : Int) ≤ abortIndex := by decide

/-- The bounds invariant is kept by every statement of a request, whatever the
length of the chain. -/
theorem boundsInv_closed (hs : Handlers σ) :
    Closed (BoundsInv hs) (fun _ => BoundsInv hs) where
  invoke := fun s _ hP hlt _ => by
    have hlow := hP.lower
    rw [hP.handlers] at hlt
    simp only [State.incr] at hlt
    refine ⟨hP.handlers, ?_, ?_, ?_⟩
    · simp only [State.incr, State.log]
      omega
    · intro i hm
      rcases List.mem_append.1 hm with h1 | h1
      · exact hP.inRange i h1
      · simp at h1
    · intro p hm
      rcases List.mem_append.1 hm with h1 | h1
      · exact hP.invoked p h1
      · simp only [State.incr, List.mem_singleton, Event.invoke.injEq] at h1
        omega
  exit := fun s hP _ => ⟨hP.handlers, by simp only [State.incr]; have := hP.lower; omega,
    hP.inRange, hP.invoked⟩
  oob := fun s hP hlt hnone => by
    exfalso
    have hlow := hP.lower
    simp only [State.incr] at hlt
    simp only [State.incr, Context.handlerAt] at hnone
    rw [if_pos (by omega), List.getElem?_eq_none_iff] at hnone
    omega
  leave := fun _ _ hI => hI
  call := fun _ s hI => boundsInv_other hI _ (by simp) (by simp) s.c s.env rfl hI.lower
  resume := fun _ _ _ _ hP _ => hP
  abort := fun _ s hI =>
    boundsInv_other hI _ (by simp) (by simp) s.c.Abort s.env rfl abortIndex_nonneg
  abortWithStatus := fun pos s code hI =>
    boundsInv_other
      (boundsInv_other hI (Event.writeHeader code) (by simp) (by simp) s.c s.env rfl hI.lower)
      (Event.abort pos) (by simp) (by simp) (s.c.AbortWithStatus code) s.env rfl
      abortIndex_nonneg
  set := fun _ s key value hI =>
    boundsInv_other hI _ (by simp) (by simp) (s.c.Set key value) s.env rfl hI.lower
  get := fun _ s key hI => boundsInv_other hI _ (by simp) (by simp) s.c s.env rfl hI.lower
  writeHeader := fun _ s code hI =>
    boundsInv_other hI _ (by simp) (by simp) _ s.env rfl hI.lower
  effect := fun _ s f hI => ⟨hI.handlers, hI.lower, hI.inRange, hI.invoked⟩
  panic := fun _ s hI => boundsInv_other hI _ (by simp) (by simp) s.c s.env rfl hI.lower
  recover := fun s hP => boundsInv_other hP _ (by simp) (by simp) _ s.env rfl hP.lower

/-- C19: on the Context that dispatch builds, for every chain and whatever the
handlers do, every lookup `c.handlers[c.index]` made by `Next()` is in range:
no run ever takes the out-of-range branch, and every position looked up is
below `len(chain)`. -/
theorem handler_lookup_in_range (hs : Handlers σ) (req : Request)
    (ps : List (String × String)) (env : σ) :
    (∀ fuel t, (Context.Next fuel { c := newContext hs req ps, env := env, trace := [] }).EndsIn t →
      (∀ i, Event.outOfRange i ∉ t.trace) ∧ (∀ p, Event.invoke p ∈ t.trace → p < hs.length)) ∧
    (∀ (s : State σ), -1 ≤ s.c.index → s.incr.c.index < s.c.handlers.length →
      ∃ h, s.incr.c.handlerAt = some h ∧ 0 ≤ s.incr.c.index) ∧
    ((hs.length : Int) ≤ abortIndex → ∃ t, (dispatch hs req ps env).EndsIn t) := by
  refine ⟨?_, ?_, fun hL => dispatch_ends hs hL req ps env⟩
  · intro fuel t ht
    have h0 : BoundsInv hs { c := newContext hs req ps, env := env, trace := [] } :=
      ⟨rfl, by simp [newContext], by simp, by simp⟩
    have := (Context.Next_closed (boundsInv_closed hs) fuel _ t h0 ht).1
    exact ⟨this.inRange, this.invoked⟩
  · intro s hlow hlt
    simp only [State.incr] at hlt
    have h0 : (0 : Int) ≤ s.c.index + 1 := by omega
    have hn : (s.c.index + 1).toNat < s.c.handlers.length := by omega
    refine ⟨s.c.handlers[(s.c.index + 1).toNat], ?_, h0⟩
    simp only [State.incr, Context.handlerAt]
    rw [if_pos h0, List.getElem?_eq_getElem hn]

/-- An instance of `handler_lookup_in_range`: the request of `TestAbort`. -/
theorem handler_lookup_in_range_witness :
    (∀ i, Event.outOfRange i ∉ testAbortFinal.trace) ∧
    (∀ p, Event.invoke p ∈ testAbortFinal.trace → p < testAbort.length) :=
  (handler_lookup_in_range testAbort plainRequest [] 0).1 testAbort.length testAbortFinal
    (Or.inl rfl)

/-! ### After `Abort` -/

/-- Beyond the chain, `Next()` only increments the cursor. -/
theorem Context.Next_beyond (fuel : Nat) (s : State σ)
    (h : ¬ s.c.index + 1 < s.c.handlers.length) : Context.Next fuel s = Result.done s.incr := by
  have h2 : ¬ s.incr.c.index < s.c.handlers.length := h
  cases fuel with
  | zero => rw [Context.Next_zero, if_neg h2]
  | succ f => rw [Context.Next_succ, if_neg h2]

theorem runCalls_beyond (hs : Handlers σ) (hL : (hs.length : Int) ≤ abortIndex)
    (fuel : Nat) (cs : List CtxCall) :
    ∀ (s : State σ) (k : Nat), s.c.handlers = hs → abortIndex ≤ s.c.index →
      s.c.index ≤ abortIndex + k →
      ∃ t, runCalls fuel cs s = Result.done t ∧ t.trace = s.trace ∧ t.env = s.env ∧
        t.c.handlers = hs ∧ abortIndex ≤ t.c.index ∧ t.c.index ≤ abortIndex + k + cs.length := by
  induction cs with
  | nil =>
    intro s k hh h1 h2
    exact ⟨s, rfl, rfl, rfl, hh, h1, by simpa using h2⟩
  | cons c cs ih =>
    intro s k hh h1 h2
    cases c with
    | next =>
      have hb : ¬ s.c.index + 1 < s.c.handlers.length := by
        rw [hh]
        omega
      obtain ⟨t, e1, e2, e3, e4, e5, e6⟩ := ih s.incr (k + 1) hh
        (by simp only [State.incr]; omega) (by simp only [State.incr]; omega)
      refine ⟨t, ?_, e2, e3, e4, e5, ?_⟩
      · simp only [runCalls, Context.Next_beyond fuel s hb]
        exact e1
      · simp only [List.length_cons]
        push_cast at e6 ⊢
        omega
    | abort =>
      obtain ⟨t, e1, e2, e3, e4, e5, e6⟩ := ih { s with c := s.c.Abort } k hh
        (by simp [Context.Abort]) (by simp only [Context.Abort]; omega)
      refine ⟨t, ?_, e2, e3, e4, e5, ?_⟩
      · simp only [runCalls]
        exact e1
      · simp only [List.length_cons]
        push_cast at e6 ⊢
        omega

/-- C17: `abortIndex` is greater than the length of every chain that fits in
memory; and once `Abort()` has set the cursor to it, every later sequence of
`Next()` and `Abort()` calls on that Context returns without invoking any
handler, the cursor staying at or above `abortIndex` (and below `2^63` for
fewer than `2^62` calls), so that the check `cursor < len(chain)` stays false.
In a request, no handler is invoked after a call of `Abort`. -/
theorem abort_is_final (hs : Handlers σ) (hfit : fitsInMemory hs) :
    (hs.length : Int) < abortIndex ∧
    (∀ (s : State σ) (cs : List CtxCall) (fuel : Nat), s.c.handlers = hs →
      ∃ t, runCalls fuel cs { s with c := s.c.Abort } = Result.done t ∧
        t.trace = s.trace ∧ t.env = s.env ∧ abortIndex ≤ t.c.index ∧
        ¬ t.c.index < t.c.handlers.length ∧
        ((cs.length : Int) < 2 ^ 62 → t.c.index < 2 ^ 63)) ∧
    (∀ req ps env t, (dispatch hs req ps env).EndsIn t →
      ∀ t1 p t2, t.trace = t1 ++ Event.abort p :: t2 → calls t2 = []) := by
  have hlt : (hs.length : Int) < abortIndex := by
    simp only [fitsInMemory] at hfit
    have : abortIndex = 4611686018427387903 := by decide
    rw [this]
    omega
  have hL : (hs.length : Int) ≤ abortIndex := Int.le_of_lt hlt
  refine ⟨hlt, ?_, ?_⟩
  · intro s cs fuel hh
    obtain ⟨t, e1, e2, e3, e4, e5, e6⟩ := runCalls_beyond hs hL fuel cs
      { s with c := s.c.Abort } 0 hh (by simp [Context.Abort]) (by simp [Context.Abort])
    refine ⟨t, e1, e2, e3, e5, ?_, ?_⟩
    · rw [e4]
      omega
    · intro hlen
      have : abortIndex = 4611686018427387903 := by decide
      rw [this] at e6
      omega
  · intro req ps env t ht t1 p t2 heq
    exact ((dispatch_chainInv hs hL req ps env t ht).aborts t1 p t2 heq).1

/-- An instance of `abort_is_final`: after `Abort()` on the Context in which
the request of `TestAbort` ended, three more `Next()` calls and one `Abort()`
invoke nothing. -/
theorem abort_is_final_witness :
    ∃ t, runCalls 0 [CtxCall.next, CtxCall.abort, CtxCall.next, CtxCall.next]
        { testAbortFinal with c := testAbortFinal.c.Abort } = Result.done t ∧
      t.trace = testAbortFinal.trace ∧ t.env = testAbortFinal.env ∧
      abortIndex ≤ t.c.index ∧ ¬ t.c.index < t.c.handlers.length ∧
      (((4 : Nat) : Int) < 2 ^ 62 → t.c.index < 2 ^ 63) :=
  (abort_is_final testAbort (by simp [fitsInMemory, testAbort])).2.1 testAbortFinal
    [CtxCall.next, CtxCall.abort, CtxCall.next, CtxCall.next] 0 rfl

/-! ### The cursor when `Next` returns -/

/-- The invariant that holds of every state. -/
theorem closed_trivial : Closed (σ := σ) (fun _ => True) (fun _ _ => True) where
  invoke := fun _ _ _ _ _ => trivial
  exit := fun _ _ _ => trivial
  oob := fun _ _ _ _ => trivial
  leave := fun _ _ _ => trivial
  call := fun _ _ _ => trivial
  resume := fun _ _ _ _ _ _ => trivial
  abort := fun _ _ _ => trivial
  abortWithStatus := fun _ _ _ _ => trivial
  set := fun _ _ _ _ _ => trivial
  get := fun _ _ _ _ => trivial
  writeHeader := fun _ _ _ _ => trivial
  effect := fun _ _ _ _ => trivial
  panic := fun _ _ _ => trivial
  recover := fun _ _ => trivial

/-- The trace only grows along a call of `Next`. -/
theorem Context.Next_ext (fuel : Nat) (s t : State σ) (h : (Context.Next fuel s).EndsIn t) :
    Ext s t :=
  (Context.Next_closed closed_trivial fuel s t trivial h).2

/-- The trace only grows along a handler call. -/
theorem Handler.run_ext (fuel pos : Nat) (h : Handler σ) (s t : State σ)
    (hr : (h.run (Context.Next fuel) pos s).EndsIn t) : Ext s t :=
  (Handler.run_closed closed_trivial (Context.Next fuel)
    (fun u v _ hv => ⟨trivial, Context.Next_ext fuel u v hv⟩) pos h s t trivial hr).2

theorem Ext.mem {s t : State σ} (h : Ext s t) {e : Event} (he : e ∈ s.trace) : e ∈ t.trace := by
  obtain ⟨evs, hev⟩ := h
  rw [hev]
  exact List.mem_append_left _ he

/-- When `Next` returns, it returns from its last increment of the cursor, made
in a state that satisfies every closed invariant the starting state does. -/
theorem Context.Next_done_exit {P : State σ → Prop} {I : Nat → State σ → Prop}
    (hc : Closed P I) :
    ∀ (fuel : Nat) (s t : State σ), P s → Context.Next fuel s = Result.done t →
      ∃ u, P u ∧ t = u.incr := by
  intro fuel
  induction fuel with
  | zero =>
    intro s t hP h
    rw [Context.Next_zero] at h
    by_cases hlt : s.incr.c.index < s.c.handlers.length
    · rw [if_pos hlt] at h
      simp at h
    · rw [if_neg hlt] at h
      simp only [Result.done.injEq] at h
      exact ⟨s, hP, h.symm⟩
  | succ fuel ih =>
    intro s t hP h
    rw [Context.Next_succ] at h
    by_cases hlt : s.incr.c.index < s.c.handlers.length
    · rw [if_pos hlt] at h
      cases hh : s.incr.c.handlerAt with
      | none => simp [hh] at h
      | some hd =>
        simp only [hh] at h
        have hI := hc.invoke s hd hP hlt hh
        cases hr : hd.run (Context.Next fuel) s.incr.c.index.toNat
            (s.incr.log (Event.invoke s.incr.c.index.toNat)) with
        | done s1 =>
          have h1 := Handler.run_closed hc _ (Context.Next_closed hc fuel) _ hd _ s1 hI
            (Or.inl hr)
          simp only [hr] at h
          exact ih s1 t h1.1 h
        | panicked s1 => simp [hr] at h
        | outOfFuel => simp [hr] at h
    · rw [if_neg hlt] at h
      simp only [Result.done.injEq] at h
      exact ⟨s, hP, h.symm⟩

theorem abortInv_other {s : State σ} (h : AbortInv s) (e : Event)
    (he : ∀ p, e ≠ Event.abort p) (c : Context σ) (env : σ) (hx : s.c.index ≤ c.index) :
    AbortInv { c := c, env := env, trace := s.trace ++ [e] } := by
  rintro ⟨p, hp⟩
  rcases List.mem_append.1 hp with h1 | h1
  · exact Int.le_trans (h ⟨p, h1⟩) hx
  · exact absurd (List.mem_singleton.1 h1).symm (he p)

/-- The abort invariant is kept by every statement of a request. -/
theorem abortInv_closed : Closed (σ := σ) AbortInv (fun _ => AbortInv) where
  invoke := fun s _ hP _ _ =>
    abortInv_other hP _ (by simp) _ s.env (by simp [State.incr])
  exit := fun s hP _ => fun ha => by
    have := hP ha
    simp only [State.incr]
    omega
  oob := fun s hP _ _ => abortInv_other hP _ (by simp) _ s.env (by simp [State.incr])
  leave := fun _ _ hI => hI
  call := fun _ s hI => abortInv_other hI _ (by simp) s.c s.env (Int.le_refl _)
  resume := fun _ _ _ _ hP _ => hP
  abort := fun _ s _ => fun _ => Int.le_refl _
  abortWithStatus := fun _ s code _ => fun _ => Int.le_refl _
  set := fun _ s key value hI => abortInv_other hI _ (by simp) _ s.env (Int.le_refl _)
  get := fun _ s key hI => abortInv_other hI _ (by simp) s.c s.env (Int.le_refl _)
  writeHeader := fun _ s code hI => abortInv_other hI _ (by simp) _ s.env (Int.le_refl _)
  effect := fun _ s f hI => hI
  panic := fun _ s hI => abortInv_other hI _ (by simp) s.c s.env (Int.le_refl _)
  recover := fun s hP => abortInv_other hP _ (by simp) _ s.env (Int.le_refl _)

/-- A handler body that returns without having called `Next` or `Abort` leaves
the cursor and the chain as they were. -/
theorem runProg_plain (fuel pos : Nat) :
    ∀ (p : Prog σ) (s t : State σ), runProg (Context.Next fuel) pos p s = Result.done t →
      Event.next pos ∉ t.trace → Event.abort pos ∉ t.trace →
      t.c.index = s.c.index ∧ t.c.handlers = s.c.handlers := by
  have hext : ∀ (p : Prog σ) (s t : State σ),
      runProg (Context.Next fuel) pos p s = Result.done t → Ext s t := fun p s t h =>
    Handler.run_ext fuel pos (Handler.fn p) s t (Or.inl h)
  intro p
  induction p with
  | ret =>
    intro s t h _ _
    simp only [runProg, Result.done.injEq] at h
    subst h
    exact ⟨rfl, rfl⟩
  | next k _ =>
    intro s t h hn _
    exfalso
    cases hr : Context.Next fuel (s.log (Event.next pos)) with
    | done s1 =>
      simp only [runProg, hr] at h
      have e1 := Context.Next_ext fuel _ s1 (Or.inl hr)
      exact hn ((hext _ s1 t h).mem (e1.mem (by simp [State.log])))
    | panicked s1 => simp [runProg, hr] at h
    | outOfFuel => simp [runProg, hr] at h
  | abort k _ =>
    intro s t h _ ha
    exfalso
    simp only [runProg] at h
    exact ha ((hext _ _ t h).mem (by simp [State.log]))
  | abortWithStatus code k _ =>
    intro s t h _ ha
    exfalso
    by_cases hv : s.c.Writer.accepts code = true
    · simp only [runProg, hv, if_true] at h
      exact ha ((hext _ _ t h).mem (by simp [State.log]))
    · simp [runProg, hv] at h
  | set key value k ih =>
    intro s t h hn ha
    have h2 := ih _ t h hn ha
    exact h2
  | get key k ih =>
    intro s t h hn ha
    have h2 := ih _ _ _ t h hn ha
    exact h2
  | writeHeader code k ih =>
    intro s t h hn ha
    by_cases hv : s.c.Writer.accepts code = true
    · simp only [runProg, hv, if_true] at h
      have h2 := ih _ t h hn ha
      exact h2
    · simp [runProg, hv] at h
  | param key k ih => intro s t h hn ha; exact ih _ s t h hn ha
  | getQuery key k ih => intro s t h hn ha; exact ih _ _ s t h hn ha
  | effect f k ih =>
    intro s t h hn ha
    have h2 := ih _ t h hn ha
    exact h2
  | read k ih => intro s t h hn ha; exact ih _ s t h hn ha
  | panic => intro s t h _ _; simp [runProg] at h

/-- The closure of `Recovery()` always calls `Next`. -/
theorem runRecovery_calls_next (fuel pos : Nat) (s t : State σ)
    (h : runRecovery (Context.Next fuel) pos s = Result.done t) :
    Event.next pos ∈ t.trace := by
  cases hr : Context.Next fuel (s.log (Event.next pos)) with
  | done s1 =>
    simp only [runRecovery, hr, Result.done.injEq] at h
    subst h
    exact (Context.Next_ext fuel _ _ (Or.inl hr)).mem (by simp [State.log])
  | panicked s1 =>
    simp only [runRecovery, hr, Result.done.injEq] at h
    subst h
    have := (Context.Next_ext fuel _ _ (Or.inr hr)).mem (e := Event.next pos)
      (by simp [State.log])
    simp [State.log, this]
  | outOfFuel => simp [runRecovery, hr] at h

/-- When `Next` returns and no handler has called `Next` or `Abort`, the cursor
is the length of the chain. -/
theorem Context.Next_plain_index : ∀ (fuel : Nat) (s t : State σ),
    Context.Next fuel s = Result.done t → (∀ p, Event.next p ∉ t.trace) →
    (∀ p, Event.abort p ∉ t.trace) → s.c.index + 1 ≤ s.c.handlers.length →
    t.c.index = s.c.handlers.length ∧ t.c.handlers = s.c.handlers := by
  intro fuel
  induction fuel with
  | zero =>
    intro s t h _ _ hle
    rw [Context.Next_zero] at h
    by_cases hlt : s.incr.c.index < s.c.handlers.length
    · rw [if_pos hlt] at h
      simp at h
    · rw [if_neg hlt] at h
      simp only [Result.done.injEq] at h
      subst h
      simp only [State.incr] at hlt ⊢
      exact ⟨by omega, trivial⟩
  | succ fuel ih =>
    intro s t h hn ha hle
    rw [Context.Next_succ] at h
    by_cases hlt : s.incr.c.index < s.c.handlers.length
    · rw [if_pos hlt] at h
      cases hh : s.incr.c.handlerAt with
      | none => simp [hh] at h
      | some hd =>
        simp only [hh] at h
        cases hr : hd.run (Context.Next fuel) s.incr.c.index.toNat
            (s.incr.log (Event.invoke s.incr.c.index.toNat)) with
        | done s1 =>
          simp only [hr] at h
          have e1 := Context.Next_ext fuel s1 t (Or.inl h)
          cases hd with
          | fn body =>
            have hb := runProg_plain fuel _ body _ s1 hr
              (fun hm => hn _ (e1.mem hm)) (fun hm => ha _ (e1.mem hm))
            simp only [State.incr, State.log] at hb hlt
            have := ih s1 t h hn ha (by rw [hb.1, hb.2]; omega)
            rw [hb.2] at this
            exact this
          | recovery =>
            exact absurd (e1.mem (runRecovery_calls_next fuel _ _ s1 hr)) (hn _)
        | panicked s1 => simp [hr] at h
        | outOfFuel => simp [hr] at h
    · rw [if_neg hlt] at h
      simp only [Result.done.injEq] at h
      subst h
      simp only [State.incr] at hlt ⊢
      exact ⟨by omega, trivial⟩

/-- C16, as the code has it: when the top-level `Next()` started on a fresh
Context returns, the check `cursor < len(chain)` is false in both terminal
states: the cursor is at least `len(chain)`, and exactly `len(chain)` when no
handler called `Abort` or `Next()`; and it is at least `abortIndex + 1` when a
handler called `Abort`. -/
theorem cursor_when_next_returns (hs : Handlers σ) (req : Request)
    (ps : List (String × String)) (env : σ) (hL : (hs.length : Int) ≤ abortIndex) :
    (∃ t, (dispatch hs req ps env).EndsIn t) ∧
    ∀ t, dispatch hs req ps env = Result.done t →
      (hs.length : Int) ≤ t.c.index ∧
      ((∀ p, Event.abort p ∉ t.trace) → (∀ p, Event.next p ∉ t.trace) →
        t.c.index = hs.length) ∧
      ((∃ p, Event.abort p ∈ t.trace) → abortIndex + 1 ≤ t.c.index) := by
  refine ⟨dispatch_ends hs hL req ps env, ?_⟩
  intro t ht
  have hinv := dispatch_chainInv hs hL req ps env t (Or.inl ht)
  refine ⟨?_, ?_, ?_⟩
  · have hge := Context.Next_done_index _ _ t ht
    rw [hinv.handlers] at hge
    omega
  · intro ha hn
    exact (Context.Next_plain_index _ _ t ht hn ha (by simp [newContext])).1
  · intro hab
    obtain ⟨u, hu, htu⟩ := Context.Next_done_exit abortInv_closed _ _ t
      (by rintro ⟨p, hp⟩; simp at hp) ht
    subst htu
    have := hu hab
    simp only [State.incr]
    omega

/-- An instance of `cursor_when_next_returns`: two handlers that call neither
`Next()` nor `Abort()` leave the cursor at 2, and the request of `TestAbort`
leaves it above `abortIndex`. -/
theorem cursor_when_next_returns_witness :
    dispatch plainPair plainRequest [] 0 = Result.done plainPairFinal ∧
    plainPairFinal.c.index = plainPair.length ∧
    abortIndex + 1 ≤ testAbortFinal.c.index :=
  ⟨rfl,
    ((cursor_when_next_returns plainPair plainRequest [] 0 (by decide)).2 plainPairFinal
      rfl).2.1 (by intro p; simp [plainPairFinal]) (by intro p; simp [plainPairFinal]),
    ((cursor_when_next_returns testAbort plainRequest [] 0 (by decide)).2 testAbortFinal
      rfl).2.2 ⟨2, by simp [testAbortFinal]⟩⟩

/-- C16 as stated fails in both terminal states: a handler that calls `Next()`
leaves the cursor at 2 on a chain of length 1 although nobody called `Abort`,
and a handler that calls `Abort()` leaves it at `abortIndex + 1`, not at
`abortIndex`. -/
theorem cursor_terminal_counterexample :
    (dispatch nextOnce plainRequest [] () = Result.done nextOnceFinal ∧
      (∀ p, Event.abort p ∉ nextOnceFinal.trace) ∧
      nextOnceFinal.c.index ≠ nextOnce.length) ∧
    (dispatch abortOnce plainRequest [] () = Result.done abortOnceFinal ∧
      Event.abort 0 ∈ abortOnceFinal.trace ∧
      abortOnceFinal.c.index ≠ abortIndex) :=
  ⟨⟨rfl, by intro p; simp [nextOnceFinal], by decide⟩, ⟨rfl, by decide, by decide⟩⟩

/-! ### Middleware around `Next` -/

theorem handlerAt_append (pre tl : Handlers σ) (h : Handler σ) (c : Context σ)
    (hh : c.handlers = pre ++ h :: tl) (hx : c.index = pre.length) :
    c.handlerAt = some h := by
  simp only [Context.handlerAt, hh, hx]
  rw [if_pos (Int.ofNat_nonneg _), Int.toNat_ofNat,
    List.getElem?_append_right (Nat.le_refl _)]
  simp

/-- A run of handlers that each call `Next()` between their own code, in front
of a rest of the chain whose run from position `n` is known: the code before
`Next()` runs in chain order, then the rest, then the code after `Next()` in
reverse order, and each `Next()` adds one to the cursor on its way out. -/
theorem around_nest (hs : Handlers σ) (bEnv : σ → σ) (bIdx : Int) (bTr : List Event)
    (need : Nat) (hb : (hs.length : Int) ≤ bIdx) (tl : Handlers σ) (n : Nat)
    (base : ∀ (fuel : Nat) (s : State σ), need ≤ fuel → s.c.handlers = hs →
      s.c.index + 1 = n →
      Context.Next fuel s = Result.done
        { c := { s.c with index := bIdx }, env := bEnv s.env, trace := s.trace ++ bTr }) :
    ∀ (rest : List ((σ → σ) × (σ → σ))) (pre : Handlers σ),
      hs = pre ++ (rest.map around ++ tl) → pre.length + rest.length = n →
      ∀ (fuel : Nat) (s : State σ), need + rest.length ≤ fuel → s.c.handlers = hs →
        s.c.index + 1 = pre.length →
        Context.Next fuel s = Result.done
          { c := { s.c with index := bIdx + rest.length },
            env := unwind rest (bEnv (wind rest s.env)),
            trace := s.trace ++ (aroundTrace pre.length rest ++ bTr) } := by
  intro rest
  induction rest with
  | nil =>
    intro pre _ hn fuel s hf hh hx
    rw [base fuel s (by simpa using hf) hh (by rw [hx, ← hn]; simp)]
    simp [wind, unwind, aroundTrace]
  | cons pp rest ih =>
    intro pre hhs hn fuel s hf hh hx
    obtain ⟨f, rfl⟩ : ∃ f, fuel = f + 1 := ⟨fuel - 1, by simp only [List.length_cons] at hf; omega⟩
    have hlen : hs.length = pre.length + (rest.length + 1 + tl.length) := by
      rw [hhs]
      simp
      omega
    have hlt : s.incr.c.index < s.c.handlers.length := by
      rw [hh, hlen]
      simp only [State.incr]
      push_cast
      omega
    have hat : s.incr.c.handlerAt = some (around pp) :=
      handlerAt_append pre (rest.map around ++ tl) (around pp) s.incr.c
        (by rw [show s.incr.c.handlers = s.c.handlers from rfl, hh, hhs]; rfl)
        (by simp only [State.incr]; omega)
    have hpos : s.incr.c.index.toNat = pre.length := by
      simp only [State.incr]
      omega
    have hn2 : (pre ++ [around pp]).length + rest.length = n := by
      rw [List.length_append, List.length_singleton, ← hn, List.length_cons]
      omega
    have hf2 : need + rest.length ≤ f := by
      rw [List.length_cons] at hf
      omega
    have hin := ih (pre ++ [around pp]) (by rw [hhs]; simp) hn2 f
      { c := s.incr.c, env := pp.1 s.env,
        trace := s.trace ++ [Event.invoke pre.length] ++ [Event.next pre.length] }
      hf2 hh
      (by
        show s.c.index + 1 + 1 = ((pre ++ [around pp]).length : Int)
        rw [hx, List.length_append]
        simp)
    rw [Context.Next_succ, if_pos hlt, hat]
    simp only [hpos, Handler.run, around, runProg, State.log]
    have hin2 : Context.Next f
        { c := s.incr.c, env := pp.1 s.incr.env,
          trace := s.incr.trace ++ [Event.invoke pre.length] ++ [Event.next pre.length] } = _ :=
      hin
    rw [hin2]
    simp only []
    rw [Context.Next_beyond]
    · simp only [State.incr, unwind, wind, aroundTrace, List.length_append,
        List.length_singleton, List.length_cons, Result.done.injEq]
      congr 1
      · congr 1
        push_cast
        omega
      · simp
    · show ¬ (bIdx + (rest.length : Int) + 1 < (s.c.handlers.length : Int))
      rw [hh]
      omega

theorem calls_aroundTrace (pps : List ((σ → σ) × (σ → σ))) :
    ∀ i, calls (aroundTrace i pps) = List.range' i pps.length := by
  induction pps with
  | nil => intro i; rfl
  | cons pp rest ih =>
    intro i
    simp [aroundTrace, calls, ih, List.range']

theorem wind_noting {α : Type} (labs : List (α × α)) :
    ∀ e : List α, wind (labs.map noting) e = e ++ labs.map Prod.fst := by
  induction labs with
  | nil => intro e; simp [wind]
  | cons ab rest ih =>
    intro e
    simp [wind, ih, noting, note]

theorem unwind_noting {α : Type} (labs : List (α × α)) :
    ∀ e : List α, unwind (labs.map noting) e = e ++ (labs.map Prod.snd).reverse := by
  induction labs with
  | nil => intro e; simp [unwind]
  | cons ab rest ih =>
    intro e
    simp [unwind, ih, noting, note]

/-- A request over a chain of handlers that each call `Next()` between their
own code. -/
theorem dispatch_around (pps : List ((σ → σ) × (σ → σ))) (req : Request)
    (ps : List (String × String)) (env : σ) :
    dispatch (pps.map around) req ps env = Result.done
      { c := { newContext (pps.map around) req ps with index := 2 * pps.length },
        env := unwind pps (wind pps env), trace := aroundTrace 0 pps } := by
  have hb : ∀ (fuel : Nat) (s : State σ), 0 ≤ fuel → s.c.handlers = pps.map around →
      s.c.index + 1 = pps.length →
      Context.Next fuel s = Result.done
        { c := { s.c with index := ((pps.map around).length : Int) }, env := id s.env,
          trace := s.trace ++ [] } := by
    intro fuel s _ hh hx
    rw [Context.Next_beyond fuel s (by rw [hh, hx]; simp)]
    simp only [State.incr, id, List.append_nil, Result.done.injEq]
    congr 2
    rw [hx]
    simp
  have := around_nest (pps.map around) id ((pps.map around).length) [] 0 (Int.le_refl _) []
    pps.length hb pps [] (by simp) (by simp) (pps.map around).length
    { c := newContext (pps.map around) req ps, env := env, trace := [] }
    (by simp) rfl (by simp [newContext])
  rw [dispatch, this]
  simp only [id, List.length_map, List.length_nil, List.nil_append, List.append_nil,
    Result.done.injEq]
  congr 2
  omega

/-- C14: on a chain of `n` handlers that each run their code before `Next()`,
call `Next()` and run their code after it, the request returns after the code
before `Next()` of handlers `0, ..., n-1` in this order followed by the code
after `Next()` of handlers `n-1, ..., 0` in this order, every handler having
been invoked once; with handlers that log a label before and after, the log
reads `pre_0, ..., pre_(n-1), post_(n-1), ..., post_0`. -/
theorem around_order (α : Type) (pps : List ((σ → σ) × (σ → σ))) (req : Request)
    (ps : List (String × String)) (env : σ) :
    (∃ t, dispatch (pps.map around) req ps env = Result.done t ∧
      t.env = unwind pps (wind pps env) ∧
      calls t.trace = List.range (pps.map around).length) ∧
    (∀ (labs : List (α × α)) (log : List α),
      ∃ t, dispatch ((labs.map noting).map around) req ps log = Result.done t ∧
        t.env = log ++ labs.map Prod.fst ++ (labs.map Prod.snd).reverse) := by
  refine ⟨⟨_, dispatch_around pps req ps env, rfl, ?_⟩, ?_⟩
  · simp only [calls_aroundTrace, List.length_map]
    exact (List.range_eq_range' (n := pps.length)).symm
  · intro labs log
    refine ⟨_, dispatch_around (labs.map noting) req ps log, ?_⟩
    simp only [wind_noting, unwind_noting]

/-- A request over handlers that each call `Next()` between their own code,
then a handler that calls `Abort()`, then any handlers. -/
theorem dispatch_around_abort (pps : List ((σ → σ) × (σ → σ))) (a b : σ → σ)
    (post : Handlers σ) (req : Request) (ps : List (String × String)) (env : σ)
    (hL : ((pps.map around ++ aborter a b :: post).length : Int) ≤ abortIndex) :
    dispatch (pps.map around ++ aborter a b :: post) req ps env = Result.done
      { c := { newContext (pps.map around ++ aborter a b :: post) req ps with
               index := abortIndex + 1 + pps.length },
        env := unwind pps (b (a (wind pps env))),
        trace := aroundTrace 0 pps ++ [Event.invoke pps.length, Event.abort pps.length] } := by
  have hb : ∀ (fuel : Nat) (s : State σ), 1 ≤ fuel →
      s.c.handlers = pps.map around ++ aborter a b :: post →
      s.c.index + 1 = pps.length →
      Context.Next fuel s = Result.done
        { c := { s.c with index := abortIndex + 1 }, env := (fun e => b (a e)) s.env,
          trace := s.trace ++ [Event.invoke pps.length, Event.abort pps.length] } := by
    intro fuel s hf hh hx
    obtain ⟨f, rfl⟩ : ∃ f, fuel = f + 1 := ⟨fuel - 1, by omega⟩
    have hlt : s.incr.c.index < s.c.handlers.length := by
      show s.c.index + 1 < (s.c.handlers.length : Int)
      rw [hh, hx]
      simp
    have hat : s.incr.c.handlerAt = some (aborter a b) :=
      handlerAt_append (pps.map around) post (aborter a b) s.incr.c hh
        (by show s.c.index + 1 = _; rw [hx]; simp)
    have hpos : s.incr.c.index.toNat = pps.length := by
      show (s.c.index + 1).toNat = pps.length
      omega
    rw [Context.Next_succ, if_pos hlt, hat]
    simp only [hpos, Handler.run, aborter, runProg, State.log]
    rw [Context.Next_beyond]
    · simp [State.incr, Context.Abort]
    · show ¬ (abortIndex + 1 < (s.c.handlers.length : Int))
      rw [hh]
      omega
  have := around_nest (pps.map around ++ aborter a b :: post) (fun e => b (a e))
    (abortIndex + 1) [Event.invoke pps.length, Event.abort pps.length] 1 (by omega)
    (aborter a b :: post) pps.length hb pps [] (by simp) (by simp)
    (pps.map around ++ aborter a b :: post).length
    { c := newContext (pps.map around ++ aborter a b :: post) req ps, env := env, trace := [] }
    (by simp; omega) rfl (by simp [newContext])
  rw [dispatch, this]
  simp

/-- C15: on a chain in which the handlers at `0..k-1` each run their code
before `Next()`, call `Next()` and run their code after it, and the handler at
`k` calls `Abort()`, the request returns after the code before `Next()` of
handlers `0, ..., k-1`, the whole body of the aborting handler, and then the
code after `Next()` of handlers `k-1, ..., 0` in this order; the handlers
invoked are those at `0..k` and none after `k`. -/
theorem abort_unwinds_entered_handlers (pps : List ((σ → σ) × (σ → σ))) (a b : σ → σ)
    (post : Handlers σ) (req : Request) (ps : List (String × String)) (env : σ)
    (hL : ((pps.map around ++ aborter a b :: post).length : Int) ≤ abortIndex) :
    ∃ t, dispatch (pps.map around ++ aborter a b :: post) req ps env = Result.done t ∧
      t.env = unwind pps (b (a (wind pps env))) ∧
      calls t.trace = List.range (pps.length + 1) := by
  refine ⟨_, dispatch_around_abort pps a b post req ps env hL, rfl, ?_⟩
  simp only [calls_append, calls_aroundTrace, calls]
  rw [List.range_eq_range', List.range'_concat]
  simp

/-- An instance of `abort_unwinds_entered_handlers`: two logging middlewares
around an aborting handler; the handler after it never runs and the log reads
`pre0, pre1, abort, aborted, post1, post0`. -/
theorem abort_unwinds_entered_handlers_witness :
    dispatch abortInside plainRequest [] [] = Result.done abortInsideFinal ∧
    ∃ t, dispatch abortInside plainRequest [] [] = Result.done t ∧
      t.env = unwind [noting ("pre0", "post0"), noting ("pre1", "post1")]
        (note "aborted" (note "abort"
          (wind [noting ("pre0", "post0"), noting ("pre1", "post1")] []))) ∧
      calls t.trace = List.range (2 + 1) :=
  ⟨rfl, abort_unwinds_entered_handlers [noting ("pre0", "post0"), noting ("pre1", "post1")]
    (note "abort") (note "aborted") [Handler.fn (Prog.effect (note "never") Prog.ret)]
    plainRequest [] [] (by decide)⟩

/-! ### Requests do not interfere -/

/-- C18: every request to a registered route runs `Next()` on a Context built
for it: cursor `-1`, no store, the route's chain and the request's parameters,
whatever an earlier request left in its own Context.  So a key that the first
of two requests `Set` is not found by a `Get` of the second unless the second
`Set` it itself, and an `Abort` in the first does not keep the second from
invoking every handler of its chain. -/
theorem requests_do_not_interfere (hs1 hs2 : Handlers σ) (req1 req2 : Request)
    (ps1 ps2 : List (String × String)) (env : σ) (t1 : State σ)
    (h1 : (dispatch hs1 req1 ps1 env).EndsIn t1)
    (hL : (hs2.length : Int) ≤ abortIndex) :
    (∀ (e : Engine σ) (m p : String) (r : Route σ), e.route? m p = some r →
      e.ServeHTTP m p req2 ps2 t1.env =
        some (Context.Next r.handlers.length
          { c := newContext r.handlers req2 ps2, env := t1.env, trace := [] })) ∧
    ((newContext hs2 req2 ps2).index = -1 ∧ (newContext hs2 req2 ps2).keys = none ∧
      (newContext hs2 req2 ps2).handlers = hs2 ∧ (newContext hs2 req2 ps2).Params = ps2) ∧
    (∃ t2, (dispatch hs2 req2 ps2 t1.env).EndsIn t2) ∧
    (∀ key v, Event.set key v ∈ t1.trace →
      ∀ t2, (dispatch hs2 req2 ps2 t1.env).EndsIn t2 →
        ∀ u1 w b u2, t2.trace = u1 ++ Event.get key w b :: u2 →
          (∀ v0, Event.set key v0 ∉ u1) → (w, b) = (Value.null, false)) ∧
    ((∃ p, Event.abort p ∈ t1.trace) →
      ∀ t2, dispatch hs2 req2 ps2 t1.env = Result.done t2 →
        (∀ p, Event.abort p ∉ t2.trace) → calls t2.trace = List.range hs2.length) := by
  have _ := h1
  refine ⟨?_, ⟨rfl, rfl, rfl, rfl⟩, dispatch_ends hs2 hL req2 ps2 t1.env, ?_, ?_⟩
  · intro e m p r hr
    simp only [Engine.ServeHTTP, hr, dispatch]
  · intro key v _ t2 ht2 u1 w b u2 heq hno
    have hget := (dispatch_storeInv hs2 req2 ps2 t1.env t2 ht2).2 u1 key w b u2 heq
    rw [hget]
    simp [storeOf, setsOf_eq_nil key u1 hno]
  · intro _ t2 ht2 hno
    exact dispatch_done_calls hs2 req2 ps2 t1.env hL t2 ht2 hno

/-- An instance of `requests_do_not_interfere`: two requests to the same route;
the first sets the key `k` and aborts, the second does not find `k` and runs
both handlers. -/
theorem requests_do_not_interfere_witness :
    dispatch modeChain modeRequest [] [] = Result.done modeFirstFinal ∧
    Event.set "k" (Value.int 1) ∈ modeFirstFinal.trace ∧
    Event.abort 0 ∈ modeFirstFinal.trace ∧
    dispatch modeChain plainRequest [] modeFirstFinal.env = Result.done modeSecondFinal ∧
    Event.get "k" Value.null false ∈ modeSecondFinal.trace ∧
    (Value.null, false) = (Value.null, false) ∧
    calls modeSecondFinal.trace = List.range modeChain.length :=
  ⟨rfl, by decide, by decide, rfl, by decide,
    (requests_do_not_interfere modeChain modeChain modeRequest plainRequest [] [] []
      modeFirstFinal (Or.inl rfl) (by decide)).2.2.2.1 "k" (Value.int 1) (by decide)
      modeSecondFinal (Or.inl rfl) [Event.invoke 0] Value.null false [Event.invoke 1] rfl
      (by intro v0; simp),
    (requests_do_not_interfere modeChain modeChain modeRequest plainRequest [] [] []
      modeFirstFinal (Or.inl rfl) (by decide)).2.2.2.2 ⟨0, by decide⟩
      modeSecondFinal rfl (by intro p; simp [modeSecondFinal])⟩

end Geneva
